import Mathlib

/-!
Verification development for the Octocrawl crawl engine.

The Python sources (src/crawler.py, src/parser.py, src/fingerprint.py,
src/http_request.py) are shallowly embedded here.  Strings are modelled as
Lean lists of characters; Python dictionaries are modelled as
insertion-ordered association lists; Python sets are modelled as
duplicate-free lists.  The URL machinery mirrors CPython 3.11's
urllib.parse (urlsplit, urlunsplit, urlparse, urlunparse, urljoin), with
the exception that the ValueError branches for malformed IPv6 brackets and
the NFKC netloc check are not modelled (the embedding is total).  The
concurrent worker pool is modelled by its sequential determinization: one
worker processes the FIFO frontier one URL at a time, which realizes the
mutual-exclusion discipline the code enforces with asyncio locks.
-/

namespace Octocrawl

abbrev Str := List Char

/-- Lowercase a string, character by character (ASCII model of str.lower). -/
def strLower (s : Str) : Str := s.map Char.toLower

/-- Membership-based test used for Python's `c in chars` checks. -/
def charIn (c : Char) (chars : Str) : Bool := chars.contains c

/-- Python `sub in s` substring test. -/
def containsSub (sub : Str) : Str → Bool
  | [] => sub.isEmpty
  | c :: rest => List.isPrefixOf sub (c :: rest) || containsSub sub rest

/-- The predicate "is a character other than c". -/
def neChar (c x : Char) : Bool := x ≠ c

/-- Python `s.split(c, 1)` when `c` occurs, else `(s, [])`; combined with the
`if c in s` guards of the source this agrees with the source on every input. -/
def splitAtFirst (c : Char) (s : Str) : Str × Str :=
  (s.takeWhile (neChar c), (s.dropWhile (neChar c)).drop 1)

/-- Python `s.split(sep)` on a single character separator (never empty). -/
def splitOnChar (c : Char) : Str → List Str
  | [] => [[]]
  | x :: xs =>
    match splitOnChar c xs with
    | [] => [[x]]
    | h :: t => if x = c then [] :: h :: t else (x :: h) :: t

/-- Python `s.strip(c)` for a one-character strip set. -/
def stripChar (c : Char) (s : Str) : Str :=
  ((s.dropWhile (fun x => x = c)).reverse.dropWhile (fun x => x = c)).reverse

/-- Python `s.strip(chars)` for a multi-character strip set. -/
def stripChars (chars : Str) (s : Str) : Str :=
  ((s.dropWhile (fun x => charIn x chars)).reverse.dropWhile
      (fun x => charIn x chars)).reverse

/-- Lookup in an insertion-ordered association list (Python `d[k]` / `k in d`). -/
def dlookup {α : Type} (k : Str) : List (Str × α) → Option α
  | [] => none
  | (k', v) :: rest => if k = k' then some v else dlookup k rest

/-- Python `k in d`. -/
def dmem {α : Type} (k : Str) (d : List (Str × α)) : Bool :=
  (dlookup k d).isSome

/-- Python `d[k] = v`: replace in place if the key exists, else append. -/
def dictInsert {α : Type} (d : List (Str × α)) (k : Str) (v : α) :
    List (Str × α) :=
  match d with
  | [] => [(k, v)]
  | (k', v') :: rest =>
    if k = k' then (k', v) :: rest else (k', v') :: dictInsert rest k v

/-- Python `d.update(other)`: fold the pairs of `other` into `d` in order. -/
def dictUpdate {α : Type} (d other : List (Str × α)) : List (Str × α) :=
  other.foldl (fun acc kv => dictInsert acc kv.1 kv.2) d

/-- Python set-insert on a duplicate-free list (`s.add(x)`). -/
def setInsert (s : List Str) (x : Str) : List Str :=
  if x ∈ s then s else s ++ [x]

/-- Deduplicate a list, keeping first occurrences (building a Python set). -/
def setOfList (l : List Str) : List Str := l.foldl setInsert []

/-! ## urllib.parse embedding (CPython 3.11) -/

/-- Characters valid in scheme names (urllib.parse.scheme_chars). -/
def scheme_chars : Str :=
  "abcdefghijklmnopqrstuvwxyzABCDEFGHIJKLMNOPQRSTUVWXYZ0123456789+-.".data

/-- urllib.parse.uses_relative. -/
def uses_relative : List Str :=
  ["", "ftp", "http", "gopher", "nntp", "imap", "wais", "file", "https",
   "shttp", "mms", "prospero", "rtsp", "rtspu", "sftp", "svn", "svn+ssh",
   "ws", "wss"].map String.data

/-- urllib.parse.uses_netloc. -/
def uses_netloc : List Str :=
  ["", "ftp", "http", "gopher", "nntp", "telnet", "imap", "wais", "file",
   "mms", "https", "shttp", "snews", "prospero", "rtsp", "rtspu", "rsync",
   "svn", "svn+ssh", "sftp", "nfs", "git", "git+ssh", "ws", "wss"].map
    String.data

/-- urllib.parse.uses_params. -/
def uses_params : List Str :=
  ["", "ftp", "hdl", "prospero", "http", "imap", "https", "shttp", "rtsp",
   "rtspu", "sip", "sips", "mms", "sftp", "tel"].map String.data

/-- Python `url[0].isascii() and url[0].isalpha()` for the scheme guard. -/
def isAsciiAlpha (c : Char) : Bool :=
  ('a' ≤ c && c ≤ 'z') || ('A' ≤ c && c ≤ 'Z')

/-- The characters urlsplit keeps (everything but tab, CR, LF). -/
def cleanChar (c : Char) : Bool := !(c = '\t' || c = '\r' || c = '\n')

/-- urlsplit's removal of the unsafe bytes tab, CR, LF from the URL. -/
def removeUnsafeBytes (u : Str) : Str := u.filter cleanChar

/-- The scheme-extraction step of urlsplit: if the text before the first
colon is a nonempty run of scheme characters starting with an ASCII letter,
it is removed and lowercased; otherwise no scheme is extracted. -/
def extractScheme (url : Str) : Option Str × Str :=
  let before := url.takeWhile (neChar ':')
  if before.length < url.length && 0 < before.length &&
      isAsciiAlpha (url.headD ' ') && before.all (fun c => charIn c scheme_chars)
  then (some (strLower before), url.drop (before.length + 1))
  else (none, url)

/-- The delimiter set of urllib.parse._splitnetloc. -/
def netlocStop (c : Char) : Bool := c = '/' || c = '?' || c = '#'

/-- urllib.parse._splitnetloc: the input is the text after the leading
slashes; the netloc runs to the first of the characters slash, question
mark, hash. -/
def splitNetloc (u : Str) : Str × Str :=
  (u.takeWhile (fun c => !netlocStop c), u.dropWhile (fun c => !netlocStop c))

structure SplitResult where
  scheme : Str
  netloc : Str
  path : Str
  query : Str
  fragment : Str
deriving DecidableEq

/-- urlsplit's first stage: remove unsafe bytes, then try to extract the
scheme. -/
def schemePhase (url : Str) : Option Str × Str :=
  extractScheme (removeUnsafeBytes url)

/-- urlsplit's netloc stage: a leading double slash starts the netloc. -/
def netlocPhase (u1 : Str) : Str × Str :=
  if u1.take 2 = ['/', '/'] then splitNetloc (u1.drop 2) else ([], u1)

/-- urllib.parse.urlsplit (allow_fragments=True), total model: the
ValueError branches for unbalanced IPv6 brackets and the NFKC netloc check
are not modelled. -/
def urlsplit (url : Str) (defaultScheme : Str := []) : SplitResult :=
  let sn := schemePhase url
  let nl := netlocPhase sn.2
  let fr := splitAtFirst '#' nl.2
  let pq := splitAtFirst '?' fr.1
  ⟨sn.1.getD defaultScheme, nl.1, pq.1, pq.2, fr.2⟩

/-- urllib.parse._splitparams. -/
def splitparams (url : Str) : Str × Str :=
  if '/' ∈ url then
    let afterLastSlash := (url.reverse.takeWhile (neChar '/')).reverse
    let upToLastSlash := url.take (url.length - afterLastSlash.length)
    if ';' ∈ afterLastSlash then
      (upToLastSlash ++ afterLastSlash.takeWhile (neChar ';'),
       (afterLastSlash.dropWhile (neChar ';')).drop 1)
    else (url, [])
  else if ';' ∈ url then
    (url.takeWhile (neChar ';'), (url.dropWhile (neChar ';')).drop 1)
  else (url, [])

structure ParseResult where
  scheme : Str
  netloc : Str
  path : Str
  params : Str
  query : Str
  fragment : Str
deriving DecidableEq

/-- The params stage of urlparse: schemes that use params get the path
split at the parameter separator. -/
def paramsPhase (scheme path : Str) : Str × Str :=
  if scheme ∈ uses_params && ';' ∈ path then splitparams path
  else (path, [])

/-- urllib.parse.urlparse. -/
def urlparse (url : Str) (defaultScheme : Str := []) : ParseResult :=
  let sr := urlsplit url defaultScheme
  let pp := paramsPhase sr.scheme sr.path
  ⟨sr.scheme, sr.netloc, pp.1, pp.2, sr.query, sr.fragment⟩

/-- urllib.parse.urlunsplit (CPython 3.11). -/
def urlunsplit (sr : SplitResult) : Str :=
  let url := sr.path
  let url :=
    if sr.netloc ≠ [] ∨ (sr.scheme ≠ [] ∧ sr.scheme ∈ uses_netloc ∧
        url.take 2 ≠ ['/', '/']) then
      let url' := if url ≠ [] ∧ url.take 1 ≠ ['/'] then '/' :: url else url
      '/' :: '/' :: (sr.netloc ++ url')
    else url
  let url := if sr.scheme ≠ [] then sr.scheme ++ ':' :: url else url
  let url := if sr.query ≠ [] then url ++ '?' :: sr.query else url
  if sr.fragment ≠ [] then url ++ '#' :: sr.fragment else url

/-- Rejoining path and params, as done at the start of urlunparse. -/
def rejoin (path params : Str) : Str :=
  if params ≠ [] then path ++ ';' :: params else path

/-- urllib.parse.urlunparse. -/
def urlunparse (pr : ParseResult) : Str :=
  urlunsplit ⟨pr.scheme, pr.netloc, rejoin pr.path pr.params, pr.query,
    pr.fragment⟩

/-- crawler._normalize_url: the parsed URL with query and fragment cleared,
put back together (the CanonicalURL of the spec). -/
def normList (url : Str) : Str :=
  urlunparse { urlparse url with query := [], fragment := [] }

/-- String-level wrapper of crawler._normalize_url. -/
def normalize_url (s : String) : String := ⟨normList s.data⟩

/-! ## urljoin (CPython 3.11) -/

/-- The slice assignment segments[1:-1] = filter(None, segments[1:-1]):
empty segments strictly inside the list are removed. -/
def filterInnerSegs (segs : List Str) : List Str :=
  match segs with
  | [] => []
  | a :: rest =>
    if rest = [] then [a]
    else
      a :: (((rest.take (rest.length - 1)).filter (fun s => s ≠ [])) ++
        rest.drop (rest.length - 1))

/-- The resolved_path loop of urljoin: '..' pops (ignoring underflow), '.'
is skipped, everything else is appended; a trailing '.' or '..' re-appends
the empty segment. -/
def resolveSegments (segs : List Str) : List Str :=
  let rp := segs.foldl (fun acc seg =>
    if seg = ['.', '.'] then acc.dropLast
    else if seg = ['.'] then acc
    else acc ++ [seg]) []
  if segs.getLast? = some ['.'] ∨ segs.getLast? = some ['.', '.'] then
    rp ++ [[]]
  else rp

/-- urllib.parse.urljoin (CPython 3.11). -/
def urljoin (base url : Str) : Str :=
  if base = [] then url
  else if url = [] then base
  else
    let b := urlparse base
    let p := urlparse url b.scheme
    if p.scheme ≠ b.scheme ∨ p.scheme ∉ uses_relative then url
    else
      let inNetloc := p.scheme ∈ uses_netloc
      if inNetloc ∧ p.netloc ≠ [] then urlunparse p
      else
        let netloc := if inNetloc then b.netloc else p.netloc
        if p.path = [] ∧ p.params = [] then
          let query := if p.query = [] then b.query else p.query
          urlunparse ⟨p.scheme, netloc, b.path, b.params, query, p.fragment⟩
        else
          let base_parts0 := splitOnChar '/' b.path
          let base_parts :=
            if base_parts0.getLast? ≠ some [] then base_parts0.dropLast
            else base_parts0
          let segments :=
            if p.path.take 1 = ['/'] then splitOnChar '/' p.path
            else filterInnerSegs (base_parts ++ splitOnChar '/' p.path)
          let joined := List.intercalate ['/'] (resolveSegments segments)
          let path' := if joined = [] then ['/'] else joined
          urlunparse ⟨p.scheme, netloc, path', p.params, p.query, p.fragment⟩

/-! ## parser.py: keyword search -/

def countSubAux (sub : Str) : Nat → Str → Nat
  | 0, _ => 0
  | _ + 1, [] => 0
  | fuel + 1, c :: rest =>
    if List.isPrefixOf sub (c :: rest) then
      1 + countSubAux sub fuel (List.drop (sub.length - 1) rest)
    else countSubAux sub fuel rest

/-- Python str.count: non-overlapping occurrences scanning left to right
(the fuel equals the text length, which the scan never exhausts early). -/
def countSub (sub text : Str) : Nat :=
  if sub = [] then text.length + 1 else countSubAux sub text.length text

/-- The keyword loop of parser.search_text_for_keywords. -/
def keywordLoop (textLower : Str) : List Str → List (Str × Nat) →
    List (Str × Nat)
  | [], acc => acc
  | kw :: rest, acc =>
    let count := countSub (strLower kw) textLower
    keywordLoop textLower rest
      (if 0 < count then dictInsert acc kw count else acc)

/-- parser.search_text_for_keywords: mapping keyword to case-insensitive
occurrence count of the keyword in the text, zero counts omitted. -/
def search_text_for_keywords (text : Str) (keywords : List Str) :
    List (Str × Nat) :=
  if keywords = [] ∨ text = [] then []
  else keywordLoop (strLower text) keywords []

/-! ## parser.py: directory-listing extractor -/

/-- dir_listing_parser's fixed ignore set. -/
def ignored_hrefs : List Str :=
  ["/", "../", "?C=N;O=D", "?C=M;O=A", "?C=S;O=A", "?C=D;O=A"].map
    String.data

/-- dir_listing_parser.internal_links.  The list of anchor href values
stands in for BeautifulSoup's find_all of anchor tags with an href; the
resulting Python set is modelled as a duplicate-free list in insertion
order. -/
def dirListingStep (base_url : Str) (links : List Str) (href : Str) :
    List Str :=
  if href = [] || href.take 1 = ['?'] || href ∈ ignored_hrefs then links
  else
    let parsed := urlparse (urljoin base_url href)
    if parsed.netloc = (urlparse base_url).netloc then
      setInsert links (urlunparse { parsed with fragment := [] })
    else links

def dir_listing_internal_links (base_url : Str) (hrefs : List Str) :
    List Str :=
  hrefs.foldl (dirListingStep base_url) []

/-! ## parser.py: JSON extractor -/

inductive JValue where
  | jnull : JValue
  | jbool : Bool → JValue
  | jnum : Int → JValue
  | jstr : Str → JValue
  | jarr : List JValue → JValue
  | jobj : List (Str × JValue) → JValue

/-- Python falsiness of a decoded JSON document (the `if not self.data`
guard of json_parser.internal_links). -/
def JValue.isFalsy : JValue → Bool
  | .jnull => true
  | .jbool b => !b
  | .jnum n => n = 0
  | .jstr s => s.isEmpty
  | .jarr items => items.isEmpty
  | .jobj fields => fields.isEmpty

/-- json_parser.LINK_KEYS. -/
def LINK_KEYS : List Str :=
  ["href", "url", "src", "link", "guid", "uri", "path", "location"].map
    String.data

def setUnion (a b : List Str) : List Str := b.foldl setInsert a

/-- json_parser._find_urls_recursive.  The fuel argument counts the
remaining allowed depth: the source enters with depth 0 and cuts off once
depth exceeds max_depth = 10, so the top-level call gets fuel 11. -/
def find_urls_aux : Nat → JValue → List Str
  | 0, _ => []
  | fuel + 1, .jobj fields =>
    fields.foldl (fun acc kv =>
      match kv.2 with
      | .jstr s => if kv.1 ∈ LINK_KEYS then setInsert acc s else acc
      | .jobj _ => setUnion acc (find_urls_aux fuel kv.2)
      | .jarr _ => setUnion acc (find_urls_aux fuel kv.2)
      | _ => acc) []
  | fuel + 1, .jarr items =>
    items.foldl (fun acc item =>
      match item with
      | .jobj _ => setUnion acc (find_urls_aux fuel item)
      | .jarr _ => setUnion acc (find_urls_aux fuel item)
      | .jstr s =>
        if List.isPrefixOf "http://".data s ||
            List.isPrefixOf "https://".data s ||
            List.isPrefixOf "/".data s ||
            List.isPrefixOf "./".data s then
          setInsert acc s
        else acc
      | _ => acc) []
  | _ + 1, _ => []

/-- json_parser._find_urls_recursive at its default arguments
(depth 0, max_depth 10). -/
def find_urls_recursive (v : JValue) : List Str := find_urls_aux 11 v

/-- The character set stripped from each discovered JSON link. -/
def jsonStripSet : Str :=
  ['"', ',', '\'', '\\', '(', ')', ' ', '\t', '\n', '\r']

/-- json_parser.internal_links over the decoded document (json.loads is
the stdlib; a decode failure yields the falsy empty object upstream). -/
def jsonLinkStep (base_url : Str) (acc : List Str) (link : Str) : List Str :=
  let clean_link := stripChars jsonStripSet link
  if clean_link = [] then acc
  else
    let parsed := urlparse (urljoin base_url clean_link)
    if parsed.netloc = (urlparse base_url).netloc then
      setInsert acc (urlunparse { parsed with fragment := [] })
    else acc

def json_internal_links (base_url : Str) (data : JValue) : List Str :=
  if data.isFalsy then []
  else (find_urls_recursive data).foldl (jsonLinkStep base_url) []

/-! ## fingerprint.py -/

def isPySpace (c : Char) : Bool :=
  c = ' ' || c = '\t' || c = '\n' || c = '\r' || c = '\x0b' || c = '\x0c'

/-- Python str.strip() with no arguments (whitespace). -/
def stripWS (s : Str) : Str :=
  ((s.dropWhile isPySpace).reverse.dropWhile isPySpace).reverse

/-- fingerprint.INTERESTING_HEADERS as (lowercase header key, display). -/
def INTERESTING_HEADERS : List (Str × Str) :=
  [("server", "Server"), ("x-powered-by", "X-Powered-By"),
   ("x-aspnet-version", "ASP.NET Version"), ("via", "Via (Proxies)"),
   ("x-runtime", "X-Runtime (Ruby/Rails)"), ("x-cache", "X-Cache"),
   ("x-cache-status", "X-Cache-Status"), ("age", "Age (seconds in cache)"),
   ("cf-cache-status", "Cloudflare Cache"),
   ("strict-transport-security", "HSTS Policy"),
   ("content-security-policy", "Content-Security-Policy"),
   ("x-frame-options", "X-Frame-Options"),
   ("x-content-type-options", "X-Content-Type-Options"),
   ("x-generator", "X-Generator"), ("link", "Link Header"),
   ("x-drupal-cache", "X-Drupal-Cache")].map
    (fun p => (p.1.data, p.2.data))

def isQuoteChar (c : Char) : Bool := c = '"' || c = '\''

/-- Case-insensitive literal matcher for the generator-meta signature. -/
def matchLit (lit s : Str) : Option Str :=
  if lit.length ≤ s.length ∧ strLower (s.take lit.length) = strLower lit then
    some (s.drop lit.length)
  else none

def matchSpaces1 (s : Str) : Option Str :=
  match s with
  | c :: _ => if isPySpace c then some (s.dropWhile isPySpace) else none
  | [] => none

def matchQuote (s : Str) : Option Str :=
  match s with
  | c :: rest => if isQuoteChar c then some rest else none
  | [] => none

/-- One anchored attempt of the CONTENT_SIGNATURES regex for the
generator meta tag, returning the captured content value. -/
def matchGeneratorAt (s : Str) : Option Str := do
  let s ← matchLit "<meta".data s
  let s ← matchSpaces1 s
  let s ← matchLit "name=".data s
  let s ← matchQuote s
  let s ← matchLit "generator".data s
  let s ← matchQuote s
  let s ← matchSpaces1 s
  let s ← matchLit "content=".data s
  let s ← matchQuote s
  let cap := s.takeWhile (fun c => !isQuoteChar c)
  let rest := s.dropWhile (fun c => !isQuoteChar c)
  if cap ≠ [] ∧ rest ≠ [] then some cap else none

/-- re.search of the generator-meta pattern: leftmost match wins. -/
def searchGenerator : Str → Option Str
  | [] => none
  | c :: rest =>
    match matchGeneratorAt (c :: rest) with
    | some cap => some cap
    | none => searchGenerator rest

/-- fingerprint.fingerprint_technologies. -/
def fingerprint_technologies (headers : List (Str × Str)) (content : Str) :
    List (Str × Str) :=
  let found := INTERESTING_HEADERS.foldl (fun acc p =>
    match dlookup p.1 headers with
    | some v => if v ≠ [] then dictInsert acc p.2 (stripWS v) else acc
    | none => acc) []
  let found :=
    if content ≠ [] then
      match searchGenerator content with
      | some cap => dictInsert found "Generator (Meta)".data (stripWS cap)
      | none => found
    else found
  let cookie := (dlookup "set-cookie".data headers).getD []
  if containsSub "phpsessid".data (strLower cookie) then
    if dmem "Session".data found then found
    else dictInsert found "Session".data "PHP (PHPSESSID cookie)".data
  else if containsSub "jsessionid".data (strLower cookie) then
    if dmem "Session".data found then found
    else dictInsert found "Session".data "Java (JSESSIONID cookie)".data
  else found

/-- crawler.worker's technology accumulation: self.technologies.update for
each response's fingerprint result, in response order. -/
def techMerge (maps : List (List (Str × Str))) : List (Str × Str) :=
  maps.foldl dictUpdate []

/-! ## Claim C8: JSON extractor -/

/-- A JSON object nested n levels deep with a link-keyed string at the
bottom, used to exhibit the recursion-depth cutoff. -/
def nestObj (n : Nat) : JValue :=
  Nat.rec (JValue.jobj [("url".data, JValue.jstr "/deep".data)])
    (fun _ ih => JValue.jobj [("x".data, ih)]) n

/-! ## crawler.py: sitemap tree -/

/-- The per-URL record the worker stores (url_data in crawler.worker):
code is none for the Error marker, otherwise the HTTP status. -/
structure PageData where
  code : Option Nat
  content_type : Str
  url : Str
  keywords : List (Str × Nat)
deriving DecidableEq

mutual
/-- A sitemap node: the optional stored record plus the child dictionary
(Python nests dicts, with the record under the reserved key _data). -/
inductive SNode where
  | node : Option PageData → SChildren → SNode
deriving DecidableEq
/-- The insertion-ordered child dictionary of a sitemap node. -/
inductive SChildren where
  | nil : SChildren
  | cons : Str → SNode → SChildren → SChildren
deriving DecidableEq
end

def emptyNode : SNode := .node none .nil

def SNode.dataOf : SNode → Option PageData
  | .node d _ => d

def SNode.children : SNode → SChildren
  | .node _ cs => cs

def SChildren.find (k : Str) : SChildren → Option SNode
  | .nil => none
  | .cons k2 n rest => if k = k2 then some n else SChildren.find k rest

/-- Python current_level.setdefault(segment, ...) followed by a mutation
of the child: apply f to the existing child, or to a fresh empty node. -/
def SChildren.updateChild (k : Str) (f : SNode → SNode) :
    SChildren → SChildren
  | .nil => .cons k (f emptyNode) .nil
  | .cons k2 n rest =>
    if k = k2 then .cons k2 (f n) rest
    else .cons k2 n (SChildren.updateChild k f rest)

def SNode.setData (d : PageData) : SNode → SNode
  | .node _ cs => .node (some d) cs

def SNode.updateAt (k : Str) (f : SNode → SNode) : SNode → SNode
  | .node d cs => .node d (cs.updateChild k f)

/-- The segment walk of crawler._add_to_sitemap: intermediate empty
segments are skipped, the last nonempty segment receives the record. -/
def insertSegs (d : PageData) : List Str → SNode → SNode
  | [], n => n
  | [last], n =>
    if last = [] then n else n.updateAt last (SNode.setData d)
  | seg :: rest, n =>
    if seg = [] then insertSegs d rest n
    else n.updateAt seg (fun m => insertSegs d rest m)

/-- The path segments crawler._add_to_sitemap computes from the URL. -/
def path_segments_of (url : Str) : List Str :=
  let p := (urlparse url).path
  let sp := stripChar '/' p
  if sp = [] then [] else splitOnChar '/' sp

/-- crawler._add_to_sitemap. -/
def add_to_sitemap (sm : SNode) (url : Str) (d : PageData) : SNode :=
  let segs := path_segments_of url
  if segs = [] ∨ (segs.length = 1 ∧ segs.headD [] = []) then
    sm.updateAt "/".data (SNode.setData d)
  else insertSegs d segs sm

def sitemapStep (sm : SNode) (p : Str × PageData) : SNode :=
  add_to_sitemap sm p.1 p.2

/-- Folding a list of (URL, record) pairs into an empty sitemap. -/
def buildSitemap (pairs : List (Str × PageData)) : SNode :=
  pairs.foldl sitemapStep emptyNode

/-- The effective storage address of a URL in the sitemap: the reserved
root key for empty paths, otherwise the nonempty path segments. -/
def effPath (url : Str) : List Str :=
  let segs := path_segments_of url
  if segs = [] ∨ (segs.length = 1 ∧ segs.headD [] = []) then ["/".data]
  else segs.filter (fun s => s ≠ [])

/-- Observing a sitemap node along a path of child keys: none when the
path leaves the tree, otherwise the stored record of the reached node. -/
def SNode.probe : SNode → List Str → Option (Option PageData)
  | t, [] => some t.dataOf
  | t, k :: rest =>
    match t.children.find k with
    | none => none
    | some c => SNode.probe c rest

/-- Two sitemaps are isomorphic when every path reaches the same shape
and record in both. -/
def SNode.Equiv (t1 t2 : SNode) : Prop := ∀ p, t1.probe p = t2.probe p

/-- The dispatch of add_to_sitemap expressed as one insertSegs call. -/
def addrSegs (url : Str) : List Str :=
  if path_segments_of url = [] ∨ ((path_segments_of url).length = 1 ∧
      (path_segments_of url).headD [] = []) then ["/".data]
  else path_segments_of url

/-- Two concrete page records used to exhibit a sitemap path collision. -/
def c5d1 : PageData :=
  ⟨some 200, "text/html".data, "http://x.test/a".data, []⟩

def c5d2 : PageData :=
  ⟨some 404, "text/html".data, "http://x.test/a/".data, []⟩

/-! ## The crawl machine (sequential determinization of crawler.crawl) -/

/-- The result dict of http_request: code none models the string "Error";
done is set only when raise_for_status passed. -/
structure FetchRes where
  code : Option Nat
  done : Bool
  content_type : Str
  content : Str
  headers : List (Str × Str)
deriving DecidableEq

/-- http_request's initial result dict, returned unchanged on transport
errors (the httpx.RequestError handler). -/
def errorRes : FetchRes :=
  ⟨none, false, "error".data, [], []⟩

/-- The crawl environment: finite tables describing the network and the
external parsing libraries (httpx, bs4). A URL absent from fetchTbl gets
http_request's transport-error result; fetchExn lists URLs whose fetch
await raises a non-httpx exception, parseExn those whose parser
construction or internal_links computation raises. parseTbl holds, per
page, the raw candidate link strings bs4/json extraction finds in the
content together with the keyword counts; the machine itself applies
emitLink, the urljoin/same-host/geturl pipeline parser.py runs on every
candidate before internal_links returns it. -/
structure CEnv where
  fetchTbl : List (Str × FetchRes)
  fetchExn : List Str
  parseTbl : List (Str × (List Str × List (Str × Nat)))
  parseExn : List Str

/-- The crawler's mutable state, with a ghost trace of the URLs passed to
http_request in order and a ghost counter of discovery passes. -/
structure CState where
  start : Str
  queue : List Str
  visited : List Str
  gathered : List (Str × PageData)
  sitemap : SNode
  technologies : List (Str × Str)
  checked : List Str
  trace : List Str
  passes : Nat
deriving DecidableEq

/-- crawler.__init__ plus the crawl() seeding: the raw start URL is
enqueued, its canonical form pre-inserted into visited_urls. -/
def initState (start : Str) : CState :=
  ⟨start, [start], [normList start], [], emptyNode, [], [], [], 0⟩

/-- One step of the link-enqueue loop of crawler.worker lines 99-104:
normalize, then test-and-insert against visited before putting the
normalized link on the queue. -/
def enqStep (st : CState) (l : Str) : CState :=
  if normList l ∈ st.visited then st
  else { st with
         visited := st.visited ++ [normList l],
         queue := st.queue ++ [normList l] }

/-- The link-enqueue loop of crawler.worker lines 99-104. -/
def enqLinks (s : CState) (links : List Str) : CState :=
  links.foldl enqStep s

/-- The technology accumulation of crawler.worker lines 67-71, applied
before the duplicate check. -/
def techPhase (s : CState) (r : FetchRes) : CState :=
  if r.done && decide (fingerprint_technologies r.headers r.content ≠ []) then
    { s with
      technologies := dictUpdate s.technologies
        (fingerprint_technologies r.headers r.content) }
  else s

/-- The recording step of crawler.worker lines 108-110: store the record
under the canonical URL in gathered_urls and the sitemap. -/
def recordPhase (s : CState) (c : Str) (d : PageData) : CState :=
  { s with
    gathered := dictInsert s.gathered c d,
    sitemap := add_to_sitemap s.sitemap c d }

/-- The worker builds a parser exactly when the request succeeded with
status 200, nonempty content, and an html- or json-bearing content type. -/
def wantsParser (r : FetchRes) : Bool :=
  r.done && decide (r.code = some 200) && decide (r.content ≠ []) &&
    (containsSub "html".data r.content_type ||
     containsSub "json".data r.content_type)

/-- The link-emission step shared by the three parsers in parser.py:
resolve the raw candidate against the page's base URL, keep it only when
the absolute link's netloc equals the base URL's netloc (the parser's
base_domain), and return the geturl round trip of the parsed absolute
link with its fragment dropped. -/
def emitLink (base cand : Str) : Option Str :=
  if (urlparse (urljoin base cand)).netloc = (urlparse base).netloc then
    some (urlunparse { urlparse (urljoin base cand) with fragment := [] })
  else none

/-- One worker iteration body (crawler.worker lines 60-110) for dequeued
URL u. An exception (fetchExn, or parseExn once a parser is built) runs
the except handler, which only prints: every crawl structure keeps the
value it had when the exception was raised. -/
def processUrl (env : CEnv) (kw : Bool) (s : CState) (u : Str) : CState :=
  if u ∈ env.fetchExn then s
  else
    let r := (dlookup u env.fetchTbl).getD errorRes
    let s1 := techPhase s r
    let c := normList u
    if dmem c s1.gathered then s1
    else if wantsParser r then
      if u ∈ env.parseExn then s1
      else
        let pr := (dlookup u env.parseTbl).getD ([], [])
        recordPhase (enqLinks s1 ((pr.1).filterMap (emitLink c))) c
          ⟨r.code, r.content_type, c, if kw then pr.2 else []⟩
    else recordPhase s1 c ⟨r.code, r.content_type, c, []⟩

/-- Python current_path_url if it ends with '/' else current_path_url+'/'
(crawler._get_all_directory_urls). -/
def addSlash (cur : Str) : Str :=
  if cur.getLast? = some '/' then cur else cur ++ ['/']

/-- crawler._get_all_directory_urls: directory URLs derived from sitemap
nodes that have children, resolved hop by hop with urljoin. -/
def dirUrlsC : SChildren → Str → List Str
  | .nil, _ => []
  | .cons k (.node _ cs) rest, cur =>
    (if cs = .nil then []
     else
       let du := urljoin (addSlash cur) (k ++ ['/'])
       du :: dirUrlsC cs du) ++ dirUrlsC rest cur

/-- All directory URLs of the current sitemap, as the set the source
builds (deduplicated). -/
def allDirs (s : CState) : List Str :=
  setOfList (dirUrlsC s.sitemap.children s.start)

/-- One step of the discovery re-seed of crawler.crawl lines 157-164:
enqueue the raw directory URL if its canonical form is unvisited. -/
def dirStep (st : CState) (d : Str) : CState :=
  if normList d ∈ st.visited then st
  else { st with
         visited := st.visited ++ [normList d],
         queue := st.queue ++ [d] }

/-- The enqueue-then-mark body of one discovery pass. -/
def reseed (s : CState) (newDirs : List Str) : CState :=
  let s1 := newDirs.foldl dirStep s
  { s1 with checked := s1.checked ++ newDirs, passes := s1.passes + 1 }

/-- The sequential determinization of crawler.crawl: process the queue to
exhaustion, then run discovery passes until no unprobed directory URL
remains (DONE); the fuel bounds the number of elementary steps. -/
def crawlRun (env : CEnv) (kw : Bool) : Nat → CState → CState
  | 0, s => s
  | n + 1, s =>
    match s.queue with
    | u :: rest =>
      crawlRun env kw n
        (processUrl env kw { s with queue := rest, trace := s.trace ++ [u] } u)
    | [] =>
      let nd := (allDirs s).filter (fun d => d ∉ s.checked)
      if nd = [] then s
      else crawlRun env kw n (reseed s nd)

/-- crawl's DONE condition: queue drained and no unprobed directory URL. -/
def IsDone (s : CState) : Prop :=
  s.queue = [] ∧ (allDirs s).filter (fun d => d ∉ s.checked) = []

instance (s : CState) : Decidable (IsDone s) :=
  inferInstanceAs (Decidable (_ ∧ _))

/-- httpx's host requirement: an AsyncClient request to a URL without a
netloc raises httpx.RequestError before producing a response, so the
done flag of http_request can be true only at a URL whose parsed netloc
is nonempty. -/
def FetchOk (env : CEnv) : Prop :=
  ∀ p ∈ env.fetchTbl, p.2.done = true → (urlparse p.1).netloc ≠ []

instance (env : CEnv) : Decidable (FetchOk env) :=
  inferInstanceAs (Decidable (∀ p ∈ env.fetchTbl, p.2.done = true →
    (urlparse p.1).netloc ≠ []))

/-- The number of occurrences of a string in a list. -/
def countStr (c : Str) (l : List Str) : Nat :=
  (l.filter (fun x => x = c)).length

/-- The dedup invariant: the canonical forms of all URLs ever passed to
http_request together with those still queued are pairwise distinct, and
every one of them has been inserted into visited_urls. -/
def TraceInv (s : CState) : Prop :=
  ((s.trace ++ s.queue).map normList).Nodup ∧
  ∀ x ∈ s.trace ++ s.queue, normList x ∈ s.visited

/-- Environment for the C1 witness: a two-page same-host site whose seed
page links its child through a query-carrying URL. -/
def c1WEnv : CEnv :=
  ⟨[("http://x.test/".data,
      ⟨some 200, true, "text/html".data, "p".data, []⟩)],
   [],
   [("http://x.test/".data, (["http://x.test/a?q=1".data], []))],
   []⟩

/-- Environment for the C3 counterexample: page a parses with an
exception, page b is a transport error. -/
def c3Env : CEnv :=
  ⟨[("http://x.test/a".data,
      ⟨some 200, true, "text/html".data, "c".data, []⟩)],
   [], [], ["http://x.test/a".data]⟩

def c3State : CState :=
  ⟨"http://x.test/".data,
   ["http://x.test/a".data, "http://x.test/b".data],
   [normList "http://x.test/a".data, normList "http://x.test/b".data],
   [], emptyNode, [], [], [], 0⟩

def c10Data : PageData :=
  ⟨some 200, "text/html".data, "http://x.test/a".data, []⟩

def c10Env : CEnv := ⟨[], [], [], []⟩

def c10State : CState :=
  ⟨"http://x.test/".data, ["http://x.test/a".data],
   [normList "http://x.test/a".data],
   [("http://x.test/a".data, c10Data)], emptyNode, [], [], [], 0⟩

/-- Depth of nested directory-shaped nodes (nodes with children) in a
sitemap child dictionary. -/
def dirDepthC : SChildren → Nat
  | .nil => 0
  | .cons _ (.node _ cs) rest =>
    max (if cs = .nil then 0 else 1 + dirDepthC cs) (dirDepthC rest)

/-- The maximum directory depth of a sitemap tree. -/
def maxDirDepth (t : SNode) : Nat := dirDepthC t.children

/-- Environment for the C4 counterexample: a finite acyclic site whose
directory probes keep revealing one more sibling directory per pass. -/
def c4Env : CEnv :=
  ⟨[("http://x.test/".data,
      ⟨some 200, true, "text/html".data, "p".data, []⟩),
    ("http://x.test/a/".data,
      ⟨some 200, true, "text/html".data, "p".data, []⟩),
    ("http://x.test/b/".data,
      ⟨some 200, true, "text/html".data, "p".data, []⟩)],
   [],
   [("http://x.test/".data, (["http://x.test/a/f.html".data], [])),
    ("http://x.test/a/".data, (["http://x.test/b/f.html".data], [])),
    ("http://x.test/b/".data, (["http://x.test/c/f.html".data], []))],
   []⟩

/-- The key paths of directory-shaped nodes (nodes with children). -/
def dirPaths : SChildren → List (List Str)
  | .nil => []
  | .cons k (.node _ cs) rest =>
    (if cs = .nil then [] else [k] :: (dirPaths cs).map (fun p => k :: p))
      ++ dirPaths rest

/-- The directory URL obtained by resolving a key path hop by hop from a
base URL, exactly as _get_all_directory_urls does. -/
def chainFrom (cur : Str) : List Str → Str
  | [] => cur
  | k :: ks => chainFrom (urljoin (addSlash cur) (k ++ ['/'])) ks

/-- All nonempty prefixes of a key path. -/
def prefixesOf (p : List Str) : List (List Str) :=
  (List.range p.length).map (fun i => p.take (i + 1))

/-- How many elements of A (as a set) are not yet in B. -/
def cardDiff (A B : List Str) : Nat :=
  ((setOfList A).filter (fun x => x ∉ B)).length

/-- The queue/visited part of the termination measure. -/
def phiQ (V : List Str) (s : CState) : Nat :=
  s.queue.length + 2 * cardDiff V s.visited

/-- The discovery invariant: queue entries come from the URL universe W
and every directory path of the sitemap lies in the path universe P. -/
def DiscInv (start : Str) (W : List Str) (P : List (List Str))
    (s : CState) : Prop :=
  s.start = start ∧ (∀ u ∈ s.queue, u ∈ W) ∧
    (∀ q ∈ dirPaths s.sitemap.children, q ∈ P)

/-- The termination measure: unprobed directory URLs weigh one queue
element each; unvisited URL budget pays for future enqueues. -/
def phiAll (V DU : List Str) (s : CState) : Nat :=
  cardDiff DU s.checked + phiQ V s

def c4DU : List Str :=
  ["http://x.test/a/".data, "http://x.test/b/".data,
   "http://x.test/c/".data, "http://x.test/a/f.html/".data,
   "http://x.test/b/f.html/".data, "http://x.test/c/f.html/".data]

def c4W : List Str :=
  ["http://x.test/".data, "http://x.test/a/f.html".data,
   "http://x.test/b/f.html".data, "http://x.test/c/f.html".data] ++ c4DU

def c4P : List (List Str) :=
  [["a".data], ["a".data, "f.html".data],
   ["b".data], ["b".data, "f.html".data],
   ["c".data], ["c".data, "f.html".data]]

/-- The invariant satisfied by every scheme urlsplit can extract: nonempty,
ASCII-letter head, scheme characters only, already lowercase. -/
def SchemeOk (s : Str) : Prop :=
  s ≠ [] ∧ isAsciiAlpha (s.headD ' ') = true ∧
    s.all (fun c => charIn c scheme_chars) = true ∧ strLower s = s

/-! ## The divergent directory ladder (C4 non-termination) -/

/-- The path tail a/a/.../a/ with n segments, each with its trailing
slash. -/
def aRep : Nat → Str
  | 0 => []
  | n + 1 => 'a' :: '/' :: aRep n

/-- The same tail without the final slash (n segments joined by '/'). -/
def aCore : Nat → Str
  | 0 => []
  | 1 => ['a']
  | n + 2 => 'a' :: '/' :: aCore (n + 1)

/-- The n-th rung of the ladder of directory URLs the discovery loop
keeps minting for the multi-segment seed. -/
def httpA (n : Nat) : Str := "http://x.test/".data ++ aRep n

/-- The transport-error record the crawl stores for the n-th rung. -/
def errData (n : Nat) : PageData :=
  ⟨none, "error".data, httpA n, []⟩

/-- The record held by the spine node at depth i: rungs are recorded from
depth 2 on (the seed has two path segments). -/
def dataAt (i : Nat) : Option PageData :=
  if 2 ≤ i then some (errData i) else none

/-- The single-spine sitemap the ladder builds: rem nested nodes all
keyed a, the one at depth i carrying dataAt i. -/
def aSpine (i : Nat) : Nat → SChildren
  | 0 => .nil
  | rem + 1 => .cons "a".data (.node (dataAt i) (aSpine (i + 1) rem)) .nil

/-- The empty environment: every fetch is a transport error, nothing
parses. -/
def c4dEnv : CEnv := ⟨[], [], [], []⟩

/-- The crawl state right after the k-th discovery re-seed when started
from the two-segment seed httpA 2 against c4dEnv. -/
def chainState (k : Nat) : CState :=
  ⟨httpA 2,
   [httpA (k + 2)],
   (List.range (k + 1)).map (fun i => httpA (i + 2)),
   (List.range k).map (fun i => (httpA (i + 2), errData (i + 2))),
   .node none (aSpine 1 (k + 1)),
   [],
   (List.range k).map (fun i => httpA (i + 3)),
   (List.range k).map (fun i => httpA (i + 2)),
   k⟩

/-- The crawl state after chainState k's queued rung has been processed,
before the next re-seed. -/
def Mstate (j : Nat) : CState :=
  ⟨httpA 2,
   [],
   (List.range (j + 1)).map (fun i => httpA (i + 2)),
   (List.range (j + 1)).map (fun i => (httpA (i + 2), errData (i + 2))),
   .node none (aSpine 1 (j + 2)),
   [],
   (List.range j).map (fun i => httpA (i + 3)),
   (List.range (j + 1)).map (fun i => httpA (i + 2)),
   j⟩

/-! ## Theorems -/

/-! ## Association-list lemmas -/

theorem dlookup_dictInsert {α : Type} (d : List (Str × α)) (k k' : Str)
    (v : α) :
    dlookup k (dictInsert d k' v) = if k = k' then some v else dlookup k d := by
  induction d with
  | nil => by_cases h : k = k' <;> simp [dictInsert, dlookup, h]
  | cons hd tl ih =>
    obtain ⟨k0, v0⟩ := hd
    by_cases h : k' = k0
    · subst h
      by_cases h2 : k = k'
      · subst h2; simp [dictInsert, dlookup]
      · simp [dictInsert, dlookup, h2]
    · by_cases h2 : k = k0
      · subst h2
        have hne : ¬k = k' := fun he => h (he ▸ rfl)
        simp [dictInsert, dlookup, h, hne]
      · simp [dictInsert, dlookup, h, h2, ih]

theorem dlookup_dictUpdate_notmem {α : Type} (other : List (Str × α)) :
    ∀ (d : List (Str × α)) (k : Str), k ∉ other.map Prod.fst →
      dlookup k (dictUpdate d other) = dlookup k d := by
  induction other with
  | nil => intro d k _; rfl
  | cons hd tl ih =>
    intro d k hk
    obtain ⟨k0, v0⟩ := hd
    simp only [List.map_cons, List.mem_cons] at hk
    push_neg at hk
    have h1 : dictUpdate d ((k0, v0) :: tl) = dictUpdate (dictInsert d k0 v0) tl := rfl
    rw [h1, ih _ k hk.2, dlookup_dictInsert]
    simp [hk.1]

/-! ## Claim C2: technology-map merge policy -/

/-- C2 counterexample: two responses fingerprint to the same signal name
(Server) with different values; the claim says the first writer (Apache)
wins, but crawler.worker's technologies.update keeps the later value
(nginx). -/
theorem c2_counterexample :
    dlookup "Server".data
        (techMerge
          [fingerprint_technologies [("server".data, "Apache".data)] [],
           fingerprint_technologies [("server".data, "nginx".data)] []]) =
      some "nginx".data ∧
    dlookup "Server".data
        (fingerprint_technologies [("server".data, "Apache".data)] []) =
      some "Apache".data ∧
    ("nginx".data : Str) ≠ "Apache".data := by
  refine ⟨by decide, by decide, by decide⟩

/-- C2 (amended): the dict.update merge in crawler.worker is last writer
wins: whatever the technology map already holds, after merging a
fingerprint result whose keys are duplicate-free, each of that result's
keys maps to that result's (that is, the latest writer's) value. -/
theorem c2_technology_merge_last_writer_wins
    (m ft : List (Str × Str)) (k v : Str)
    (hv : dlookup k ft = some v) (hnd : (ft.map Prod.fst).Nodup) :
    dlookup k (dictUpdate m ft) = some v := by
  induction ft generalizing m with
  | nil => simp [dlookup] at hv
  | cons hd tl ih =>
    obtain ⟨k0, v0⟩ := hd
    simp only [List.map_cons, List.nodup_cons] at hnd
    have hstep : dictUpdate m ((k0, v0) :: tl) =
        dictUpdate (dictInsert m k0 v0) tl := rfl
    rw [hstep]
    by_cases h : k = k0
    · subst h
      have hv' : v0 = v := by simpa [dlookup] using hv
      rw [dlookup_dictUpdate_notmem tl _ k hnd.1, dlookup_dictInsert]
      simp [hv']
    · simp only [dlookup, if_neg h] at hv
      exact ih (dictInsert m k0 v0) hv hnd.2

/-- Witness for C2's amended theorem at a concrete merge. -/
theorem c2_witness :
    dlookup "Server".data
        (dictUpdate [("Server".data, "Apache".data)]
          [("Server".data, "nginx".data)]) = some "nginx".data :=
  c2_technology_merge_last_writer_wins
    [("Server".data, "Apache".data)] [("Server".data, "nginx".data)]
    "Server".data "nginx".data (by decide) (by decide)

/-! ## Claim C9: keyword search -/

theorem keywordLoop_lookup (tl : Str) (kws : List Str) :
    ∀ (acc : List (Str × Nat)) (kw : Str),
      dlookup kw (keywordLoop tl kws acc) =
        if kw ∈ kws ∧ 0 < countSub (strLower kw) tl then
          some (countSub (strLower kw) tl)
        else dlookup kw acc := by
  induction kws with
  | nil => intro acc kw; simp [keywordLoop]
  | cons k0 rest ih =>
    intro acc kw
    have hstep : keywordLoop tl (k0 :: rest) acc =
        keywordLoop tl rest
          (if 0 < countSub (strLower k0) tl then
            dictInsert acc k0 (countSub (strLower k0) tl)
          else acc) := rfl
    rw [hstep, ih]
    by_cases hmem : kw ∈ rest ∧ 0 < countSub (strLower kw) tl
    · simp [hmem]
    · rw [if_neg hmem]
      by_cases hk : kw = k0
      · subst hk
        by_cases hc : 0 < countSub (strLower kw) tl
        · simp [hc, dlookup_dictInsert]
        · simp [hc]
      · by_cases hc : 0 < countSub (strLower k0) tl
        · simp [hc, dlookup_dictInsert, hk, hmem]
        · simp [hc, hk, hmem]

/-- C9: search_text_for_keywords returns the mapping from each requested
keyword to the case-insensitive substring occurrence count of that keyword
in the text, omitting every keyword whose count is zero (nonempty text;
the source short-circuits empty text to an empty mapping). -/
theorem c9_keyword_counts (text : Str) (keywords : List Str) (kw : Str)
    (htext : text ≠ []) :
    dlookup kw (search_text_for_keywords text keywords) =
      if kw ∈ keywords ∧ 0 < countSub (strLower kw) (strLower text) then
        some (countSub (strLower kw) (strLower text))
      else none := by
  unfold search_text_for_keywords
  by_cases hkws : keywords = []
  · subst hkws; simp [dlookup]
  · rw [if_neg (by simp [hkws, htext]), keywordLoop_lookup]
    simp [dlookup]

/-- Witness for C9 at the spec scenario: a text containing Admin twice and
ADMIN once yields the count 3 for the keyword admin. -/
theorem c9_witness :
    dlookup "admin".data
        (search_text_for_keywords "Admin likes Admin and even ADMIN".data
          ["admin".data]) = some 3 :=
  (c9_keyword_counts "Admin likes Admin and even ADMIN".data
      ["admin".data] "admin".data (by decide)).trans (by decide)

/-! ## Claim C7: directory-listing extractor -/

theorem dirListing_fold_ignored (base : Str) (hrefs : List Str) :
    ∀ acc, (hrefs.filter
        (fun h => !(h = "../".data || h.take 1 = ['?']))).foldl
        (dirListingStep base) acc =
      hrefs.foldl (dirListingStep base) acc := by
  induction hrefs with
  | nil => intro acc; rfl
  | cons h t ih =>
    intro acc
    by_cases hig : (h = "../".data || h.take 1 = ['?']) = true
    · have hstep : dirListingStep base acc h = acc := by
        have hcond : (h = ([] : Str) || h.take 1 = ['?'] ||
            h ∈ ignored_hrefs) = true := by
          rcases (by simpa using hig : h = "../".data ∨ h.take 1 = ['?'])
              with h1 | h1
          · subst h1; decide
          · simp [h1]
        simp only [dirListingStep, hcond, if_true]
      simp only [List.filter_cons, hig, Bool.not_true, List.foldl_cons,
        hstep]
      exact ih acc
    · simp only [List.filter_cons, Bool.not_eq_true] at hig ⊢
      simp only [hig, Bool.not_false, if_pos, List.foldl_cons]
      exact ih (dirListingStep base acc h)

/-- C7: the directory-listing extractor ignores parent-directory and
query-string-only hrefs (removing them from the anchor list changes
nothing), and on the spec's scenario page with anchors sub/, ../ and
?C=N;O=D fetched from http://x.test/files/ it extracts exactly the
resolved sub/ link. -/
theorem c7_dir_listing_extractor :
    (∀ (base : Str) (hrefs : List Str),
        dir_listing_internal_links base
          (hrefs.filter (fun h => !(h = "../".data || h.take 1 = ['?']))) =
        dir_listing_internal_links base hrefs) ∧
    dir_listing_internal_links "http://x.test/files/".data
        ["sub/".data, "../".data, "?C=N;O=D".data] =
      ["http://x.test/files/sub/".data] := by
  exact ⟨fun base hrefs => dirListing_fold_ignored base hrefs [],
    by decide⟩

/-- C8: the JSON extractor collects string values under the fixed
link-key set, walks nested structures only to the default bounded depth
10, and on the spec's scenario body fetched from http://x.test/api it
extracts exactly http://x.test/p1, excluding the different-host p2. -/
theorem c8_json_extractor :
    json_internal_links "http://x.test/api".data
        (.jobj [("items".data, .jarr
          [.jobj [("url".data, .jstr "/p1".data)],
           .jobj [("href".data, .jstr "https://other.test/p2".data)]])]) =
      ["http://x.test/p1".data] ∧
    (∀ (k s : Str), find_urls_recursive (.jobj [(k, .jstr s)]) =
        if k ∈ LINK_KEYS then [s] else []) ∧
    find_urls_recursive (nestObj 10) = ["/deep".data] ∧
    find_urls_recursive (nestObj 11) = [] := by
  refine ⟨by decide, ?_, by decide, by decide⟩
  intro k s
  have hrfl : find_urls_recursive (.jobj [(k, .jstr s)]) =
      (if k ∈ LINK_KEYS then setInsert [] s else []) := rfl
  rw [hrfl]
  by_cases hk : k ∈ LINK_KEYS <;> simp [setInsert, hk]

/-! ## Generic takeWhile and dropWhile facts used by the URL proofs -/

theorem takeWhile_all_eq {p : Char → Bool} {l : Str}
    (h : ∀ c ∈ l, p c = true) : l.takeWhile p = l ∧ l.dropWhile p = [] := by
  induction l with
  | nil => exact ⟨rfl, rfl⟩
  | cons a t ih =>
    have ha : p a = true := h a (List.mem_cons_self a t)
    have ih' := ih (fun c hc => h c (List.mem_cons_of_mem a hc))
    simp [List.takeWhile_cons, List.dropWhile_cons, ha, ih'.1, ih'.2]

theorem takeWhile_append_stop {p : Char → Bool} {l₁ : Str} {a : Char}
    (l₂ : Str) (h1 : ∀ c ∈ l₁, p c = true) (ha : p a = false) :
    (l₁ ++ a :: l₂).takeWhile p = l₁ ∧
    (l₁ ++ a :: l₂).dropWhile p = a :: l₂ := by
  induction l₁ with
  | nil => simp [List.takeWhile_cons, List.dropWhile_cons, ha]
  | cons b t ih =>
    have hb : p b = true := h1 b (List.mem_cons_self b t)
    have ih' := ih (fun c hc => h1 c (List.mem_cons_of_mem b hc))
    simp [List.takeWhile_cons, List.dropWhile_cons, hb, ih'.1, ih'.2]

theorem mem_takeWhile_mem {p : Char → Bool} {l : Str} {x : Char}
    (h : x ∈ l.takeWhile p) : x ∈ l := by
  induction l with
  | nil => simp [List.takeWhile] at h
  | cons a t ih =>
    rw [List.takeWhile_cons] at h
    by_cases hp : p a = true
    · rw [if_pos hp] at h
      rcases List.mem_cons.mp h with h | h
      · exact h ▸ List.mem_cons_self a t
      · exact List.mem_cons_of_mem a (ih h)
    · rw [if_neg hp] at h; cases h

theorem mem_dropWhile_mem {p : Char → Bool} {l : Str} {x : Char}
    (h : x ∈ l.dropWhile p) : x ∈ l := by
  induction l with
  | nil => simp [List.dropWhile] at h
  | cons a t ih =>
    rw [List.dropWhile_cons] at h
    by_cases hp : p a = true
    · rw [if_pos hp] at h; exact List.mem_cons_of_mem a (ih h)
    · rw [if_neg hp] at h; exact h

theorem dropWhile_head_cases {p : Char → Bool} (l : Str) :
    l.dropWhile p = [] ∨
    ∃ c t, l.dropWhile p = c :: t ∧ p c = false := by
  induction l with
  | nil => exact Or.inl rfl
  | cons a t ih =>
    rw [List.dropWhile_cons]
    by_cases hp : p a = true
    · rw [if_pos hp]; exact ih
    · rw [if_neg hp]
      exact Or.inr ⟨a, t, rfl, Bool.not_eq_true _ ▸ hp⟩

theorem neChar_true {c x : Char} (h : x ≠ c) : neChar c x = true := by
  simp [neChar, h]

theorem neChar_false (c : Char) : neChar c c = false := by simp [neChar]

theorem of_neChar_true {c x : Char} (h : neChar c x = true) : x ≠ c := by
  simpa [neChar] using h

theorem splitAtFirst_not_mem {c : Char} {l : Str} (h : c ∉ l) :
    splitAtFirst c l = (l, []) := by
  have hall : ∀ x ∈ l, neChar c x = true :=
    fun x hx => neChar_true (fun he => h (he ▸ hx))
  have h2 := takeWhile_all_eq hall
  simp only [splitAtFirst, h2.1, h2.2, List.drop_nil]

theorem splitAtFirst_decomp {c : Char} {l : Str} (h : c ∈ l) :
    l = (splitAtFirst c l).1 ++ c :: (splitAtFirst c l).2 ∧
    c ∉ (splitAtFirst c l).1 := by
  induction l with
  | nil => cases h
  | cons a t ih =>
    by_cases hac : a = c
    · subst hac
      have h1 : splitAtFirst a (a :: t) = ([], t) := by
        simp [splitAtFirst, List.takeWhile_cons, List.dropWhile_cons,
          neChar_false]
      rw [h1]
      exact ⟨rfl, by simp⟩
    · have hct : c ∈ t := by
        rcases List.mem_cons.mp h with h | h
        · exact absurd h.symm hac
        · exact h
      have h1 : splitAtFirst c (a :: t) =
          (a :: (splitAtFirst c t).1, (splitAtFirst c t).2) := by
        simp [splitAtFirst, List.takeWhile_cons, List.dropWhile_cons,
          neChar_true hac]
      rw [h1]
      obtain ⟨hd, hnm⟩ := ih hct
      refine ⟨?_, ?_⟩
      · simpa using congrArg (List.cons a) hd
      · intro hmem
        rcases List.mem_cons.mp hmem with h2 | h2
        · exact hac h2.symm
        · exact hnm h2

theorem mem_splitAtFirst_fst {c x : Char} {l : Str}
    (h : x ∈ (splitAtFirst c l).1) : x ∈ l ∧ x ≠ c := by
  have h1 : x ∈ l.takeWhile (neChar c) := h
  exact ⟨mem_takeWhile_mem h1, of_neChar_true (List.mem_takeWhile_imp h1)⟩

theorem mem_splitAtFirst_snd {c x : Char} {l : Str}
    (h : x ∈ (splitAtFirst c l).2) : x ∈ l :=
  mem_dropWhile_mem (List.mem_of_mem_drop h)

/-! ## Properties of the urlsplit phases -/

theorem extractScheme_mem_snd {u : Str} {x : Char}
    (h : x ∈ (extractScheme u).2) : x ∈ u := by
  simp only [extractScheme] at h
  split at h
  · exact List.mem_of_mem_drop h
  · exact h

theorem netlocPhase_netloc_ok (u1 : Str) :
    ∀ x ∈ (netlocPhase u1).1, netlocStop x = false := by
  intro x hx
  unfold netlocPhase at hx
  split at hx
  · have := List.mem_takeWhile_imp hx
    simpa using this
  · cases hx

theorem netlocPhase_mem_fst {u1 : Str} {x : Char}
    (h : x ∈ (netlocPhase u1).1) : x ∈ u1 := by
  unfold netlocPhase at h
  split at h
  · exact List.mem_of_mem_drop (mem_takeWhile_mem h)
  · cases h

theorem netlocPhase_mem_snd {u1 : Str} {x : Char}
    (h : x ∈ (netlocPhase u1).2) : x ∈ u1 := by
  unfold netlocPhase at h
  split at h
  · exact List.mem_of_mem_drop (mem_dropWhile_mem h)
  · exact h

theorem netlocPhase_cases (u1 : Str) :
    (netlocPhase u1).1 = [] ∨ (netlocPhase u1).2 = [] ∨
    ∃ c t, (netlocPhase u1).2 = c :: t ∧ netlocStop c = true := by
  unfold netlocPhase
  split
  · rcases @dropWhile_head_cases (fun c => !netlocStop c) (u1.drop 2)
        with h | ⟨c, t, hct, hc⟩
    · exact Or.inr (Or.inl h)
    · exact Or.inr (Or.inr ⟨c, t, hct, by simpa using hc⟩)
  · exact Or.inl rfl

theorem urlsplit_scheme (url ds : Str) :
    (urlsplit url ds).scheme = ((schemePhase url).1).getD ds := rfl

theorem urlsplit_netloc (url ds : Str) :
    (urlsplit url ds).netloc = (netlocPhase (schemePhase url).2).1 := rfl

theorem urlsplit_path (url ds : Str) :
    (urlsplit url ds).path =
      (splitAtFirst '?'
        ((splitAtFirst '#' (netlocPhase (schemePhase url).2).2).1)).1 := rfl

theorem urlsplit_path_no_qh (url ds : Str) :
    '#' ∉ (urlsplit url ds).path ∧ '?' ∉ (urlsplit url ds).path := by
  rw [urlsplit_path]
  constructor
  · intro h
    exact absurd rfl (mem_splitAtFirst_fst (mem_splitAtFirst_fst h).1).2
  · intro h
    exact absurd rfl (mem_splitAtFirst_fst h).2

theorem urlsplit_netloc_ok (url ds : Str) :
    ∀ x ∈ (urlsplit url ds).netloc, netlocStop x = false := by
  rw [urlsplit_netloc]
  exact netlocPhase_netloc_ok _

theorem urlsplit_netloc_clean (url ds : Str) :
    ∀ x ∈ (urlsplit url ds).netloc, cleanChar x = true := by
  rw [urlsplit_netloc]
  intro x hx
  have h1 : x ∈ (schemePhase url).2 := netlocPhase_mem_fst hx
  have h2 : x ∈ removeUnsafeBytes url := extractScheme_mem_snd h1
  exact (List.mem_filter.mp h2).2

theorem urlsplit_path_clean (url ds : Str) :
    ∀ x ∈ (urlsplit url ds).path, cleanChar x = true := by
  rw [urlsplit_path]
  intro x hx
  have h1 := (mem_splitAtFirst_fst (mem_splitAtFirst_fst hx).1).1
  have h2 : x ∈ (schemePhase url).2 := netlocPhase_mem_snd h1
  have h3 : x ∈ removeUnsafeBytes url := extractScheme_mem_snd h2
  exact (List.mem_filter.mp h3).2

theorem urlsplit_path_head {url ds : Str}
    (hn : (urlsplit url ds).netloc ≠ []) :
    (urlsplit url ds).path = [] ∨
    (urlsplit url ds).path.head? = some '/' := by
  rcases netlocPhase_cases (schemePhase url).2 with h | h | ⟨c, t, hct, hc⟩
  · exact absurd ((urlsplit_netloc url ds).trans h) hn
  · left
    rw [urlsplit_path, h]
    rfl
  · rw [urlsplit_path, hct]
    have hcc : (c = '/' ∨ c = '?') ∨ c = '#' := by
      simpa [netlocStop] using hc
    rcases hcc with (hcc | hcc) | hcc
    · subst hcc
      right
      have h1 : (splitAtFirst '#' ('/' :: t)).1 =
          '/' :: (t.takeWhile (neChar '#')) := by
        simp [splitAtFirst, List.takeWhile_cons, neChar_true
          (show ('/' : Char) ≠ '#' by decide)]
      rw [h1]
      have h2 : (splitAtFirst '?' ('/' :: t.takeWhile (neChar '#'))).1 =
          '/' :: ((t.takeWhile (neChar '#')).takeWhile (neChar '?')) := by
        simp [splitAtFirst, List.takeWhile_cons, neChar_true
          (show ('/' : Char) ≠ '?' by decide)]
      rw [h2]
      rfl
    · subst hcc
      left
      have h1 : (splitAtFirst '#' ('?' :: t)).1 =
          '?' :: (t.takeWhile (neChar '#')) := by
        simp [splitAtFirst, List.takeWhile_cons, neChar_true
          (show ('?' : Char) ≠ '#' by decide)]
      rw [h1]
      simp [splitAtFirst, List.takeWhile_cons, neChar_false]
    · subst hcc
      left
      have h1 : (splitAtFirst '#' ('#' :: t)).1 = [] := by
        simp [splitAtFirst, List.takeWhile_cons, neChar_false]
      rw [h1]
      rfl

/-! ## Properties of the params split -/

theorem take_len_plus (u w : Str) (n : Nat) :
    (u ++ w).take (u.length + n) = u ++ w.take n := by
  induction u with
  | nil => simp
  | cons a t ih => simp [List.take, Nat.succ_add, ih]

theorem exists_lastSlash {x : Str} (h : '/' ∈ x) :
    ∃ u v, x = u ++ '/' :: v ∧ '/' ∉ v := by
  induction x with
  | nil => cases h
  | cons a t ih =>
    by_cases ht : '/' ∈ t
    · obtain ⟨u, v, huv, hv⟩ := ih ht
      exact ⟨a :: u, v, by rw [huv]; rfl, hv⟩
    · have ha : a = '/' := by
        rcases List.mem_cons.mp h with h | h
        · exact h.symm
        · exact absurd h ht
      exact ⟨[], t, by rw [ha]; rfl, ht⟩

theorem afterLastSlash_decomp (u v : Str) (hv : '/' ∉ v) :
    ((u ++ '/' :: v).reverse.takeWhile (neChar '/')).reverse = v ∧
    (u ++ '/' :: v).take ((u ++ '/' :: v).length - v.length) =
      u ++ ['/'] := by
  have hrev : (u ++ '/' :: v).reverse = v.reverse ++ '/' :: u.reverse := by
    simp
  have hall : ∀ c ∈ v.reverse, neChar '/' c = true := by
    intro c hc
    exact neChar_true (fun he => hv (he ▸ List.mem_reverse.mp hc))
  have htw := @takeWhile_append_stop (neChar '/') _ _ u.reverse hall
    (neChar_false '/')
  constructor
  · rw [hrev, htw.1, List.reverse_reverse]
  · have hlen : (u ++ '/' :: v).length - v.length = u.length + 1 := by
      simp [List.length_append]
      omega
    rw [hlen]
    have := take_len_plus u ('/' :: v) 1
    simpa using this

theorem splitparams_lastSlash (u v : Str) (hv : '/' ∉ v) :
    splitparams (u ++ '/' :: v) =
      if ';' ∈ v then
        (u ++ '/' :: v.takeWhile (neChar ';'),
         (v.dropWhile (neChar ';')).drop 1)
      else (u ++ '/' :: v, []) := by
  have hslash : '/' ∈ u ++ '/' :: v := by simp
  have hdec := afterLastSlash_decomp u v hv
  simp only [splitparams, hslash, if_true, hdec.1, hdec.2]
  by_cases h : ';' ∈ v <;> simp [h]

theorem splitparams_no_slash {x : Str} (hx : '/' ∉ x) :
    splitparams x =
      if ';' ∈ x then
        (x.takeWhile (neChar ';'), (x.dropWhile (neChar ';')).drop 1)
      else (x, []) := by
  simp only [splitparams, hx, if_false]

/-- If the path is empty or starts with a slash, the params split followed
by rejoining is idempotent: splitting the rejoined path again and
rejoining reproduces it.  This is the key fact behind the stability of
urlunparse of an http URL under reparsing. -/
theorem paramsPhase_of_true {s path : Str}
    (h : (s ∈ uses_params && ';' ∈ path) = true) :
    paramsPhase s path = splitparams path := by
  unfold paramsPhase
  rw [h]
  simp

theorem paramsPhase_of_false {s path : Str}
    (h : (s ∈ uses_params && ';' ∈ path) = false) :
    paramsPhase s path = (path, []) := by
  unfold paramsPhase
  rw [h]
  simp

theorem rejoin_nil (a : Str) : rejoin a [] = a := by
  unfold rejoin
  simp

theorem rejoin_of_ne {b : Str} (a : Str) (h : b ≠ []) :
    rejoin a b = a ++ ';' :: b := by
  unfold rejoin
  rw [if_pos h]

theorem rejoin_paramsPhase_no_semi_tail (s u w : Str)
    (hws : '/' ∉ w) (hsemi : ';' ∉ w) :
    rejoin (paramsPhase s (u ++ '/' :: w)).1
      (paramsPhase s (u ++ '/' :: w)).2 = u ++ '/' :: w := by
  by_cases hc : (s ∈ uses_params && ';' ∈ (u ++ '/' :: w)) = true
  · rw [paramsPhase_of_true hc, splitparams_lastSlash u w hws, if_neg hsemi]
    exact rejoin_nil _
  · rw [paramsPhase_of_false (eq_false_of_ne_true hc)]
    exact rejoin_nil _

theorem rejoin_paramsPhase_semi_tail (s u w1 w2 : Str)
    (h1s : '/' ∉ w1) (h1m : ';' ∉ w1) (h2s : '/' ∉ w2) (h2e : w2 ≠ [])
    (hsp : s ∈ uses_params) :
    rejoin (paramsPhase s (u ++ '/' :: (w1 ++ ';' :: w2))).1
      (paramsPhase s (u ++ '/' :: (w1 ++ ';' :: w2))).2 =
    u ++ '/' :: (w1 ++ ';' :: w2) := by
  have hsemi : ';' ∈ u ++ '/' :: (w1 ++ ';' :: w2) := by simp
  have hslv : '/' ∉ w1 ++ ';' :: w2 := by
    intro hm
    rcases List.mem_append.mp hm with hm | hm
    · exact h1s hm
    · rcases List.mem_cons.mp hm with hm | hm
      · cases hm
      · exact h2s hm
  have hct : (s ∈ uses_params && ';' ∈ u ++ '/' :: (w1 ++ ';' :: w2)) =
      true := by
    simp [hsp, hsemi]
  rw [paramsPhase_of_true hct, splitparams_lastSlash u (w1 ++ ';' :: w2) hslv]
  have hsin : ';' ∈ w1 ++ ';' :: w2 := by simp
  rw [if_pos hsin]
  have hall1 : ∀ c ∈ w1, neChar ';' c = true :=
    fun c hc => neChar_true (fun he => h1m (he ▸ hc))
  have htw := @takeWhile_append_stop (neChar ';') _ _ w2 hall1
    (neChar_false ';')
  rw [htw.1, htw.2]
  rw [show (';' :: w2).drop 1 = w2 from rfl, rejoin_of_ne _ h2e]
  simp

theorem paramsPhase_idem (s path0 : Str)
    (hhead : path0 = [] ∨ path0.head? = some '/') :
    rejoin (paramsPhase s
        (rejoin (paramsPhase s path0).1 (paramsPhase s path0).2)).1
      (paramsPhase s
        (rejoin (paramsPhase s path0).1 (paramsPhase s path0).2)).2 =
    rejoin (paramsPhase s path0).1 (paramsPhase s path0).2 := by
  by_cases hc : (s ∈ uses_params && ';' ∈ path0) = true
  · have hsp : s ∈ uses_params := by
      have := hc
      simp only [Bool.and_eq_true, decide_eq_true_eq] at this
      exact this.1
    have hsemi : ';' ∈ path0 := by
      have := hc
      simp only [Bool.and_eq_true, decide_eq_true_eq] at this
      exact this.2
    rcases hhead with hhead | hhead
    · subst hhead; cases hsemi
    · have hslash : '/' ∈ path0 := by
        cases path0 with
        | nil => cases hhead
        | cons a t =>
          have ha : a = '/' := by simpa using hhead
          exact ha ▸ List.mem_cons_self _ _
      obtain ⟨u0, v0, hx, hv⟩ := exists_lastSlash hslash
      subst hx
      rw [paramsPhase_of_true hc, splitparams_lastSlash u0 v0 hv]
      by_cases hsv : ';' ∈ v0
      · rw [if_pos hsv]
        obtain ⟨hv0, hs1⟩ := splitAtFirst_decomp hsv
        simp only [splitAtFirst] at hv0 hs1
        have htws : '/' ∉ v0.takeWhile (neChar ';') :=
          fun hm => hv (mem_takeWhile_mem hm)
        have hdps : '/' ∉ (v0.dropWhile (neChar ';')).drop 1 :=
          fun hm => hv (mem_dropWhile_mem (List.mem_of_mem_drop hm))
        by_cases hb2e : (v0.dropWhile (neChar ';')).drop 1 = []
        · rw [hb2e]
          rw [rejoin_nil]
          exact rejoin_paramsPhase_no_semi_tail s u0 _ htws hs1
        · have hr : rejoin (u0 ++ '/' :: v0.takeWhile (neChar ';'))
              ((v0.dropWhile (neChar ';')).drop 1) =
              u0 ++ '/' :: (v0.takeWhile (neChar ';') ++
                ';' :: (v0.dropWhile (neChar ';')).drop 1) := by
            rw [rejoin_of_ne _ hb2e]
            simp
          rw [hr]
          exact rejoin_paramsPhase_semi_tail s u0 _ _ htws hs1 hdps hb2e hsp
      · rw [if_neg hsv]
        rw [rejoin_nil]
        exact rejoin_paramsPhase_no_semi_tail s u0 v0 hv hsv
  · have hpp := paramsPhase_of_false (eq_false_of_ne_true hc)
    rw [hpp]
    have hr : rejoin path0 [] = path0 := rejoin_nil _
    rw [hr, hpp]
    exact hr

/-! ## Scheme extraction and urlunsplit shape lemmas -/

theorem drop_len_plus (u w : Str) (n : Nat) :
    (u ++ w).drop (u.length + n) = w.drop n := by
  induction u with
  | nil => simp
  | cons a t ih => simp [List.drop, Nat.succ_add, ih]

theorem mem_take_mem {l : Str} {n : Nat} {x : Char}
    (h : x ∈ l.take n) : x ∈ l := by
  induction l generalizing n with
  | nil => simp at h
  | cons a t ih =>
    cases n with
    | zero => simp at h
    | succ m =>
      rcases List.mem_cons.mp h with h | h
      · exact h ▸ List.mem_cons_self a t
      · exact List.mem_cons_of_mem a (ih h)

theorem extractScheme_pre (sch X : Str)
    (hcolon : ':' ∉ sch) (hne : sch ≠ [])
    (halpha : isAsciiAlpha (sch.headD ' ') = true)
    (hchars : sch.all (fun c => charIn c scheme_chars) = true) :
    extractScheme (sch ++ ':' :: X) = (some (strLower sch), X) := by
  have hall : ∀ c ∈ sch, neChar ':' c = true :=
    fun c hc => neChar_true (fun he => hcolon (he ▸ hc))
  have htw := @takeWhile_append_stop (neChar ':') _ _ X hall
    (neChar_false ':')
  have hlen : sch.length < (sch ++ ':' :: X).length := by
    simp [List.length_append]
  have hpos : 0 < sch.length := List.length_pos.mpr hne
  have hhead : (sch ++ ':' :: X).headD ' ' = sch.headD ' ' := by
    cases sch with
    | nil => exact absurd rfl hne
    | cons a t => rfl
  have hdrop : (sch ++ ':' :: X).drop (sch.length + 1) = X := by
    have := drop_len_plus sch (':' :: X) 1
    simpa using this
  have halpha2 : isAsciiAlpha ((sch.head?).getD ' ') = true := by
    cases sch with
    | nil => exact absurd rfl hne
    | cons a t => exact halpha
  simp only [extractScheme, htw.1]
  rw [if_pos (by rw [hhead]; simp [hlen, hpos, halpha2, hchars]), hdrop]

theorem extractScheme_http (X : Str) :
    extractScheme ("http".data ++ ':' :: X) = (some "http".data, X) := by
  have h := extractScheme_pre "http".data X (by decide) (by decide)
    (by decide) (by decide)
  rw [h, (by decide : strLower "http".data = "http".data)]

theorem extractScheme_https (X : Str) :
    extractScheme ("https".data ++ ':' :: X) = (some "https".data, X) := by
  have h := extractScheme_pre "https".data X (by decide) (by decide)
    (by decide) (by decide)
  rw [h, (by decide : strLower "https".data = "https".data)]

theorem urlunsplit_shape (s n C : Str) (hs : s ≠ []) (hn : n ≠ [])
    (hC : C = [] ∨ C.head? = some '/') :
    urlunsplit ⟨s, n, C, [], []⟩ =
      s ++ ':' :: '/' :: '/' :: (n ++ C) := by
  have hinner : ¬(C ≠ [] ∧ C.take 1 ≠ ['/']) := by
    rcases hC with h | h
    · intro hcon; exact hcon.1 h
    · intro hcon
      apply hcon.2
      cases C with
      | nil => cases h
      | cons a t =>
        have ha : a = '/' := by simpa using h
        rw [ha]
        rfl
  simp only [urlunsplit]
  rw [if_pos (Or.inl hn), if_neg hinner]
  simp [hs]

/-! ## Membership facts about splitparams and the rejoined path -/

theorem splitparams_mem_fst {x : Str} {c : Char}
    (h : c ∈ (splitparams x).1) : c ∈ x := by
  simp only [splitparams] at h
  split at h
  · split at h
    · rcases List.mem_append.mp h with h | h
      · exact mem_take_mem h
      · have h1 : c ∈ (x.reverse.takeWhile (neChar '/')).reverse :=
          mem_takeWhile_mem h
        exact List.mem_reverse.mp
          (mem_takeWhile_mem (List.mem_reverse.mp h1))
    · exact h
  · split at h
    · exact mem_takeWhile_mem h
    · exact h

theorem splitparams_mem_snd {x : Str} {c : Char}
    (h : c ∈ (splitparams x).2) : c ∈ x := by
  simp only [splitparams] at h
  split at h
  · split at h
    · have h1 : c ∈ (x.reverse.takeWhile (neChar '/')).reverse :=
        mem_dropWhile_mem (List.mem_of_mem_drop h)
      exact List.mem_reverse.mp
        (mem_takeWhile_mem (List.mem_reverse.mp h1))
    · cases h
  · split at h
    · exact mem_dropWhile_mem (List.mem_of_mem_drop h)
    · cases h

theorem paramsPhase_mem_fst {s path0 : Str} {c : Char}
    (h : c ∈ (paramsPhase s path0).1) : c ∈ path0 := by
  unfold paramsPhase at h
  split at h
  · exact splitparams_mem_fst h
  · exact h

theorem paramsPhase_mem_snd {s path0 : Str} {c : Char}
    (h : c ∈ (paramsPhase s path0).2) : c ∈ path0 := by
  unfold paramsPhase at h
  split at h
  · exact splitparams_mem_snd h
  · cases h

theorem rejoin_paramsPhase_mem {s path0 : Str} {c : Char}
    (h : c ∈ rejoin (paramsPhase s path0).1 (paramsPhase s path0).2) :
    c ∈ path0 ∨ c = ';' := by
  unfold rejoin at h
  split at h
  · rcases List.mem_append.mp h with h | h
    · exact Or.inl (paramsPhase_mem_fst h)
    · rcases List.mem_cons.mp h with h | h
      · exact Or.inr h
      · exact Or.inl (paramsPhase_mem_snd h)
  · exact Or.inl (paramsPhase_mem_fst h)

theorem append_slash_head (u w1 w2 : Str) :
    (u ++ '/' :: w1).head? = (u ++ '/' :: w2).head? := by
  cases u <;> rfl

theorem rejoin_paramsPhase_head (s path0 : Str)
    (h : path0 = [] ∨ path0.head? = some '/') :
    rejoin (paramsPhase s path0).1 (paramsPhase s path0).2 = [] ∨
    (rejoin (paramsPhase s path0).1 (paramsPhase s path0).2).head? =
      some '/' := by
  by_cases hc : (s ∈ uses_params && ';' ∈ path0) = true
  · have hsemi : ';' ∈ path0 := by
      have := hc
      simp only [Bool.and_eq_true, decide_eq_true_eq] at this
      exact this.2
    rcases h with h | h
    · subst h
      cases hsemi
    · have hslash : '/' ∈ path0 := by
        cases path0 with
        | nil => cases h
        | cons a t =>
          have ha : a = '/' := by simpa using h
          exact ha ▸ List.mem_cons_self _ _
      obtain ⟨u0, v0, hx, hv⟩ := exists_lastSlash hslash
      subst hx
      rw [paramsPhase_of_true hc, splitparams_lastSlash u0 v0 hv]
      by_cases hsv : ';' ∈ v0
      · rw [if_pos hsv]
        by_cases hb2 : (v0.dropWhile (neChar ';')).drop 1 = []
        · rw [hb2, rejoin_nil]
          right
          rw [append_slash_head u0 (v0.takeWhile (neChar ';')) v0]
          exact h
        · rw [rejoin_of_ne _ hb2]
          right
          have hassoc : (u0 ++ '/' :: v0.takeWhile (neChar ';')) ++
              ';' :: (v0.dropWhile (neChar ';')).drop 1 =
              u0 ++ '/' :: (v0.takeWhile (neChar ';') ++
                ';' :: (v0.dropWhile (neChar ';')).drop 1) := by
            simp
          rw [hassoc, append_slash_head u0 _ v0]
          exact h
      · rw [if_neg hsv, rejoin_nil]
        right
        exact h
  · rw [paramsPhase_of_false (eq_false_of_ne_true hc), rejoin_nil]
    exact h

theorem splitNetloc_append (n C : Str)
    (hn : ∀ x ∈ n, netlocStop x = false)
    (hC : C = [] ∨ C.head? = some '/') :
    splitNetloc (n ++ C) = (n, C) := by
  have hall : ∀ x ∈ n, (fun c => !netlocStop c) x = true := by
    intro x hx
    simp [hn x hx]
  rcases hC with h | h
  · subst h
    have h2 := @takeWhile_all_eq (fun c => !netlocStop c) _ hall
    simp [splitNetloc, h2.1, h2.2]
  · cases C with
    | nil => cases h
    | cons a t =>
      have ha : a = '/' := by simpa using h
      subst ha
      have hstop : (fun c => !netlocStop c) '/' = false := by
        simp [netlocStop]
      have htw := @takeWhile_append_stop (fun c => !netlocStop c) _ _ t
        hall hstop
      simp [splitNetloc, htw.1, htw.2]

theorem removeUnsafe_of_all {l : Str}
    (h : ∀ c ∈ l, cleanChar c = true) : removeUnsafeBytes l = l :=
  List.filter_eq_self.mpr h

/-- The core of the idempotence argument: an http or https URL rebuilt by
urlunsplit from a nonempty netloc and a slash-headed (or empty) rejoined
path is a fixed point of normalization. -/
theorem normList_roundtrip_core (s n P : Str)
    (hsch : s = "http".data ∨ s = "https".data) (hn : n ≠ [])
    (hnok : ∀ x ∈ n, netlocStop x = false)
    (hnclean : ∀ x ∈ n, cleanChar x = true)
    (hphash : '#' ∉ P) (hpquest : '?' ∉ P)
    (hpclean : ∀ x ∈ P, cleanChar x = true)
    (hphead : P = [] ∨ P.head? = some '/') :
    normList (urlunsplit ⟨s, n,
        rejoin (paramsPhase s P).1 (paramsPhase s P).2, [], []⟩) =
      urlunsplit ⟨s, n,
        rejoin (paramsPhase s P).1 (paramsPhase s P).2, [], []⟩ := by
  have hsne : s ≠ [] := by
    rcases hsch with h | h <;> (rw [h]; decide)
  set C := rejoin (paramsPhase s P).1 (paramsPhase s P).2 with hCdef
  have hChead : C = [] ∨ C.head? = some '/' :=
    rejoin_paramsPhase_head s P hphead
  have hCmem : ∀ c ∈ C, c ∈ P ∨ c = ';' := fun c hc =>
    rejoin_paramsPhase_mem hc
  have hChash : '#' ∉ C := by
    intro hm
    rcases hCmem _ hm with h | h
    · exact hphash h
    · exact absurd h (by decide)
  have hCquest : '?' ∉ C := by
    intro hm
    rcases hCmem _ hm with h | h
    · exact hpquest h
    · exact absurd h (by decide)
  have hCclean : ∀ c ∈ C, cleanChar c = true := by
    intro c hc
    rcases hCmem c hc with h | h
    · exact hpclean c h
    · rw [h]; decide
  have hout : urlunsplit ⟨s, n, C, [], []⟩ =
      s ++ ':' :: '/' :: '/' :: (n ++ C) :=
    urlunsplit_shape s n C hsne hn hChead
  rw [hout]
  have hoclean : removeUnsafeBytes (s ++ ':' :: '/' :: '/' :: (n ++ C)) =
      s ++ ':' :: '/' :: '/' :: (n ++ C) := by
    apply removeUnsafe_of_all
    intro c hc
    rcases List.mem_append.mp hc with h | h
    · rcases hsch with hh | hh
      · rw [hh] at h
        exact (by decide : ∀ c ∈ "http".data, cleanChar c = true) c h
      · rw [hh] at h
        exact (by decide : ∀ c ∈ "https".data, cleanChar c = true) c h
    · rcases List.mem_cons.mp h with h | h
      · rw [h]; decide
      · rcases List.mem_cons.mp h with h | h
        · rw [h]; decide
        · rcases List.mem_cons.mp h with h | h
          · rw [h]; decide
          · rcases List.mem_append.mp h with h | h
            · exact hnclean c h
            · exact hCclean c h
  have hsch2 : schemePhase (s ++ ':' :: '/' :: '/' :: (n ++ C)) =
      (some s, '/' :: '/' :: (n ++ C)) := by
    unfold schemePhase
    rw [hoclean]
    rcases hsch with hh | hh
    · rw [hh]
      exact extractScheme_http _
    · rw [hh]
      exact extractScheme_https _
  have hnl2 : netlocPhase ('/' :: '/' :: (n ++ C)) = (n, C) := by
    unfold netlocPhase
    rw [if_pos (show List.take 2 ('/' :: '/' :: (n ++ C)) = ['/', '/']
      from rfl)]
    show splitNetloc (n ++ C) = (n, C)
    exact splitNetloc_append n C hnok hChead
  have hsplit2 : urlsplit (s ++ ':' :: '/' :: '/' :: (n ++ C)) [] =
      ⟨s, n, C, [], []⟩ := by
    unfold urlsplit
    rw [hsch2]
    dsimp only
    rw [hnl2]
    dsimp only
    rw [splitAtFirst_not_mem hChash]
    dsimp only
    rw [splitAtFirst_not_mem hCquest]
    rfl
  have hparse2 : urlparse (s ++ ':' :: '/' :: '/' :: (n ++ C)) [] =
      ⟨s, n, (paramsPhase s C).1, (paramsPhase s C).2, [], []⟩ := by
    unfold urlparse
    rw [hsplit2]
  have hidem := paramsPhase_idem s P hphead
  rw [← hCdef] at hidem
  unfold normList
  rw [hparse2]
  show urlunsplit ⟨s, n, rejoin (paramsPhase s C).1 (paramsPhase s C).2,
      [], []⟩ = _
  rw [hidem, hout]

/-- Idempotence of the canonicalizer at the character-list level, for
URLs whose parsed scheme is http or https and whose parsed netloc is
nonempty. -/
theorem normList_idem_http (u : Str)
    (hs : (urlparse u).scheme = "http".data ∨
      (urlparse u).scheme = "https".data)
    (hn : (urlparse u).netloc ≠ []) :
    normList (normList u) = normList u :=
  normList_roundtrip_core (urlsplit u []).scheme (urlsplit u []).netloc
    (urlsplit u []).path hs hn
    (urlsplit_netloc_ok u []) (urlsplit_netloc_clean u [])
    (urlsplit_path_no_qh u []).1 (urlsplit_path_no_qh u []).2
    (urlsplit_path_clean u []) (@urlsplit_path_head u [] hn)

/-- C6 counterexample: crawler._normalize_url is not idempotent on all URL
strings: normalizing the string of four slashes gives two slashes, which
normalizes to the empty string, and even the http-schemed URL with six
slashes needs two rounds to stabilize.  Also, an already-canonical URL
(no query, no fragment) is not always returned unchanged: an uppercase
scheme is lowercased. -/
theorem c6_counterexample :
    normalize_url (normalize_url "////") ≠ normalize_url "////" ∧
    normalize_url (normalize_url "http://////x") ≠
      normalize_url "http://////x" ∧
    (urlparse "HTTP://x.test/a".data).query = [] ∧
    (urlparse "HTTP://x.test/a".data).fragment = [] ∧
    normalize_url "HTTP://x.test/a" ≠ "HTTP://x.test/a" := by
  exact ⟨by decide, by decide, by decide, by decide, by decide⟩

/-- C6 (amended): crawler._normalize_url is idempotent on every URL whose
parsed scheme is http or https and whose parsed netloc is nonempty (the
URLs the crawler actually handles); on general strings one application
need not be a fixed point, and a query- and fragment-free URL may still
be rewritten. -/
theorem c6_normalize_idempotent_http (w : String)
    (hs : (urlparse w.data).scheme = "http".data ∨
      (urlparse w.data).scheme = "https".data)
    (hn : (urlparse w.data).netloc ≠ []) :
    normalize_url (normalize_url w) = normalize_url w :=
  congrArg String.mk (normList_idem_http w.data hs hn)

/-- Witness for C6's amended theorem at a concrete URL. -/
theorem c6_witness :
    normalize_url (normalize_url "http://x.test/b?x=1#frag") =
      normalize_url "http://x.test/b?x=1#frag" :=
  c6_normalize_idempotent_http "http://x.test/b?x=1#frag"
    (by decide) (by decide)

/-! ## Sitemap lemmas for claim C5 -/

theorem find_updateChild_self (k : Str) (f : SNode → SNode) :
    ∀ (cs : SChildren),
      (cs.updateChild k f).find k = some (f ((cs.find k).getD emptyNode))
  | .nil => by simp [SChildren.updateChild, SChildren.find]
  | .cons k2 n rest => by
    by_cases hk : k = k2
    · subst hk
      simp [SChildren.updateChild, SChildren.find]
    · simp [SChildren.updateChild, SChildren.find, hk,
        find_updateChild_self k f rest]

theorem find_updateChild_other {k k2 : Str} (f : SNode → SNode)
    (h : k2 ≠ k) :
    ∀ (cs : SChildren), (cs.updateChild k f).find k2 = cs.find k2
  | .nil => by simp [SChildren.updateChild, SChildren.find, h]
  | .cons k3 n rest => by
    by_cases hk : k = k3
    · subst hk
      simp [SChildren.updateChild, SChildren.find, h]
    · by_cases hk2 : k2 = k3
      · subst hk2
        simp [SChildren.updateChild, SChildren.find, hk]
      · simp [SChildren.updateChild, SChildren.find, hk, hk2,
          find_updateChild_other f h rest]

theorem probe_nil (t : SNode) : t.probe [] = some t.dataOf := rfl

theorem probe_cons (t : SNode) (k : Str) (rest : List Str) :
    t.probe (k :: rest) =
      match t.children.find k with
      | none => none
      | some c => c.probe rest := rfl

theorem probe_updateAt_nil (t : SNode) (k : Str) (f : SNode → SNode) :
    (t.updateAt k f).probe [] = t.probe [] := by
  cases t
  rfl

theorem probe_updateAt_self (t : SNode) (k : Str) (f : SNode → SNode)
    (rest : List Str) :
    (t.updateAt k f).probe (k :: rest) =
      (f ((t.children.find k).getD emptyNode)).probe rest := by
  cases t with
  | node d cs =>
    rw [probe_cons]
    show (match (cs.updateChild k f).find k with
      | none => none
      | some c => c.probe rest) = _
    rw [find_updateChild_self]
    rfl

theorem probe_updateAt_other (t : SNode) {k k2 : Str} (f : SNode → SNode)
    (rest : List Str) (h : k2 ≠ k) :
    (t.updateAt k f).probe (k2 :: rest) = t.probe (k2 :: rest) := by
  cases t with
  | node d cs =>
    rw [probe_cons, probe_cons]
    show (match (cs.updateChild k f).find k2 with
      | none => none
      | some c => c.probe rest) = _
    rw [find_updateChild_other f h cs]
    rfl

theorem equiv_refl (t : SNode) : SNode.Equiv t t := fun _ => rfl

theorem equiv_symm {t1 t2 : SNode} (h : SNode.Equiv t1 t2) :
    SNode.Equiv t2 t1 := fun p => (h p).symm

theorem equiv_trans {t1 t2 t3 : SNode} (h1 : SNode.Equiv t1 t2)
    (h2 : SNode.Equiv t2 t3) : SNode.Equiv t1 t3 :=
  fun p => (h1 p).trans (h2 p)

/-- Equivalent trees have equivalent children at the default-empty lookup
used by setdefault. -/
theorem equiv_child {t1 t2 : SNode} (h : SNode.Equiv t1 t2) (k : Str) :
    SNode.Equiv ((t1.children.find k).getD emptyNode)
      ((t2.children.find k).getD emptyNode) := by
  intro p
  have hk := h (k :: p)
  rw [probe_cons, probe_cons] at hk
  rcases hf1 : t1.children.find k with _ | c1 <;>
    rcases hf2 : t2.children.find k with _ | c2
  · rfl
  · rw [hf1, hf2] at hk
    have h0 := h (k :: [])
    rw [probe_cons, probe_cons, hf1, hf2] at h0
    simp [SNode.probe] at h0
  · rw [hf1, hf2] at hk
    have h0 := h (k :: [])
    rw [probe_cons, probe_cons, hf1, hf2] at h0
    simp [SNode.probe] at h0
  · rw [hf1, hf2] at hk
    simpa using hk

theorem updateAt_equiv {t1 t2 : SNode} (k : Str) {f : SNode → SNode}
    (ht : SNode.Equiv t1 t2)
    (hf : ∀ c1 c2, SNode.Equiv c1 c2 → SNode.Equiv (f c1) (f c2)) :
    SNode.Equiv (t1.updateAt k f) (t2.updateAt k f) := by
  intro p
  cases p with
  | nil => rw [probe_updateAt_nil, probe_updateAt_nil]; exact ht []
  | cons k2 rest =>
    by_cases hk : k2 = k
    · subst hk
      rw [probe_updateAt_self, probe_updateAt_self]
      exact hf _ _ (equiv_child ht k2) rest
    · rw [probe_updateAt_other t1 f rest hk,
        probe_updateAt_other t2 f rest hk]
      exact ht _

/-- updateAt with pointwise-equivalent child transformers gives
equivalent trees. -/
theorem updateAt_equiv_fun {t : SNode} (k : Str) {f g : SNode → SNode}
    (hfg : ∀ c, SNode.Equiv (f c) (g c)) :
    SNode.Equiv (t.updateAt k f) (t.updateAt k g) := by
  intro p
  cases p with
  | nil => rw [probe_updateAt_nil, probe_updateAt_nil]
  | cons k2 rest =>
    by_cases hk : k2 = k
    · subst hk
      rw [probe_updateAt_self, probe_updateAt_self]
      exact hfg _ rest
    · rw [probe_updateAt_other t f rest hk, probe_updateAt_other t g rest hk]

theorem setData_equiv (d : PageData) {c1 c2 : SNode}
    (h : SNode.Equiv c1 c2) :
    SNode.Equiv (c1.setData d) (c2.setData d) := by
  intro p
  cases c1 with
  | node d1 cs1 =>
    cases c2 with
    | node d2 cs2 =>
      cases p with
      | nil => rfl
      | cons k rest =>
        have := h (k :: rest)
        rw [probe_cons, probe_cons] at this ⊢
        exact this

theorem insertSegs_equiv (d : PageData) (segs : List Str) :
    ∀ {t1 t2 : SNode}, SNode.Equiv t1 t2 →
      SNode.Equiv (insertSegs d segs t1) (insertSegs d segs t2) := by
  induction segs with
  | nil => intro t1 t2 h; exact h
  | cons s rest ih =>
    intro t1 t2 h
    cases rest with
    | nil =>
      by_cases hs : s = []
      · simpa [insertSegs, hs] using h
      · simp only [insertSegs, hs, if_false]
        exact updateAt_equiv s h (fun c1 c2 hc => setData_equiv d hc)
    | cons r rs =>
      by_cases hs : s = []
      · simpa [insertSegs, hs] using ih h
      · simp only [insertSegs, hs, if_false]
        exact updateAt_equiv s h (fun c1 c2 hc => ih hc)

theorem children_updateAt (t : SNode) (k : Str) (f : SNode → SNode) :
    (t.updateAt k f).children = t.children.updateChild k f := by
  cases t
  rfl

theorem updateChild_fuse (k : Str) (f g : SNode → SNode) :
    ∀ cs : SChildren,
      (cs.updateChild k g).updateChild k f =
        cs.updateChild k (fun n => f (g n))
  | .nil => by simp [SChildren.updateChild]
  | .cons k2 n rest => by
    by_cases hk : k = k2
    · subst hk
      simp [SChildren.updateChild]
    · simp [SChildren.updateChild, hk, updateChild_fuse k f g rest]

theorem updateAt_fuse (t : SNode) (k : Str) (f g : SNode → SNode) :
    (t.updateAt k g).updateAt k f = t.updateAt k (fun n => f (g n)) := by
  cases t with
  | node d cs =>
    show SNode.node d ((cs.updateChild k g).updateChild k f) = _
    rw [updateChild_fuse]
    rfl

theorem updateAt_comm_ne {k1 k2 : Str} (h : k1 ≠ k2)
    (f g : SNode → SNode) (t : SNode) :
    SNode.Equiv ((t.updateAt k2 g).updateAt k1 f)
      ((t.updateAt k1 f).updateAt k2 g) := by
  intro p
  cases p with
  | nil =>
    rw [probe_updateAt_nil, probe_updateAt_nil, probe_updateAt_nil,
      probe_updateAt_nil]
  | cons k rest =>
    by_cases h1 : k = k1
    · subst h1
      rw [probe_updateAt_self, children_updateAt,
        find_updateChild_other g h, probe_updateAt_other _ g rest h,
        probe_updateAt_self]
    · by_cases h2 : k = k2
      · subst h2
        rw [probe_updateAt_other _ f rest (Ne.symm h), probe_updateAt_self,
          probe_updateAt_self, children_updateAt,
          find_updateChild_other f (Ne.symm h)]
      · rw [probe_updateAt_other _ f rest h1, probe_updateAt_other _ g rest h2,
          probe_updateAt_other _ g rest h2, probe_updateAt_other _ f rest h1]

theorem insertSegs_nil (d : PageData) (t : SNode) :
    insertSegs d [] t = t := rfl

theorem insertSegs_skip1 (d : PageData) (t : SNode) :
    insertSegs d [[]] t = t := by simp [insertSegs]

theorem insertSegs_skip (d : PageData) (r : Str) (rs : List Str)
    (t : SNode) : insertSegs d ([] :: r :: rs) t = insertSegs d (r :: rs) t := by
  simp [insertSegs]

theorem insertSegs_single {a : Str} (d : PageData) (t : SNode)
    (ha : a ≠ []) : insertSegs d [a] t = t.updateAt a (SNode.setData d) := by
  simp [insertSegs, ha]

theorem insertSegs_cons {a : Str} (d : PageData) (r : Str) (rs : List Str)
    (t : SNode) (ha : a ≠ []) :
    insertSegs d (a :: r :: rs) t =
      t.updateAt a (fun m => insertSegs d (r :: rs) m) := by
  simp [insertSegs, ha]

theorem insertSegs_setData_comm (d e : PageData) :
    ∀ (s : List Str) (c : SNode),
      (insertSegs e s c).setData d = insertSegs e s (c.setData d) := by
  intro s
  induction s with
  | nil => intro c; rfl
  | cons a rest ih =>
    intro c
    cases rest with
    | nil =>
      by_cases ha : a = []
      · simp [insertSegs, ha]
      · rw [insertSegs_single e c ha, insertSegs_single e (c.setData d) ha]
        cases c
        rfl
    | cons r rs =>
      by_cases ha : a = []
      · subst ha
        rw [insertSegs_skip, insertSegs_skip]
        exact ih c
      · rw [insertSegs_cons e r rs c ha, insertSegs_cons e r rs _ ha]
        cases c
        rfl

theorem insertSegs_comm_n (d e : PageData) :
    ∀ (n : Nat) (s1 s2 : List Str) (t : SNode),
      s1.length + s2.length ≤ n →
      s1.filter (fun x => x ≠ []) ≠ s2.filter (fun x => x ≠ []) →
      SNode.Equiv (insertSegs d s1 (insertSegs e s2 t))
        (insertSegs e s2 (insertSegs d s1 t)) := by
  intro n
  induction n with
  | zero =>
    intro s1 s2 t hlen hne
    rcases s1 with _ | ⟨a, r1⟩
    · rcases s2 with _ | ⟨b, r2⟩
      · exact absurd rfl hne
      · simp at hlen
    · simp at hlen
  | succ m ih =>
    intro s1 s2 t hlen hne
    rcases s1 with _ | ⟨a, r1⟩
    · exact equiv_refl _
    by_cases ha : a = []
    · subst ha
      rcases r1 with _ | ⟨r, rs⟩
      · rw [insertSegs_skip1, insertSegs_skip1]
        exact equiv_refl _
      · rw [insertSegs_skip, insertSegs_skip]
        refine ih (r :: rs) s2 t ?_ ?_
        · simp at hlen ⊢
          omega
        · intro heq
          apply hne
          simpa using heq
    · rcases s2 with _ | ⟨b, r2⟩
      · exact equiv_refl _
      by_cases hb : b = []
      · subst hb
        rcases r2 with _ | ⟨q, qs⟩
        · rw [insertSegs_skip1, insertSegs_skip1]
          exact equiv_refl _
        · rw [insertSegs_skip, insertSegs_skip]
          refine ih (a :: r1) (q :: qs) t ?_ ?_
          · simp at hlen ⊢
            omega
          · intro heq
            apply hne
            simpa using heq
      · by_cases hab : a = b
        · subst hab
          rcases r1 with _ | ⟨r, rs⟩ <;> rcases r2 with _ | ⟨q, qs⟩
          · exact absurd rfl hne
          · rw [insertSegs_cons e q qs t ha, insertSegs_single d t ha,
              insertSegs_single d _ ha, insertSegs_cons e q qs _ ha,
              updateAt_fuse, updateAt_fuse]
            apply updateAt_equiv_fun
            intro c
            rw [insertSegs_setData_comm]
            exact equiv_refl _
          · rw [insertSegs_single e t ha, insertSegs_cons d r rs t ha,
              insertSegs_cons d r rs _ ha, insertSegs_single e _ ha,
              updateAt_fuse, updateAt_fuse]
            apply updateAt_equiv_fun
            intro c
            rw [insertSegs_setData_comm]
            exact equiv_refl _
          · rw [insertSegs_cons e q qs t ha, insertSegs_cons d r rs t ha,
              insertSegs_cons d r rs _ ha, insertSegs_cons e q qs _ ha,
              updateAt_fuse, updateAt_fuse]
            apply updateAt_equiv_fun
            intro c
            refine ih (r :: rs) (q :: qs) c ?_ ?_
            · simp at hlen ⊢
              omega
            · intro heq
              apply hne
              have h1 : List.filter (fun x => decide (x ≠ [])) (a :: r :: rs) =
                  a :: List.filter (fun x => decide (x ≠ [])) (r :: rs) := by
                simp [List.filter_cons, ha]
              have h2 : List.filter (fun x => decide (x ≠ [])) (a :: q :: qs) =
                  a :: List.filter (fun x => decide (x ≠ [])) (q :: qs) := by
                simp [List.filter_cons, ha]
              rw [h1, h2, heq]
        · rcases r1 with _ | ⟨r, rs⟩ <;> rcases r2 with _ | ⟨q, qs⟩
          · rw [insertSegs_single e t hb, insertSegs_single d t ha,
              insertSegs_single d _ ha, insertSegs_single e _ hb]
            exact updateAt_comm_ne hab _ _ t
          · rw [insertSegs_cons e q qs t hb, insertSegs_single d t ha,
              insertSegs_single d _ ha, insertSegs_cons e q qs _ hb]
            exact updateAt_comm_ne hab _ _ t
          · rw [insertSegs_single e t hb, insertSegs_cons d r rs t ha,
              insertSegs_cons d r rs _ ha, insertSegs_single e _ hb]
            exact updateAt_comm_ne hab _ _ t
          · rw [insertSegs_cons e q qs t hb, insertSegs_cons d r rs t ha,
              insertSegs_cons d r rs _ ha, insertSegs_cons e q qs _ hb]
            exact updateAt_comm_ne hab _ _ t

theorem insertSegs_comm (d e : PageData) (s1 s2 : List Str) (t : SNode)
    (hne : s1.filter (fun x => x ≠ []) ≠ s2.filter (fun x => x ≠ [])) :
    SNode.Equiv (insertSegs d s1 (insertSegs e s2 t))
      (insertSegs e s2 (insertSegs d s1 t)) :=
  insertSegs_comm_n d e (s1.length + s2.length) s1 s2 t le_rfl hne

theorem add_eq_insertSegs (sm : SNode) (url : Str) (d : PageData) :
    add_to_sitemap sm url d = insertSegs d (addrSegs url) sm := by
  by_cases hc : path_segments_of url = [] ∨
      ((path_segments_of url).length = 1 ∧
        (path_segments_of url).headD [] = [])
  · simp only [add_to_sitemap, addrSegs, hc, if_true]
    rw [insertSegs_single d sm (by decide)]
  · simp only [add_to_sitemap, addrSegs, hc, if_false]

theorem effPath_eq (url : Str) :
    effPath url = (addrSegs url).filter (fun s => s ≠ []) := by
  by_cases hc : path_segments_of url = [] ∨
      ((path_segments_of url).length = 1 ∧
        (path_segments_of url).headD [] = [])
  · simp only [effPath, addrSegs, hc, if_true]
    decide
  · simp only [effPath, addrSegs, hc, if_false]

theorem add_equiv {t1 t2 : SNode} (url : Str) (d : PageData)
    (h : SNode.Equiv t1 t2) :
    SNode.Equiv (add_to_sitemap t1 url d) (add_to_sitemap t2 url d) := by
  rw [add_eq_insertSegs, add_eq_insertSegs]
  exact insertSegs_equiv d _ h

theorem add_comm_equiv {u v : Str} {du dv : PageData} {t : SNode}
    (h : effPath u ≠ effPath v) :
    SNode.Equiv (add_to_sitemap (add_to_sitemap t v dv) u du)
      (add_to_sitemap (add_to_sitemap t u du) v dv) := by
  rw [add_eq_insertSegs, add_eq_insertSegs, add_eq_insertSegs,
    add_eq_insertSegs]
  apply insertSegs_comm
  rw [effPath_eq, effPath_eq] at h
  exact h

theorem foldl_sitemap_equiv (l : List (Str × PageData)) :
    ∀ {t1 t2 : SNode}, SNode.Equiv t1 t2 →
      SNode.Equiv (l.foldl sitemapStep t1) (l.foldl sitemapStep t2) := by
  induction l with
  | nil => intro t1 t2 h; exact h
  | cons p rest ih =>
    intro t1 t2 h
    exact ih (add_equiv p.1 p.2 h)

set_option maxHeartbeats 1000000 in
theorem perm_foldl_equiv {l1 l2 : List (Str × PageData)}
    (hperm : l1.Perm l2) :
    List.Pairwise (fun p q => effPath p.1 ≠ effPath q.1) l1 →
    ∀ {t1 t2 : SNode}, SNode.Equiv t1 t2 →
      SNode.Equiv (l1.foldl sitemapStep t1) (l2.foldl sitemapStep t2) := by
  induction hperm with
  | nil => intro _ t1 t2 h; exact h
  | cons x hsub ih =>
    intro hpw t1 t2 h
    exact ih (List.Pairwise.of_cons hpw) (add_equiv x.1 x.2 h)
  | swap x y l =>
    intro hpw t1 t2 h
    simp only [List.foldl_cons]
    apply foldl_sitemap_equiv
    have hxy : effPath y.1 ≠ effPath x.1 :=
      (List.pairwise_cons.mp hpw).1 x (List.mem_cons_self x l)
    have h1 : SNode.Equiv (sitemapStep (sitemapStep t1 y) x)
        (sitemapStep (sitemapStep t1 x) y) := by
      show SNode.Equiv
        (add_to_sitemap (add_to_sitemap t1 y.1 y.2) x.1 x.2)
        (add_to_sitemap (add_to_sitemap t1 x.1 x.2) y.1 y.2)
      exact add_comm_equiv (Ne.symm hxy)
    refine equiv_trans h1 ?_
    exact add_equiv y.1 y.2 (add_equiv x.1 x.2 h)
  | trans hp1 hp2 ih1 ih2 =>
    intro hpw t1 t2 h
    refine equiv_trans (ih1 hpw (equiv_refl t1)) ?_
    have hpw2 := ((List.Perm.pairwise_iff
      (fun hab => Ne.symm hab) hp1).mp hpw)
    exact ih2 hpw2 h

theorem insertSegs_overwrite (d1 d2 : PageData) :
    ∀ (segs : List Str) (t : SNode),
      insertSegs d2 segs (insertSegs d1 segs t) = insertSegs d2 segs t := by
  intro segs
  induction segs with
  | nil => intro t; rfl
  | cons a rest ih =>
    intro t
    cases rest with
    | nil =>
      by_cases ha : a = []
      · simp [insertSegs, ha]
      · rw [insertSegs_single d1 t ha, insertSegs_single d2 _ ha,
          insertSegs_single d2 t ha, updateAt_fuse]
        congr 1
        funext n
        cases n
        rfl
    | cons r rs =>
      by_cases ha : a = []
      · subst ha
        rw [insertSegs_skip, insertSegs_skip, insertSegs_skip]
        exact ih t
      · rw [insertSegs_cons d1 r rs t ha, insertSegs_cons d2 r rs _ ha,
          insertSegs_cons d2 r rs t ha, updateAt_fuse]
        congr 1
        funext n
        exact ih n

theorem add_overwrite (sm : SNode) (url : Str) (d1 d2 : PageData) :
    add_to_sitemap (add_to_sitemap sm url d1) url d2 =
      add_to_sitemap sm url d2 := by
  rw [add_eq_insertSegs, add_eq_insertSegs, add_eq_insertSegs]
  exact insertSegs_overwrite d1 d2 (addrSegs url) sm

/-- C5 counterexample: the canonical URLs http://x.test/a and
http://x.test/a/ are distinct, yet both store their record at the single
tree path ["a"], so the two insertion orders leave DIFFERENT final trees
(each keeps the record inserted last); order-independence fails for
distinct-URL pair sets, contrary to the claim. -/
theorem c5_counterexample :
    normList "http://x.test/a".data ≠ normList "http://x.test/a/".data ∧
    (buildSitemap [("http://x.test/a".data, c5d1),
        ("http://x.test/a/".data, c5d2)]).probe ["a".data] =
      some (some c5d2) ∧
    (buildSitemap [("http://x.test/a/".data, c5d2),
        ("http://x.test/a".data, c5d1)]).probe ["a".data] =
      some (some c5d1) ∧
    c5d1 ≠ c5d2 ∧
    ¬ SNode.Equiv
        (buildSitemap [("http://x.test/a".data, c5d1),
          ("http://x.test/a/".data, c5d2)])
        (buildSitemap [("http://x.test/a/".data, c5d2),
          ("http://x.test/a".data, c5d1)]) := by
  refine ⟨by decide, by decide, by decide, by decide, ?_⟩
  intro h
  exact absurd (h ["a".data]) (by decide)

/-- C5 (amended): sitemap insertion is order-independent up to tree
isomorphism provided the URLs occupy pairwise-distinct effective storage
paths (path split on slash with empty segments dropped, the empty path
mapped to the root key "/") — distinct canonical URLs alone do not
suffice; and re-inserting the same URL overwrites the leaf data stored at
its path. -/
theorem c5_sitemap_insert :
    (∀ (l1 l2 : List (Str × PageData)), l1.Perm l2 →
        List.Pairwise (fun p q => effPath p.1 ≠ effPath q.1) l1 →
        SNode.Equiv (buildSitemap l1) (buildSitemap l2)) ∧
    (∀ (sm : SNode) (url : Str) (d1 d2 : PageData),
        add_to_sitemap (add_to_sitemap sm url d1) url d2 =
          add_to_sitemap sm url d2) := by
  constructor
  · intro l1 l2 hperm hpw
    exact perm_foldl_equiv hperm hpw (equiv_refl emptyNode)
  · exact add_overwrite

/-- Closed instance of the C5 theorem: two URLs on distinct paths,
inserted in both orders, give isomorphic trees. -/
theorem c5_witness :
    SNode.Equiv
      (buildSitemap [("http://x.test/a".data, c5d1),
        ("http://x.test/b".data, c5d2)])
      (buildSitemap [("http://x.test/b".data, c5d2),
        ("http://x.test/a".data, c5d1)]) :=
  c5_sitemap_insert.1
    [("http://x.test/a".data, c5d1), ("http://x.test/b".data, c5d2)]
    [("http://x.test/b".data, c5d2), ("http://x.test/a".data, c5d1)]
    (by decide) (by decide)

theorem techPhase_core (s : CState) (r : FetchRes) :
    (techPhase s r).start = s.start ∧ (techPhase s r).queue = s.queue ∧
    (techPhase s r).visited = s.visited ∧
    (techPhase s r).gathered = s.gathered ∧
    (techPhase s r).sitemap = s.sitemap ∧
    (techPhase s r).checked = s.checked ∧
    (techPhase s r).trace = s.trace ∧ (techPhase s r).passes = s.passes := by
  unfold techPhase
  split <;> exact ⟨rfl, rfl, rfl, rfl, rfl, rfl, rfl, rfl⟩

theorem recordPhase_core (s : CState) (c : Str) (d : PageData) :
    (recordPhase s c d).start = s.start ∧
    (recordPhase s c d).queue = s.queue ∧
    (recordPhase s c d).visited = s.visited ∧
    (recordPhase s c d).checked = s.checked ∧
    (recordPhase s c d).trace = s.trace ∧
    (recordPhase s c d).technologies = s.technologies ∧
    (recordPhase s c d).passes = s.passes :=
  ⟨rfl, rfl, rfl, rfl, rfl, rfl, rfl⟩

theorem enqStep_core (st : CState) (l : Str) :
    (enqStep st l).start = st.start ∧
    (enqStep st l).gathered = st.gathered ∧
    (enqStep st l).sitemap = st.sitemap ∧
    (enqStep st l).checked = st.checked ∧
    (enqStep st l).trace = st.trace ∧
    (enqStep st l).technologies = st.technologies ∧
    (enqStep st l).passes = st.passes := by
  unfold enqStep
  split <;> exact ⟨rfl, rfl, rfl, rfl, rfl, rfl, rfl⟩

theorem enqLinks_core (links : List Str) :
    ∀ s : CState,
      (enqLinks s links).start = s.start ∧
      (enqLinks s links).gathered = s.gathered ∧
      (enqLinks s links).sitemap = s.sitemap ∧
      (enqLinks s links).checked = s.checked ∧
      (enqLinks s links).trace = s.trace ∧
      (enqLinks s links).technologies = s.technologies ∧
      (enqLinks s links).passes = s.passes := by
  induction links with
  | nil => intro s; exact ⟨rfl, rfl, rfl, rfl, rfl, rfl, rfl⟩
  | cons l ls ih =>
    intro s
    have h1 := ih (enqStep s l)
    have h2 := enqStep_core s l
    show (enqLinks (enqStep s l) ls).start = s.start ∧ _ ∧ _ ∧ _ ∧ _ ∧ _ ∧ _
    exact ⟨h1.1.trans h2.1, (h1.2.1).trans h2.2.1,
      (h1.2.2.1).trans h2.2.2.1, (h1.2.2.2.1).trans h2.2.2.2.1,
      (h1.2.2.2.2.1).trans h2.2.2.2.2.1,
      (h1.2.2.2.2.2.1).trans h2.2.2.2.2.2.1,
      (h1.2.2.2.2.2.2).trans h2.2.2.2.2.2.2⟩

theorem dirStep_core (st : CState) (d : Str) :
    (dirStep st d).start = st.start ∧
    (dirStep st d).gathered = st.gathered ∧
    (dirStep st d).sitemap = st.sitemap ∧
    (dirStep st d).checked = st.checked ∧
    (dirStep st d).trace = st.trace ∧
    (dirStep st d).technologies = st.technologies ∧
    (dirStep st d).passes = st.passes := by
  unfold dirStep
  split <;> exact ⟨rfl, rfl, rfl, rfl, rfl, rfl, rfl⟩

theorem dirFold_core (nds : List Str) :
    ∀ s : CState,
      (nds.foldl dirStep s).start = s.start ∧
      (nds.foldl dirStep s).gathered = s.gathered ∧
      (nds.foldl dirStep s).sitemap = s.sitemap ∧
      (nds.foldl dirStep s).checked = s.checked ∧
      (nds.foldl dirStep s).trace = s.trace ∧
      (nds.foldl dirStep s).technologies = s.technologies ∧
      (nds.foldl dirStep s).passes = s.passes := by
  induction nds with
  | nil => intro s; exact ⟨rfl, rfl, rfl, rfl, rfl, rfl, rfl⟩
  | cons d ds ih =>
    intro s
    have h1 := ih (dirStep s d)
    have h2 := dirStep_core s d
    show (List.foldl dirStep (dirStep s d) ds).start = s.start ∧ _ ∧ _ ∧ _ ∧
      _ ∧ _ ∧ _
    exact ⟨h1.1.trans h2.1, (h1.2.1).trans h2.2.1,
      (h1.2.2.1).trans h2.2.2.1, (h1.2.2.2.1).trans h2.2.2.2.1,
      (h1.2.2.2.2.1).trans h2.2.2.2.2.1,
      (h1.2.2.2.2.2.1).trans h2.2.2.2.2.2.1,
      (h1.2.2.2.2.2.2).trans h2.2.2.2.2.2.2⟩

theorem processUrl_eq_fetchExn (env : CEnv) (kw : Bool) (s : CState)
    (u : Str) (hf : u ∈ env.fetchExn) : processUrl env kw s u = s := by
  simp [processUrl, hf]

theorem processUrl_eq_skip (env : CEnv) (kw : Bool) (s : CState) (u : Str)
    (hf : u ∉ env.fetchExn)
    (hg : dmem (normList u) s.gathered = true) :
    processUrl env kw s u =
      techPhase s ((dlookup u env.fetchTbl).getD errorRes) := by
  simp [processUrl, hf, (techPhase_core s _).2.2.2.1, hg]

theorem processUrl_eq_parseExn (env : CEnv) (kw : Bool) (s : CState)
    (u : Str) (hf : u ∉ env.fetchExn)
    (hg : dmem (normList u) s.gathered = false)
    (hw : wantsParser ((dlookup u env.fetchTbl).getD errorRes) = true)
    (hp : u ∈ env.parseExn) :
    processUrl env kw s u =
      techPhase s ((dlookup u env.fetchTbl).getD errorRes) := by
  simp [processUrl, hf, (techPhase_core s _).2.2.2.1, hg, hw, hp]

theorem processUrl_eq_parse (env : CEnv) (kw : Bool) (s : CState) (u : Str)
    (hf : u ∉ env.fetchExn)
    (hg : dmem (normList u) s.gathered = false)
    (hw : wantsParser ((dlookup u env.fetchTbl).getD errorRes) = true)
    (hp : u ∉ env.parseExn) :
    processUrl env kw s u =
      recordPhase
        (enqLinks (techPhase s ((dlookup u env.fetchTbl).getD errorRes))
          ((((dlookup u env.parseTbl).getD ([], [])).1).filterMap
            (emitLink (normList u))))
        (normList u)
        ⟨((dlookup u env.fetchTbl).getD errorRes).code,
         ((dlookup u env.fetchTbl).getD errorRes).content_type,
         normList u,
         if kw then ((dlookup u env.parseTbl).getD ([], [])).2 else []⟩ := by
  simp [processUrl, hf, (techPhase_core s _).2.2.2.1, hg, hw, hp]

theorem processUrl_eq_noparse (env : CEnv) (kw : Bool) (s : CState)
    (u : Str) (hf : u ∉ env.fetchExn)
    (hg : dmem (normList u) s.gathered = false)
    (hw : wantsParser ((dlookup u env.fetchTbl).getD errorRes) = false) :
    processUrl env kw s u =
      recordPhase (techPhase s ((dlookup u env.fetchTbl).getD errorRes))
        (normList u)
        ⟨((dlookup u env.fetchTbl).getD errorRes).code,
         ((dlookup u env.fetchTbl).getD errorRes).content_type,
         normList u, []⟩ := by
  simp [processUrl, hf, (techPhase_core s _).2.2.2.1, hg, hw]

theorem countStr_eq_one {l : List Str} (h : l.Nodup) {c : Str}
    (hc : c ∈ l) : countStr c l = 1 := by
  induction l with
  | nil => cases hc
  | cons a t ih =>
    unfold countStr at *
    rw [List.filter_cons]
    rcases List.mem_cons.mp hc with rfl | hct
    · rw [if_pos (by simp)]
      have hna : c ∉ t := (List.nodup_cons.mp h).1
      have h0 : t.filter (fun x => x = c) = [] := by
        rw [List.filter_eq_nil]
        intro a ha
        simp only [decide_eq_true_eq]
        rintro rfl
        exact hna ha
      simp [h0]
    · have hac : ¬ (a = c) := by
        rintro rfl
        exact ((List.nodup_cons.mp h).1 hct).elim
      rw [if_neg (by simpa using hac)]
      exact ih (List.nodup_cons.mp h).2 hct

theorem dlookup_mem {α : Type} (k : Str) :
    ∀ (d : List (Str × α)) (v : α), dlookup k d = some v → (k, v) ∈ d := by
  intro d
  induction d with
  | nil => intro v h; exact absurd h (by simp [dlookup])
  | cons p rest ih =>
    obtain ⟨k2, v2⟩ := p
    intro v h
    by_cases hk : k = k2
    · subst hk
      have hv : v2 = v := by simpa [dlookup] using h
      subst hv
      exact List.mem_cons_self _ _
    · have h2 : dlookup k rest = some v := by simpa [dlookup, hk] using h
      exact List.mem_cons_of_mem _ (ih v h2)

theorem nodup_snoc {xs : List Str} {a : Str} (h1 : xs.Nodup)
    (h2 : a ∉ xs) : (xs ++ [a]).Nodup :=
  List.Nodup.append h1 (List.nodup_singleton a)
    (fun x hx hxa => h2 ((List.mem_singleton.mp hxa) ▸ hx))

theorem traceInv_of_core {t s : CState} (ht : t.trace = s.trace)
    (hq : t.queue = s.queue) (hv : t.visited = s.visited)
    (h : TraceInv s) : TraceInv t := by
  unfold TraceInv at h ⊢
  rw [ht, hq, hv]
  exact h

theorem enqStep_inv {st : CState} {l : Str}
    (hl : normList (normList l) = normList l) (h : TraceInv st) :
    TraceInv (enqStep st l) := by
  unfold enqStep
  split
  · exact h
  · rename_i hn
    constructor
    · show ((st.trace ++ (st.queue ++ [normList l])).map normList).Nodup
      rw [← List.append_assoc, List.map_append]
      have he : ([normList l]).map normList = [normList l] := by simp [hl]
      rw [he]
      refine nodup_snoc h.1 ?_
      intro hmem
      obtain ⟨x, hx, hxe⟩ := List.mem_map.mp hmem
      exact hn (hxe ▸ h.2 x hx)
    · intro x hx
      rw [← List.append_assoc] at hx
      rcases List.mem_append.mp hx with hx1 | hx1
      · exact List.mem_append_left _ (h.2 x hx1)
      · rw [List.mem_singleton.mp hx1, hl]
        exact List.mem_append_right _ (List.mem_singleton_self _)

theorem dirStep_inv {st : CState} {d : Str} (h : TraceInv st) :
    TraceInv (dirStep st d) := by
  unfold dirStep
  split
  · exact h
  · rename_i hn
    constructor
    · show ((st.trace ++ (st.queue ++ [d])).map normList).Nodup
      rw [← List.append_assoc, List.map_append]
      have he : ([d]).map normList = [normList d] := by simp
      rw [he]
      refine nodup_snoc h.1 ?_
      intro hmem
      obtain ⟨x, hx, hxe⟩ := List.mem_map.mp hmem
      exact hn (hxe ▸ h.2 x hx)
    · intro x hx
      rw [← List.append_assoc] at hx
      rcases List.mem_append.mp hx with hx1 | hx1
      · exact List.mem_append_left _ (h.2 x hx1)
      · rw [List.mem_singleton.mp hx1]
        exact List.mem_append_right _ (List.mem_singleton_self _)

theorem enqLinks_inv :
    ∀ (links : List Str),
      (∀ l ∈ links, normList (normList l) = normList l) →
      ∀ {s : CState}, TraceInv s → TraceInv (enqLinks s links) := by
  intro links
  induction links with
  | nil => intro _ s h; exact h
  | cons l ls ih =>
    intro hst s h
    show TraceInv (enqLinks (enqStep s l) ls)
    exact ih (fun x hx => hst x (List.mem_cons_of_mem _ hx))
      (enqStep_inv (hst l (List.mem_cons_self _ _)) h)

theorem dirFold_inv :
    ∀ (nds : List Str) {s : CState}, TraceInv s →
      TraceInv (nds.foldl dirStep s) := by
  intro nds
  induction nds with
  | nil => intro s h; exact h
  | cons d ds ih =>
    intro s h
    show TraceInv (List.foldl dirStep (dirStep s d) ds)
    exact ih (dirStep_inv h)

theorem reseed_inv {s : CState} (nds : List Str) (h : TraceInv s) :
    TraceInv (reseed s nds) := by
  have h1 := dirFold_inv nds h
  exact traceInv_of_core rfl rfl rfl h1

theorem crawlRun_succ (env : CEnv) (kw : Bool) (n : Nat) (s : CState) :
    crawlRun env kw (n + 1) s =
      match s.queue with
      | u :: rest =>
        crawlRun env kw n
          (processUrl env kw
            { s with queue := rest, trace := s.trace ++ [u] } u)
      | [] =>
        if (allDirs s).filter (fun d => d ∉ s.checked) = [] then s
        else
          crawlRun env kw n
            (reseed s ((allDirs s).filter (fun d => d ∉ s.checked))) :=
  rfl

theorem crawlRun_cons (env : CEnv) (kw : Bool) (n : Nat) (s : CState)
    (u : Str) (rest : List Str) (hq : s.queue = u :: rest) :
    crawlRun env kw (n + 1) s =
      crawlRun env kw n
        (processUrl env kw
          { s with queue := rest, trace := s.trace ++ [u] } u) := by
  rw [crawlRun_succ, hq]

theorem crawlRun_nil_done (env : CEnv) (kw : Bool) (n : Nat) (s : CState)
    (hq : s.queue = [])
    (hnd : (allDirs s).filter (fun d => d ∉ s.checked) = []) :
    crawlRun env kw (n + 1) s = s := by
  rw [crawlRun_succ, hq]
  simp only [hnd, if_pos]

theorem crawlRun_nil_reseed (env : CEnv) (kw : Bool) (n : Nat) (s : CState)
    (hq : s.queue = [])
    (hnd : (allDirs s).filter (fun d => d ∉ s.checked) ≠ []) :
    crawlRun env kw (n + 1) s =
      crawlRun env kw n
        (reseed s ((allDirs s).filter (fun d => d ∉ s.checked))) := by
  rw [crawlRun_succ, hq]
  exact if_neg hnd

theorem initState_inv (start : Str) : TraceInv (initState start) := by
  constructor
  · simp [initState]
  · intro x hx
    simp [initState] at hx ⊢
    simp [hx]

theorem techPhase_done_false (s : CState) {r : FetchRes}
    (hd : r.done = false) : techPhase s r = s := by
  unfold techPhase
  rw [hd]
  simp

theorem wantsParser_done_false {r : FetchRes} (hd : r.done = false) :
    wantsParser r = false := by
  unfold wantsParser
  rw [hd]
  simp

theorem dlookup_none_of_dmem_false {α : Type} {k : Str}
    {g : List (Str × α)} (h : dmem k g = false) : dlookup k g = none := by
  unfold dmem at h
  cases hx : dlookup k g
  · rfl
  · rw [hx] at h
    simp at h

/-- processUrl either leaves gathered_urls and the sitemap untouched, or
the canonical URL was new and both are extended exactly at it. -/
theorem recordPhase_gathered (s : CState) (c : Str) (d : PageData) :
    (recordPhase s c d).gathered = dictInsert s.gathered c d := rfl

theorem recordPhase_sitemap (s : CState) (c : Str) (d : PageData) :
    (recordPhase s c d).sitemap = add_to_sitemap s.sitemap c d := rfl

theorem processUrl_cases (env : CEnv) (kw : Bool) (s : CState) (u : Str) :
    ((processUrl env kw s u).gathered = s.gathered ∧
     (processUrl env kw s u).sitemap = s.sitemap) ∨
    (dmem (normList u) s.gathered = false ∧ ∃ d : PageData,
      (processUrl env kw s u).gathered =
        dictInsert s.gathered (normList u) d ∧
      (processUrl env kw s u).sitemap =
        add_to_sitemap s.sitemap (normList u) d) := by
  by_cases hf : u ∈ env.fetchExn
  · left
    rw [processUrl_eq_fetchExn env kw s u hf]
    exact ⟨rfl, rfl⟩
  · have hc := techPhase_core s ((dlookup u env.fetchTbl).getD errorRes)
    by_cases hg : dmem (normList u) s.gathered = true
    · left
      rw [processUrl_eq_skip env kw s u hf hg]
      exact ⟨hc.2.2.2.1, hc.2.2.2.2.1⟩
    · have hg2 : dmem (normList u) s.gathered = false := by simpa using hg
      by_cases hw :
          wantsParser ((dlookup u env.fetchTbl).getD errorRes) = true
      · by_cases hp : u ∈ env.parseExn
        · left
          rw [processUrl_eq_parseExn env kw s u hf hg2 hw hp]
          exact ⟨hc.2.2.2.1, hc.2.2.2.2.1⟩
        · right
          refine ⟨hg2,
            ⟨⟨((dlookup u env.fetchTbl).getD errorRes).code,
              ((dlookup u env.fetchTbl).getD errorRes).content_type,
              normList u,
              if kw then ((dlookup u env.parseTbl).getD ([], [])).2
              else []⟩, ?_, ?_⟩⟩
          · rw [processUrl_eq_parse env kw s u hf hg2 hw hp,
              recordPhase_gathered, (enqLinks_core _ _).2.1, hc.2.2.2.1]
          · rw [processUrl_eq_parse env kw s u hf hg2 hw hp,
              recordPhase_sitemap, (enqLinks_core _ _).2.2.1,
              hc.2.2.2.2.1]
      · have hw2 :
            wantsParser ((dlookup u env.fetchTbl).getD errorRes) =
              false := by simpa using hw
        right
        refine ⟨hg2,
          ⟨⟨((dlookup u env.fetchTbl).getD errorRes).code,
            ((dlookup u env.fetchTbl).getD errorRes).content_type,
            normList u, []⟩, ?_, ?_⟩⟩
        · rw [processUrl_eq_noparse env kw s u hf hg2 hw2,
            recordPhase_gathered, hc.2.2.2.1]
        · rw [processUrl_eq_noparse env kw s u hf hg2 hw2,
            recordPhase_sitemap, hc.2.2.2.2.1]

theorem processUrl_gathered_mono (env : CEnv) (kw : Bool) (s : CState)
    (u : Str) {c : Str} {d : PageData}
    (h : dlookup c s.gathered = some d) :
    dlookup c (processUrl env kw s u).gathered = some d := by
  rcases processUrl_cases env kw s u with ⟨hgat, _⟩ | ⟨hg2, d2, hgat, _⟩
  · rw [hgat]; exact h
  · rw [hgat, dlookup_dictInsert]
    split
    · rename_i he
      rw [he] at h
      rw [dlookup_none_of_dmem_false hg2] at h
      cases h
    · exact h

theorem processUrl_gathered_local (env : CEnv) (kw : Bool) (s : CState)
    (u : Str) {v : Str} (hv : v ≠ normList u) :
    dlookup v (processUrl env kw s u).gathered = dlookup v s.gathered := by
  rcases processUrl_cases env kw s u with ⟨hgat, _⟩ | ⟨_, d2, hgat, _⟩
  · rw [hgat]
  · rw [hgat, dlookup_dictInsert, if_neg hv]

theorem reseed_gathered (s : CState) (nds : List Str) :
    (reseed s nds).gathered = s.gathered :=
  (dirFold_core nds s).2.1

theorem crawlRun_gathered_mono (env : CEnv) (kw : Bool) :
    ∀ (n : Nat) {s : CState} {c : Str} {d : PageData},
      dlookup c s.gathered = some d →
      dlookup c (crawlRun env kw n s).gathered = some d := by
  intro n
  induction n with
  | zero => intro s c d h; exact h
  | succ m ih =>
    intro s c d h
    rcases hq : s.queue with _ | ⟨u, rest⟩
    · by_cases hnd : (allDirs s).filter (fun x => x ∉ s.checked) = []
      · rw [crawlRun_nil_done env kw m s hq hnd]; exact h
      · rw [crawlRun_nil_reseed env kw m s hq hnd]
        refine ih ?_
        rw [reseed_gathered]
        exact h
    · rw [crawlRun_cons env kw m s u rest hq]
      exact ih (processUrl_gathered_mono env kw _ u h)

/-- C10: once a PageResult is recorded for a canonical URL, a later
dequeue of the same canonical URL is skipped before building a new
record (only the technology map may change), and the recorded result
survives unchanged for the remainder of the run. -/
theorem c10_first_result_wins :
    (∀ (env : CEnv) (kw : Bool) (s : CState) (u : Str),
        dmem (normList u) s.gathered = true →
        (processUrl env kw s u).gathered = s.gathered ∧
        (processUrl env kw s u).sitemap = s.sitemap ∧
        (processUrl env kw s u).visited = s.visited ∧
        (processUrl env kw s u).queue = s.queue) ∧
    (∀ (env : CEnv) (kw : Bool) (n : Nat) (s : CState) (c : Str)
        (d : PageData),
        dlookup c s.gathered = some d →
        dlookup c (crawlRun env kw n s).gathered = some d) := by
  constructor
  · intro env kw s u hg
    by_cases hf : u ∈ env.fetchExn
    · rw [processUrl_eq_fetchExn env kw s u hf]
      exact ⟨rfl, rfl, rfl, rfl⟩
    · have hc := techPhase_core s ((dlookup u env.fetchTbl).getD errorRes)
      rw [processUrl_eq_skip env kw s u hf hg]
      exact ⟨hc.2.2.2.1, hc.2.2.2.2.1, hc.2.2.1, hc.2.1⟩
  · intro env kw n s c d h
    exact crawlRun_gathered_mono env kw n h

/-- C3 (amended): transport failures caught inside http_request still get
an error-status PageResult with no extracted links; an exception raised
in the worker body itself is caught but records NOTHING for that URL
(only the already-applied technology update survives); in every case no
other gathered entry is modified. -/
theorem c3_error_containment :
    (∀ (env : CEnv) (kw : Bool) (s : CState) (u : Str),
        u ∉ env.fetchExn →
        ((dlookup u env.fetchTbl).getD errorRes).done = false →
        dmem (normList u) s.gathered = false →
        dlookup (normList u) (processUrl env kw s u).gathered =
          some ⟨((dlookup u env.fetchTbl).getD errorRes).code,
            ((dlookup u env.fetchTbl).getD errorRes).content_type,
            normList u, []⟩ ∧
        (processUrl env kw s u).queue = s.queue ∧
        (processUrl env kw s u).visited = s.visited) ∧
    (∀ (env : CEnv) (kw : Bool) (s : CState) (u : Str),
        u ∈ env.fetchExn → processUrl env kw s u = s) ∧
    (∀ (env : CEnv) (kw : Bool) (s : CState) (u : Str),
        u ∉ env.fetchExn → u ∈ env.parseExn →
        dmem (normList u) s.gathered = false →
        wantsParser ((dlookup u env.fetchTbl).getD errorRes) = true →
        dlookup (normList u) (processUrl env kw s u).gathered = none ∧
        (processUrl env kw s u).gathered = s.gathered ∧
        (processUrl env kw s u).sitemap = s.sitemap ∧
        (processUrl env kw s u).queue = s.queue ∧
        (processUrl env kw s u).visited = s.visited) ∧
    (∀ (env : CEnv) (kw : Bool) (s : CState) (u v : Str),
        v ≠ normList u →
        dlookup v (processUrl env kw s u).gathered =
          dlookup v s.gathered) := by
  refine ⟨?_, ?_, ?_, ?_⟩
  · intro env kw s u hf hd hg
    have hw2 := wantsParser_done_false hd
    rw [processUrl_eq_noparse env kw s u hf hg hw2,
      techPhase_done_false s hd]
    refine ⟨?_, rfl, rfl⟩
    rw [recordPhase_gathered, dlookup_dictInsert, if_pos rfl]
  · intro env kw s u hf
    exact processUrl_eq_fetchExn env kw s u hf
  · intro env kw s u hf hp hg hw
    have hc := techPhase_core s ((dlookup u env.fetchTbl).getD errorRes)
    rw [processUrl_eq_parseExn env kw s u hf hg hw hp]
    refine ⟨?_, hc.2.2.2.1, hc.2.2.2.2.1, hc.2.1, hc.2.2.1⟩
    rw [hc.2.2.2.1]
    exact dlookup_none_of_dmem_false hg
  · intro env kw s u v hv
    exact processUrl_gathered_local env kw s u hv

/-- C3 counterexample: processing page a raises while parsing; the worker
catches it but records NO PageResult at all for a (gathered lookup under
its canonical URL stays none and its sitemap path stays empty), while the
pool keeps running and still processes and records page b — contradicting
the claim that a failed URL gets an error-status PageResult. -/
theorem c3_counterexample :
    (crawlRun c3Env false 2 c3State).trace =
      ["http://x.test/a".data, "http://x.test/b".data] ∧
    dlookup (normList "http://x.test/a".data)
      (crawlRun c3Env false 2 c3State).gathered = none ∧
    dlookup "http://x.test/b".data
      (crawlRun c3Env false 2 c3State).gathered =
      some ⟨none, "error".data, "http://x.test/b".data, []⟩ ∧
    (crawlRun c3Env false 2 c3State).sitemap.probe ["a".data] = none :=
  ⟨by decide, by decide, by decide, by decide⟩

/-- Closed instance of the C3 theorem: the transport-error page b gets an
error-status record with the queue and visited set untouched. -/
theorem c3_witness :
    dlookup (normList "http://x.test/b".data)
        (processUrl c3Env false c3State "http://x.test/b".data).gathered =
      some ⟨((dlookup "http://x.test/b".data c3Env.fetchTbl).getD
          errorRes).code,
        ((dlookup "http://x.test/b".data c3Env.fetchTbl).getD
          errorRes).content_type,
        normList "http://x.test/b".data, []⟩ ∧
    (processUrl c3Env false c3State "http://x.test/b".data).queue =
      c3State.queue ∧
    (processUrl c3Env false c3State "http://x.test/b".data).visited =
      c3State.visited :=
  c3_error_containment.1 c3Env false c3State "http://x.test/b".data
    (by decide) (by decide) (by decide)

/-- Closed instance of the C10 theorem: a already recorded, so its later
dequeue changes nothing, and its record survives a four-step run. -/
theorem c10_witness :
    ((processUrl c10Env false c10State "http://x.test/a".data).gathered =
        c10State.gathered ∧
      (processUrl c10Env false c10State "http://x.test/a".data).sitemap =
        c10State.sitemap ∧
      (processUrl c10Env false c10State "http://x.test/a".data).visited =
        c10State.visited ∧
      (processUrl c10Env false c10State "http://x.test/a".data).queue =
        c10State.queue) ∧
    dlookup "http://x.test/a".data
      (crawlRun c10Env false 4 c10State).gathered = some c10Data :=
  ⟨c10_first_result_wins.1 c10Env false c10State "http://x.test/a".data
      (by decide),
   c10_first_result_wins.2 c10Env false 4 c10State "http://x.test/a".data
      c10Data (by decide)⟩



theorem dirPaths_cons (k : Str) (m : SNode) (rest : SChildren) :
    dirPaths (.cons k m rest) =
      (if m.children = .nil then []
       else [k] :: (dirPaths m.children).map (fun p => k :: p)) ++
        dirPaths rest := by
  cases m
  rfl

theorem dirUrlsC_eq : ∀ (cs : SChildren) (cur : Str),
    dirUrlsC cs cur = (dirPaths cs).map (chainFrom cur)
  | .nil, cur => rfl
  | .cons k (.node d cs) rest, cur => by
    by_cases h : cs = .nil
    · simp only [dirUrlsC, dirPaths, if_pos h, List.nil_append]
      exact dirUrlsC_eq rest cur
    · simp only [dirUrlsC, dirPaths, if_neg h, List.map_append,
        List.map_cons, List.map_map]
      rw [dirUrlsC_eq cs (urljoin (addSlash cur) (k ++ ['/'])),
        dirUrlsC_eq rest cur]
      rfl

theorem mem_foldl_setInsert : ∀ (l acc : List Str) (x : Str),
    x ∈ l.foldl setInsert acc → x ∈ acc ∨ x ∈ l := by
  intro l
  induction l with
  | nil => intro acc x h; exact Or.inl h
  | cons a t ih =>
    intro acc x h
    rcases ih (setInsert acc a) x h with h1 | h1
    · unfold setInsert at h1
      split at h1
      · exact Or.inl h1
      · rcases List.mem_append.mp h1 with h2 | h2
        · exact Or.inl h2
        · refine Or.inr ?_
          rw [List.mem_singleton.mp h2]
          exact List.mem_cons_self _ _
    · exact Or.inr (List.mem_cons_of_mem _ h1)

theorem mem_setOfList {l : List Str} {x : Str} (h : x ∈ setOfList l) :
    x ∈ l := by
  rcases mem_foldl_setInsert l [] x h with h1 | h1
  · cases h1
  · exact h1

theorem mem_setInsert_of_mem {acc : List Str} {y : Str} (x : Str)
    (h : y ∈ acc) : y ∈ setInsert acc x := by
  unfold setInsert
  split
  · exact h
  · exact List.mem_append_left _ h

theorem self_mem_setInsert (acc : List Str) (x : Str) :
    x ∈ setInsert acc x := by
  unfold setInsert
  split
  · assumption
  · exact List.mem_append_right _ (List.mem_singleton_self _)

theorem mem_setOfList_of_mem :
    ∀ {l : List Str} {x : Str}, x ∈ l → x ∈ setOfList l := by
  have key : ∀ (l acc : List Str) (x : Str), x ∈ acc ∨ x ∈ l →
      x ∈ l.foldl setInsert acc := by
    intro l
    induction l with
    | nil => intro acc x h; rcases h with h | h; exact h; cases h
    | cons a t ih =>
      intro acc x h
      rcases h with h | h
      · exact ih _ x (Or.inl (mem_setInsert_of_mem a h))
      · rcases List.mem_cons.mp h with rfl | h2
        · exact ih _ x (Or.inl (self_mem_setInsert acc x))
        · exact ih _ x (Or.inr h2)
  intro l x h
  exact key l [] x (Or.inr h)

theorem setInsert_nodup {acc : List Str} {x : Str} (h : acc.Nodup) :
    (setInsert acc x).Nodup := by
  unfold setInsert
  split
  · exact h
  · rename_i hx
    exact nodup_snoc h hx

theorem setOfList_nodup (l : List Str) : (setOfList l).Nodup := by
  have key : ∀ (l acc : List Str), acc.Nodup →
      (l.foldl setInsert acc).Nodup := by
    intro l
    induction l with
    | nil => intro acc h; exact h
    | cons a t ih => intro acc h; exact ih _ (setInsert_nodup h)
  exact key l [] List.nodup_nil

theorem mem_prefixesOf_head (a : Str) (l : List Str) :
    [a] ∈ prefixesOf (a :: l) := by
  unfold prefixesOf
  refine List.mem_map.mpr ⟨0, ?_, rfl⟩
  simp

theorem mem_prefixesOf_cons {p l : List Str} (a : Str)
    (h : p ∈ prefixesOf l) : a :: p ∈ prefixesOf (a :: l) := by
  unfold prefixesOf at h ⊢
  obtain ⟨i, hi, he⟩ := List.mem_map.mp h
  refine List.mem_map.mpr ⟨i + 1, ?_, ?_⟩
  · simp only [List.mem_range, List.length_cons] at hi ⊢
    omega
  · rw [← he]
    rfl

theorem dirPaths_updateChild_keep (k : Str) (f : SNode → SNode)
    (hf : ∀ n, (f n).children = n.children) :
    ∀ cs : SChildren, dirPaths (cs.updateChild k f) = dirPaths cs
  | .nil => by
    show dirPaths (.cons k (f emptyNode) .nil) = dirPaths .nil
    rw [dirPaths_cons, hf emptyNode]
    rfl
  | .cons k2 n rest => by
    unfold SChildren.updateChild
    by_cases hk : k = k2
    · rw [if_pos hk, dirPaths_cons, dirPaths_cons, hf n]
    · rw [if_neg hk, dirPaths_cons, dirPaths_cons,
        dirPaths_updateChild_keep k f hf rest]

theorem dirPaths_updateChild_sub (k : Str) (g : SNode → SNode) :
    ∀ cs : SChildren,
      dirPaths (cs.updateChild k g) ⊆
        dirPaths cs ++
          ([k] :: (dirPaths
              (g ((cs.find k).getD emptyNode)).children).map
            (fun p => k :: p))
  | .nil => by
    show dirPaths (.cons k (g emptyNode) .nil) ⊆ _
    rw [dirPaths_cons]
    intro x hx
    rcases List.mem_append.mp hx with h1 | h1
    · refine List.mem_append_right _ ?_
      split at h1
      · cases h1
      · exact h1
    · exact absurd h1 (List.not_mem_nil x)
  | .cons k2 n rest => by
    unfold SChildren.updateChild
    by_cases hk : k = k2
    · subst hk
      rw [if_pos rfl, dirPaths_cons, dirPaths_cons]
      intro x hx
      rcases List.mem_append.mp hx with h1 | h1
      · refine List.mem_append_right _ ?_
        show x ∈ [k] :: (dirPaths
          (g ((SChildren.find k (.cons k n rest)).getD
            emptyNode)).children).map (fun p => k :: p)
        have hfind : SChildren.find k (.cons k n rest) = some n := by
          simp [SChildren.find]
        rw [hfind]
        split at h1
        · cases h1
        · exact h1
      · refine List.mem_append_left _ (List.mem_append_right _ h1)
    · rw [if_neg hk, dirPaths_cons, dirPaths_cons]
      intro x hx
      have hfind : SChildren.find k (.cons k2 n rest) =
          SChildren.find k rest := by
        simp [SChildren.find, hk]
      rcases List.mem_append.mp hx with h1 | h1
      · exact List.mem_append_left _ (List.mem_append_left _ h1)
      · have h2 := dirPaths_updateChild_sub k g rest h1
        rw [hfind]
        rcases List.mem_append.mp h2 with h3 | h3
        · exact List.mem_append_left _ (List.mem_append_right _ h3)
        · exact List.mem_append_right _ h3

theorem dirPaths_find_sub :
    ∀ (cs : SChildren) (k : Str) (m : SNode),
      cs.find k = some m → m.children ≠ .nil →
      [k] ∈ dirPaths cs ∧
        ∀ p ∈ dirPaths m.children, (k :: p) ∈ dirPaths cs
  | .nil, k, m, hf, _ => by cases hf
  | .cons k2 n rest, k, m, hf, hne => by
    rw [dirPaths_cons]
    by_cases hk : k = k2
    · subst hk
      have hm : n = m := by simpa [SChildren.find] using hf
      subst hm
      rw [if_neg hne]
      constructor
      · exact List.mem_append_left _ (List.mem_cons_self _ _)
      · intro p hp
        refine List.mem_append_left _ (List.mem_cons_of_mem _ ?_)
        exact List.mem_map.mpr ⟨p, hp, rfl⟩
    · have hf2 : SChildren.find k rest = some m := by
        simpa [SChildren.find, hk] using hf
      have ih := dirPaths_find_sub rest k m hf2 hne
      exact ⟨List.mem_append_right _ ih.1,
        fun p hp => List.mem_append_right _ (ih.2 p hp)⟩

theorem insertSegs_dirPaths (d : PageData) :
    ∀ (segs : List Str) (t : SNode),
      dirPaths (insertSegs d segs t).children ⊆
        dirPaths t.children ++
          prefixesOf (segs.filter (fun x => x ≠ [])) := by
  intro segs
  induction segs with
  | nil => intro t x hx; exact List.mem_append_left _ hx
  | cons seg rest ih =>
    intro t
    cases rest with
    | nil =>
      by_cases hs : seg = []
      · rw [show insertSegs d [seg] t = t by simp [insertSegs, hs]]
        intro x hx
        exact List.mem_append_left _ hx
      · rw [insertSegs_single d t hs]
        intro x hx
        refine List.mem_append_left _ ?_
        rw [show (t.updateAt seg (SNode.setData d)).children =
            t.children.updateChild seg (SNode.setData d) from
          children_updateAt t seg _] at hx
        rw [dirPaths_updateChild_keep seg (SNode.setData d)
          (fun n => by cases n; rfl) t.children] at hx
        exact hx
    | cons r rs =>
      by_cases hs : seg = []
      · subst hs
        rw [insertSegs_skip]
        intro x hx
        have h2 := ih t hx
        rcases List.mem_append.mp h2 with h3 | h3
        · exact List.mem_append_left _ h3
        · refine List.mem_append_right _ ?_
          simpa using h3
      · rw [insertSegs_cons d r rs t hs]
        intro x hx
        rw [children_updateAt] at hx
        have h2 := dirPaths_updateChild_sub seg
          (fun m => insertSegs d (r :: rs) m) t.children hx
        have hfil : (seg :: r :: rs).filter (fun x => x ≠ []) =
            seg :: ((r :: rs).filter (fun x => x ≠ [])) := by
          rw [List.filter_cons, if_pos (by simpa using hs)]
        rcases List.mem_append.mp h2 with h3 | h3
        · exact List.mem_append_left _ h3
        · rcases List.mem_cons.mp h3 with rfl | h4
          · refine List.mem_append_right _ ?_
            rw [hfil]
            exact mem_prefixesOf_head seg _
          · obtain ⟨p, hp, hpe⟩ := List.mem_map.mp h4
            have h5 := ih ((t.children.find seg).getD emptyNode) hp
            rcases List.mem_append.mp h5 with h6 | h6
            · refine List.mem_append_left _ ?_
              subst hpe
              cases hfd : t.children.find seg with
              | none =>
                rw [hfd] at h6
                simp only [Option.getD_none] at h6
                exact absurd h6 (List.not_mem_nil p)
              | some m =>
                rw [hfd] at h6
                simp only [Option.getD_some] at h6
                have hne : m.children ≠ .nil := by
                  intro hcon
                  rw [hcon] at h6
                  exact absurd h6 (List.not_mem_nil p)
                exact (dirPaths_find_sub t.children seg m hfd hne).2 p h6
            · refine List.mem_append_right _ ?_
              subst hpe
              rw [hfil]
              exact mem_prefixesOf_cons seg h6

theorem add_dirPaths (sm : SNode) (url : Str) (d : PageData) :
    dirPaths (add_to_sitemap sm url d).children ⊆
      dirPaths sm.children ++
        prefixesOf ((path_segments_of url).filter (fun x => x ≠ [])) := by
  by_cases hc : path_segments_of url = [] ∨
      ((path_segments_of url).length = 1 ∧
        (path_segments_of url).headD [] = [])
  · rw [show add_to_sitemap sm url d =
        SNode.updateAt "/".data (SNode.setData d) sm from by
      simp only [add_to_sitemap, hc, if_true]]
    intro x hx
    rw [children_updateAt, dirPaths_updateChild_keep _ _
      (fun n => by cases n; rfl)] at hx
    exact List.mem_append_left _ hx
  · rw [show add_to_sitemap sm url d =
        insertSegs d (path_segments_of url) sm from by
      simp only [add_to_sitemap, hc, if_false]]
    exact insertSegs_dirPaths d _ sm

theorem filter_length_mono {p q : Str → Bool}
    (h : ∀ x, p x = true → q x = true) :
    ∀ l : List Str, (l.filter p).length ≤ (l.filter q).length := by
  intro l
  induction l with
  | nil => exact Nat.le_refl 0
  | cons a t ih =>
    rw [List.filter_cons, List.filter_cons]
    by_cases hp : p a = true
    · rw [if_pos hp, if_pos (h a hp)]
      exact Nat.succ_le_succ ih
    · rw [if_neg hp]
      split
      · exact Nat.le_succ_of_le ih
      · exact ih

theorem filter_length_lt {p q : Str → Bool}
    (h : ∀ x, p x = true → q x = true) {x0 : Str}
    (hq : q x0 = true) (hp : p x0 = false) :
    ∀ l : List Str, x0 ∈ l →
      (l.filter p).length < (l.filter q).length := by
  intro l
  induction l with
  | nil => intro h0; cases h0
  | cons a t ih =>
    intro hmem
    rw [List.filter_cons, List.filter_cons]
    rcases List.mem_cons.mp hmem with rfl | hx
    · rw [if_neg (by simp [hp]), if_pos hq]
      exact Nat.lt_succ_of_le (filter_length_mono h t)
    · by_cases hpa : p a = true
      · rw [if_pos hpa, if_pos (h a hpa)]
        exact Nat.succ_lt_succ (ih hx)
      · rw [if_neg hpa]
        split
        · exact Nat.lt_succ_of_lt (ih hx)
        · exact ih hx

theorem cardDiff_mono {A B B' : List Str} (h : ∀ x ∈ B, x ∈ B') :
    cardDiff A B' ≤ cardDiff A B := by
  unfold cardDiff
  apply filter_length_mono
  intro x hx
  simp only [decide_eq_true_eq] at hx ⊢
  intro hb
  exact hx (h x hb)

theorem cardDiff_lt {A B B' : List Str} {x0 : Str} (hmem : x0 ∈ A)
    (hB : x0 ∉ B) (hB' : x0 ∈ B') (h : ∀ x ∈ B, x ∈ B') :
    cardDiff A B' < cardDiff A B := by
  unfold cardDiff
  refine filter_length_lt ?_ (by simpa using hB) (by simp [hB'])
    (setOfList A) (mem_setOfList_of_mem hmem)
  intro x hx
  simp only [decide_eq_true_eq] at hx ⊢
  intro hb
  exact hx (h x hb)

theorem enqStep_phiQ {V : List Str} {st : CState} {l : Str}
    (hV : normList l ∈ V) : phiQ V (enqStep st l) ≤ phiQ V st := by
  unfold enqStep
  split
  · exact Nat.le_refl _
  · rename_i hn
    show (st.queue ++ [normList l]).length +
        2 * cardDiff V (st.visited ++ [normList l]) ≤ phiQ V st
    rw [List.length_append, List.length_singleton]
    have hlt : cardDiff V (st.visited ++ [normList l]) <
        cardDiff V st.visited :=
      cardDiff_lt hV hn
        (List.mem_append_right _ (List.mem_singleton_self _))
        (fun x hx => List.mem_append_left _ hx)
    unfold phiQ
    omega

theorem dirStep_phiQ {V : List Str} {st : CState} {d : Str}
    (hV : normList d ∈ V) : phiQ V (dirStep st d) ≤ phiQ V st := by
  unfold dirStep
  split
  · exact Nat.le_refl _
  · rename_i hn
    show (st.queue ++ [d]).length +
        2 * cardDiff V (st.visited ++ [normList d]) ≤ phiQ V st
    rw [List.length_append, List.length_singleton]
    have hlt : cardDiff V (st.visited ++ [normList d]) <
        cardDiff V st.visited :=
      cardDiff_lt hV hn
        (List.mem_append_right _ (List.mem_singleton_self _))
        (fun x hx => List.mem_append_left _ hx)
    unfold phiQ
    omega

theorem enqLinks_phiQ {V : List Str} :
    ∀ (links : List Str), (∀ l ∈ links, normList l ∈ V) →
      ∀ s : CState, phiQ V (enqLinks s links) ≤ phiQ V s := by
  intro links
  induction links with
  | nil => intro _ s; exact Nat.le_refl _
  | cons l ls ih =>
    intro hV s
    refine Nat.le_trans ?_ (enqStep_phiQ (hV l (List.mem_cons_self _ _)))
    exact ih (fun x hx => hV x (List.mem_cons_of_mem _ hx)) (enqStep s l)

theorem dirFold_phiQ {V : List Str} :
    ∀ (nds : List Str), (∀ d ∈ nds, normList d ∈ V) →
      ∀ s : CState, phiQ V (nds.foldl dirStep s) ≤ phiQ V s := by
  intro nds
  induction nds with
  | nil => intro _ s; exact Nat.le_refl _
  | cons d ds ih =>
    intro hV s
    refine Nat.le_trans ?_ (dirStep_phiQ (hV d (List.mem_cons_self _ _)))
    exact ih (fun x hx => hV x (List.mem_cons_of_mem _ hx)) (dirStep s d)

theorem techPhase_phiQ (V : List Str) (s : CState) (r : FetchRes) :
    phiQ V (techPhase s r) = phiQ V s := by
  have hc := techPhase_core s r
  unfold phiQ
  rw [hc.2.1, hc.2.2.1]

theorem recordPhase_phiQ (V : List Str) (s : CState) (c : Str)
    (d : PageData) : phiQ V (recordPhase s c d) = phiQ V s := by
  have hc := recordPhase_core s c d
  unfold phiQ
  rw [hc.2.1, hc.2.2.1]

theorem processUrl_phiQ (env : CEnv) (kw : Bool) (u : Str) {V : List Str}
    (hL : ∀ p ∈ env.parseTbl,
      ∀ l ∈ (p.2.1).filterMap (emitLink (normList p.1)), normList l ∈ V)
    (s : CState) : phiQ V (processUrl env kw s u) ≤ phiQ V s := by
  by_cases hf : u ∈ env.fetchExn
  · rw [processUrl_eq_fetchExn env kw s u hf]
  · by_cases hg : dmem (normList u) s.gathered = true
    · rw [processUrl_eq_skip env kw s u hf hg, techPhase_phiQ]
    · have hg2 : dmem (normList u) s.gathered = false := by simpa using hg
      by_cases hw :
          wantsParser ((dlookup u env.fetchTbl).getD errorRes) = true
      · by_cases hp : u ∈ env.parseExn
        · rw [processUrl_eq_parseExn env kw s u hf hg2 hw hp,
            techPhase_phiQ]
        · rw [processUrl_eq_parse env kw s u hf hg2 hw hp,
            recordPhase_phiQ]
          have hlinks : ∀ l ∈ (((dlookup u env.parseTbl).getD
              ([], [])).1).filterMap (emitLink (normList u)),
              normList l ∈ V := by
            cases hT : dlookup u env.parseTbl with
            | none => intro l hl; simp [hT] at hl
            | some pr =>
              intro l hl
              exact hL (u, pr) (dlookup_mem u env.parseTbl pr hT) l
                (by simpa [hT] using hl)
          refine Nat.le_trans (enqLinks_phiQ _ hlinks _) ?_
          rw [techPhase_phiQ]
      · have hw2 :
            wantsParser ((dlookup u env.fetchTbl).getD errorRes) =
              false := by simpa using hw
        rw [processUrl_eq_noparse env kw s u hf hg2 hw2,
          recordPhase_phiQ, techPhase_phiQ]

theorem processUrl_frame (env : CEnv) (kw : Bool) (s : CState) (u : Str) :
    (processUrl env kw s u).start = s.start ∧
    (processUrl env kw s u).checked = s.checked ∧
    (processUrl env kw s u).trace = s.trace ∧
    (processUrl env kw s u).passes = s.passes := by
  by_cases hf : u ∈ env.fetchExn
  · rw [processUrl_eq_fetchExn env kw s u hf]
    exact ⟨rfl, rfl, rfl, rfl⟩
  · have hc := techPhase_core s ((dlookup u env.fetchTbl).getD errorRes)
    by_cases hg : dmem (normList u) s.gathered = true
    · rw [processUrl_eq_skip env kw s u hf hg]
      exact ⟨hc.1, hc.2.2.2.2.2.1, hc.2.2.2.2.2.2.1, hc.2.2.2.2.2.2.2⟩
    · have hg2 : dmem (normList u) s.gathered = false := by simpa using hg
      by_cases hw :
          wantsParser ((dlookup u env.fetchTbl).getD errorRes) = true
      · by_cases hp : u ∈ env.parseExn
        · rw [processUrl_eq_parseExn env kw s u hf hg2 hw hp]
          exact ⟨hc.1, hc.2.2.2.2.2.1, hc.2.2.2.2.2.2.1,
            hc.2.2.2.2.2.2.2⟩
        · rw [processUrl_eq_parse env kw s u hf hg2 hw hp]
          have he := enqLinks_core
            ((((dlookup u env.parseTbl).getD ([], [])).1).filterMap
              (emitLink (normList u)))
            (techPhase s ((dlookup u env.fetchTbl).getD errorRes))
          exact ⟨he.1.trans hc.1, he.2.2.2.1.trans hc.2.2.2.2.2.1,
            he.2.2.2.2.1.trans hc.2.2.2.2.2.2.1,
            he.2.2.2.2.2.2.trans hc.2.2.2.2.2.2.2⟩
      · have hw2 :
            wantsParser ((dlookup u env.fetchTbl).getD errorRes) =
              false := by simpa using hw
        rw [processUrl_eq_noparse env kw s u hf hg2 hw2]
        exact ⟨hc.1, hc.2.2.2.2.2.1, hc.2.2.2.2.2.2.1, hc.2.2.2.2.2.2.2⟩

theorem enqStep_queue_mem {st : CState} {l x : Str}
    (h : x ∈ (enqStep st l).queue) : x ∈ st.queue ∨ x = normList l := by
  unfold enqStep at h
  split at h
  · exact Or.inl h
  · rcases List.mem_append.mp h with h1 | h1
    · exact Or.inl h1
    · exact Or.inr (List.mem_singleton.mp h1)

theorem enqLinks_queue_mem :
    ∀ (links : List Str) (s : CState) (x : Str),
      x ∈ (enqLinks s links).queue →
      x ∈ s.queue ∨ ∃ l ∈ links, x = normList l := by
  intro links
  induction links with
  | nil => intro s x h; exact Or.inl h
  | cons l ls ih =>
    intro s x h
    rcases ih (enqStep s l) x h with h1 | ⟨l2, hl2, he⟩
    · rcases enqStep_queue_mem h1 with h2 | h2
      · exact Or.inl h2
      · exact Or.inr ⟨l, List.mem_cons_self _ _, h2⟩
    · exact Or.inr ⟨l2, List.mem_cons_of_mem _ hl2, he⟩

theorem processUrl_queue_mem (env : CEnv) (kw : Bool) (s : CState)
    (u x : Str) (h : x ∈ (processUrl env kw s u).queue) :
    x ∈ s.queue ∨ ∃ p ∈ env.parseTbl,
      ∃ l ∈ (p.2.1).filterMap (emitLink (normList p.1)),
        x = normList l := by
  by_cases hf : u ∈ env.fetchExn
  · rw [processUrl_eq_fetchExn env kw s u hf] at h
    exact Or.inl h
  · have hc := techPhase_core s ((dlookup u env.fetchTbl).getD errorRes)
    by_cases hg : dmem (normList u) s.gathered = true
    · rw [processUrl_eq_skip env kw s u hf hg, hc.2.1] at h
      exact Or.inl h
    · have hg2 : dmem (normList u) s.gathered = false := by simpa using hg
      by_cases hw :
          wantsParser ((dlookup u env.fetchTbl).getD errorRes) = true
      · by_cases hp : u ∈ env.parseExn
        · rw [processUrl_eq_parseExn env kw s u hf hg2 hw hp, hc.2.1] at h
          exact Or.inl h
        · rw [processUrl_eq_parse env kw s u hf hg2 hw hp,
            (recordPhase_core _ _ _).2.1] at h
          rcases enqLinks_queue_mem _ _ _ h with h1 | ⟨l, hl, he⟩
          · rw [hc.2.1] at h1
            exact Or.inl h1
          · cases hT : dlookup u env.parseTbl with
            | none =>
              rw [hT] at hl
              simp at hl
            | some pr =>
              refine Or.inr ⟨(u, pr), dlookup_mem u env.parseTbl pr hT,
                l, ?_, he⟩
              simpa [hT] using hl
      · have hw2 :
            wantsParser ((dlookup u env.fetchTbl).getD errorRes) =
              false := by simpa using hw
        rw [processUrl_eq_noparse env kw s u hf hg2 hw2,
          (recordPhase_core _ _ _).2.1, hc.2.1] at h
        exact Or.inl h

theorem dirStep_queue_mem {st : CState} {d x : Str}
    (h : x ∈ (dirStep st d).queue) : x ∈ st.queue ∨ x = d := by
  unfold dirStep at h
  split at h
  · exact Or.inl h
  · rcases List.mem_append.mp h with h1 | h1
    · exact Or.inl h1
    · exact Or.inr (List.mem_singleton.mp h1)

theorem dirFold_queue_mem :
    ∀ (nds : List Str) (s : CState) (x : Str),
      x ∈ (nds.foldl dirStep s).queue → x ∈ s.queue ∨ x ∈ nds := by
  intro nds
  induction nds with
  | nil => intro s x h; exact Or.inl h
  | cons d ds ih =>
    intro s x h
    rcases ih (dirStep s d) x h with h1 | h1
    · rcases dirStep_queue_mem h1 with h2 | h2
      · exact Or.inl h2
      · exact Or.inr (h2 ▸ List.mem_cons_self _ _)
    · exact Or.inr (List.mem_cons_of_mem _ h1)

theorem allDirs_mem {s : CState} {x : Str} (h : x ∈ allDirs s) :
    ∃ q ∈ dirPaths s.sitemap.children, x = chainFrom s.start q := by
  unfold allDirs at h
  have h2 := mem_setOfList h
  rw [dirUrlsC_eq] at h2
  obtain ⟨q, hq, he⟩ := List.mem_map.mp h2
  exact ⟨q, hq, he.symm⟩

theorem processUrl_DiscInv (env : CEnv) (kw : Bool) (u : Str)
    {start : Str} {W : List Str} {P : List (List Str)}
    (hW : ∀ p ∈ env.parseTbl,
      ∀ l ∈ (p.2.1).filterMap (emitLink (normList p.1)), normList l ∈ W)
    (hPaths : ∀ v ∈ W, ∀ q ∈ prefixesOf
      ((path_segments_of (normList v)).filter (fun x => x ≠ [])), q ∈ P)
    {s : CState} (hInv : DiscInv start W P s) (hu : u ∈ W) :
    DiscInv start W P (processUrl env kw s u) := by
  refine ⟨(processUrl_frame env kw s u).1.trans hInv.1, ?_, ?_⟩
  · intro x hx
    rcases processUrl_queue_mem env kw s u x hx with h1 | ⟨p, hp, l, hl, he⟩
    · exact hInv.2.1 x h1
    · rw [he]
      exact hW p hp l hl
  · intro q hq
    rcases processUrl_cases env kw s u with ⟨_, hsm⟩ | ⟨_, d, _, hsm⟩
    · rw [hsm] at hq
      exact hInv.2.2 q hq
    · rw [hsm] at hq
      rcases List.mem_append.mp
          (add_dirPaths s.sitemap (normList u) d hq) with h2 | h2
      · exact hInv.2.2 q h2
      · exact hPaths u hu q h2

theorem reseed_DiscInv {start : Str} {W : List Str} {P : List (List Str)}
    {DU : List Str} (h_chain : ∀ q ∈ P, chainFrom start q ∈ DU)
    (h_dirsW : ∀ d ∈ DU, d ∈ W) {s : CState} (nds : List Str)
    (hInv : DiscInv start W P s) (hnd : ∀ d ∈ nds, d ∈ allDirs s) :
    DiscInv start W P (reseed s nds) := by
  have hcore := dirFold_core nds s
  refine ⟨hcore.1.trans hInv.1, ?_, ?_⟩
  · intro x hx
    rcases dirFold_queue_mem nds s x hx with h1 | h1
    · exact hInv.2.1 x h1
    · obtain ⟨q, hq, he⟩ := allDirs_mem (hnd x h1)
      rw [he, hInv.1]
      exact h_dirsW _ (h_chain q (hInv.2.2 q hq))
  · intro q hq
    rw [show (reseed s nds).sitemap = s.sitemap from hcore.2.2.1] at hq
    exact hInv.2.2 q hq

theorem crawlRun_done_of_fuel (env : CEnv) (kw : Bool) (start : Str)
    (W V : List Str) (P : List (List Str)) (DU : List Str)
    (h_links : ∀ p ∈ env.parseTbl,
      ∀ l ∈ (p.2.1).filterMap (emitLink (normList p.1)),
        normList l ∈ W ∧ normList l ∈ V)
    (h_paths : ∀ v ∈ W, ∀ q ∈ prefixesOf
      ((path_segments_of (normList v)).filter (fun x => x ≠ [])), q ∈ P)
    (h_chain : ∀ q ∈ P, chainFrom start q ∈ DU)
    (h_dirs : ∀ d ∈ DU, normList d ∈ V ∧ d ∈ W) :
    ∀ (n : Nat) (s : CState), DiscInv start W P s →
      phiAll V DU s < n → IsDone (crawlRun env kw n s) := by
  intro n
  induction n with
  | zero => intro s _ h; exact absurd h (Nat.not_lt_zero _)
  | succ m ih =>
    intro s hInv hphi
    rcases hq : s.queue with _ | ⟨u, rest⟩
    · by_cases hnd : (allDirs s).filter (fun d => d ∉ s.checked) = []
      · rw [crawlRun_nil_done env kw m s hq hnd]
        exact ⟨hq, hnd⟩
      · rw [crawlRun_nil_reseed env kw m s hq hnd]
        obtain ⟨d0, hd0⟩ : ∃ d0, d0 ∈
            (allDirs s).filter (fun d => d ∉ s.checked) := by
          cases hx : (allDirs s).filter (fun d => d ∉ s.checked) with
          | nil => exact absurd hx hnd
          | cons a t => exact ⟨a, hx ▸ List.mem_cons_self a t⟩
        have hd0A : d0 ∈ allDirs s := List.mem_of_mem_filter hd0
        have hd0C : d0 ∉ s.checked := by
          have h2 := List.of_mem_filter hd0
          simpa using h2
        have hDUof : ∀ d ∈ allDirs s, d ∈ DU := by
          intro d hd
          obtain ⟨q, hqm, he⟩ := allDirs_mem hd
          rw [he, hInv.1]
          exact h_chain q (hInv.2.2 q hqm)
        have hIn2 := reseed_DiscInv h_chain (fun d hd => (h_dirs d hd).2)
          ((allDirs s).filter (fun d => d ∉ s.checked)) hInv
          (fun d hd => List.mem_of_mem_filter hd)
        have hlt : phiAll V DU
            (reseed s ((allDirs s).filter (fun d => d ∉ s.checked))) <
            phiAll V DU s := by
          unfold phiAll
          have hck : (reseed s
              ((allDirs s).filter (fun d => d ∉ s.checked))).checked =
              s.checked ++ (allDirs s).filter (fun d => d ∉ s.checked) := by
            show (((allDirs s).filter
              (fun d => d ∉ s.checked)).foldl dirStep s).checked ++ _ = _
            rw [(dirFold_core _ s).2.2.2.1]
          have h1 : cardDiff DU
              (reseed s
                ((allDirs s).filter (fun d => d ∉ s.checked))).checked <
              cardDiff DU s.checked := by
            rw [hck]
            exact cardDiff_lt (hDUof d0 hd0A) hd0C
              (List.mem_append_right _ hd0)
              (fun x hx => List.mem_append_left _ hx)
          have h2 : phiQ V
              (reseed s ((allDirs s).filter (fun d => d ∉ s.checked))) ≤
              phiQ V s := by
            have he : phiQ V
                (reseed s ((allDirs s).filter (fun d => d ∉ s.checked))) =
                phiQ V (((allDirs s).filter
                  (fun d => d ∉ s.checked)).foldl dirStep s) := rfl
            rw [he]
            refine dirFold_phiQ _ ?_ s
            intro d hd
            exact (h_dirs d (hDUof d (List.mem_of_mem_filter hd))).1
          omega
        exact ih _ hIn2 (Nat.lt_of_lt_of_le hlt (Nat.lt_succ_iff.mp hphi))
    · rw [crawlRun_cons env kw m s u rest hq]
      have hInv1 : DiscInv start W P
          { s with queue := rest, trace := s.trace ++ [u] } := by
        refine ⟨hInv.1, ?_, hInv.2.2⟩
        intro x hx
        refine hInv.2.1 x ?_
        rw [hq]
        exact List.mem_cons_of_mem _ hx
      have hu : u ∈ W := by
        refine hInv.2.1 u ?_
        rw [hq]
        exact List.mem_cons_self _ _
      have hInv2 := processUrl_DiscInv env kw u
        (fun p hp l hl => (h_links p hp l hl).1) h_paths hInv1 hu
      have hm1 : phiAll V DU (processUrl env kw
          { s with queue := rest, trace := s.trace ++ [u] } u) <
          phiAll V DU s := by
        unfold phiAll
        have hck := (processUrl_frame env kw
          { s with queue := rest, trace := s.trace ++ [u] } u).2.1
        have hq1 : phiQ V (processUrl env kw
            { s with queue := rest, trace := s.trace ++ [u] } u) ≤
            phiQ V { s with queue := rest, trace := s.trace ++ [u] } :=
          processUrl_phiQ env kw u
            (fun p hp l hl => (h_links p hp l hl).2) _
        have hq2 :
            phiQ V { s with queue := rest, trace := s.trace ++ [u] } + 1 =
              phiQ V s := by
          unfold phiQ
          show rest.length + 2 * cardDiff V s.visited + 1 =
            s.queue.length + 2 * cardDiff V s.visited
          rw [hq, List.length_cons]
          omega
        have hck2 : cardDiff DU
            ({ s with queue := rest, trace := s.trace ++ [u] } :
              CState).checked = cardDiff DU s.checked := rfl
        rw [hck]
        omega
      exact ih _ hInv2 (Nat.lt_of_lt_of_le hm1 (Nat.lt_succ_iff.mp hphi))

theorem crawlRun_passes_bound (env : CEnv) (kw : Bool) (start : Str)
    (W : List Str) (P : List (List Str)) (DU : List Str)
    (hW : ∀ p ∈ env.parseTbl,
      ∀ l ∈ (p.2.1).filterMap (emitLink (normList p.1)), normList l ∈ W)
    (h_paths : ∀ v ∈ W, ∀ q ∈ prefixesOf
      ((path_segments_of (normList v)).filter (fun x => x ≠ [])), q ∈ P)
    (h_chain : ∀ q ∈ P, chainFrom start q ∈ DU)
    (h_dirsW : ∀ d ∈ DU, d ∈ W) :
    ∀ (n : Nat) (s : CState), DiscInv start W P s →
      (crawlRun env kw n s).passes +
          cardDiff DU (crawlRun env kw n s).checked ≤
        s.passes + cardDiff DU s.checked := by
  intro n
  induction n with
  | zero => intro s _; exact Nat.le_refl _
  | succ m ih =>
    intro s hInv
    rcases hq : s.queue with _ | ⟨u, rest⟩
    · by_cases hnd : (allDirs s).filter (fun d => d ∉ s.checked) = []
      · rw [crawlRun_nil_done env kw m s hq hnd]
      · rw [crawlRun_nil_reseed env kw m s hq hnd]
        obtain ⟨d0, hd0⟩ : ∃ d0, d0 ∈
            (allDirs s).filter (fun d => d ∉ s.checked) := by
          cases hx : (allDirs s).filter (fun d => d ∉ s.checked) with
          | nil => exact absurd hx hnd
          | cons a t => exact ⟨a, hx ▸ List.mem_cons_self a t⟩
        have hd0C : d0 ∉ s.checked := by
          have h2 := List.of_mem_filter hd0
          simpa using h2
        have hd0DU : d0 ∈ DU := by
          obtain ⟨q, hqm, he⟩ := allDirs_mem (List.mem_of_mem_filter hd0)
          rw [he, hInv.1]
          exact h_chain q (hInv.2.2 q hqm)
        have hIn2 := reseed_DiscInv h_chain h_dirsW
          ((allDirs s).filter (fun d => d ∉ s.checked)) hInv
          (fun d hd => List.mem_of_mem_filter hd)
        have hR := ih _ hIn2
        have hpass : (reseed s
            ((allDirs s).filter (fun d => d ∉ s.checked))).passes =
            s.passes + 1 := by
          show (((allDirs s).filter
            (fun d => d ∉ s.checked)).foldl dirStep s).passes + 1 = _
          rw [(dirFold_core _ s).2.2.2.2.2.2]
        have hck : (reseed s
            ((allDirs s).filter (fun d => d ∉ s.checked))).checked =
            s.checked ++ (allDirs s).filter (fun d => d ∉ s.checked) := by
          show (((allDirs s).filter
            (fun d => d ∉ s.checked)).foldl dirStep s).checked ++ _ = _
          rw [(dirFold_core _ s).2.2.2.1]
        have h1 : cardDiff DU (reseed s
            ((allDirs s).filter (fun d => d ∉ s.checked))).checked <
            cardDiff DU s.checked := by
          rw [hck]
          exact cardDiff_lt hd0DU hd0C (List.mem_append_right _ hd0)
            (fun x hx => List.mem_append_left _ hx)
        rw [hpass] at hR
        omega
    · rw [crawlRun_cons env kw m s u rest hq]
      have hInv1 : DiscInv start W P
          { s with queue := rest, trace := s.trace ++ [u] } := by
        refine ⟨hInv.1, ?_, hInv.2.2⟩
        intro x hx
        refine hInv.2.1 x ?_
        rw [hq]
        exact List.mem_cons_of_mem _ hx
      have hu : u ∈ W := by
        refine hInv.2.1 u ?_
        rw [hq]
        exact List.mem_cons_self _ _
      have hInv2 := processUrl_DiscInv env kw u hW h_paths hInv1 hu
      have hR := ih _ hInv2
      have hfr := processUrl_frame env kw
        { s with queue := rest, trace := s.trace ++ [u] } u
      rw [hfr.2.1, hfr.2.2.2] at hR
      exact hR

/-- C4 (amended): the original claim fails twice — the pass count is not
bounded by the maximum directory depth, and on finite acyclic sites
whose seed has a multi-segment path the discovery loop need not
terminate at all (both parts in c4_counterexample:
_get_all_directory_urls joins the sitemap keys against the full start
URL, so such a seed mints a new deeper directory URL every pass). What
holds: for any crawl whose discoverable links come from a finite
universe (W for raw queue entries, V for their canonical forms, P for
sitemap key paths, DU for directory URLs, closed in the stated ways),
the loop reaches DONE within a finite fuel, and the number of discovery
passes is bounded by the number of distinct directory URLs. -/
theorem c4_discovery_termination (env : CEnv) (kw : Bool) (start : Str)
    (W V : List Str) (P : List (List Str)) (DU : List Str)
    (h_start : start ∈ W)
    (h_links : ∀ p ∈ env.parseTbl,
      ∀ l ∈ (p.2.1).filterMap (emitLink (normList p.1)),
        normList l ∈ W ∧ normList l ∈ V)
    (h_paths : ∀ v ∈ W, ∀ q ∈ prefixesOf
      ((path_segments_of (normList v)).filter (fun x => x ≠ [])), q ∈ P)
    (h_chain : ∀ q ∈ P, chainFrom start q ∈ DU)
    (h_dirs : ∀ d ∈ DU, normList d ∈ V ∧ d ∈ W) :
    (∃ n : Nat, IsDone (crawlRun env kw n (initState start))) ∧
    ∀ n : Nat, (crawlRun env kw n (initState start)).passes ≤
      (setOfList DU).length := by
  have hInv0 : DiscInv start W P (initState start) := by
    refine ⟨rfl, ?_, ?_⟩
    · intro x hx
      rw [List.mem_singleton.mp hx]
      exact h_start
    · intro q hq
      exact absurd hq (List.not_mem_nil q)
  constructor
  · exact ⟨phiAll V DU (initState start) + 1,
      crawlRun_done_of_fuel env kw start W V P DU h_links h_paths h_chain
        h_dirs (phiAll V DU (initState start) + 1) (initState start) hInv0
        (Nat.lt_succ_self _)⟩
  · intro n
    have h := crawlRun_passes_bound env kw start W P DU
      (fun p hp l hl => (h_links p hp l hl).1) h_paths h_chain
      (fun d hd => (h_dirs d hd).2) n (initState start) hInv0
    have h0 : cardDiff DU (initState start).checked =
        (setOfList DU).length := by
      unfold cardDiff
      show ((setOfList DU).filter (fun x => x ∉ ([] : List Str))).length = _
      rw [List.filter_eq_self.mpr]
      intro a _
      simp
    have h1 : (initState start).passes = 0 := rfl
    rw [h0, h1] at h
    omega

/-- Closed instance of the C4 theorem on the counterexample environment:
the crawl terminates and never exceeds six discovery passes. -/
theorem c4_witness :
    (∃ n : Nat,
      IsDone (crawlRun c4Env false n (initState "http://x.test/".data))) ∧
    ∀ n : Nat,
      (crawlRun c4Env false n (initState "http://x.test/".data)).passes ≤
        (setOfList c4DU).length :=
  c4_discovery_termination c4Env false "http://x.test/".data c4W c4W c4P
    c4DU (by decide) (by decide) (by decide) (by decide) (by decide)

theorem charIn_eq_true {c : Char} {l : Str} : charIn c l = true ↔ c ∈ l := by
  simp [charIn]

theorem scheme_chars_clean : ∀ c ∈ scheme_chars, cleanChar c = true := by
  decide

theorem scheme_chars_noColon : ':' ∉ scheme_chars := by decide

theorem scheme_chars_toLower_mem :
    ∀ c ∈ scheme_chars, Char.toLower c ∈ scheme_chars := by decide

theorem scheme_chars_toLower_alpha :
    ∀ c ∈ scheme_chars, isAsciiAlpha c = true →
      isAsciiAlpha (Char.toLower c) = true := by decide

theorem scheme_chars_toLower_idem :
    ∀ c ∈ scheme_chars, Char.toLower (Char.toLower c) = Char.toLower c := by
  decide

theorem schemeOk_mem {s : Str} (h : SchemeOk s) :
    ∀ c ∈ s, c ∈ scheme_chars := by
  intro c hc
  exact charIn_eq_true.mp ((List.all_eq_true.mp h.2.2.1) c hc)

theorem schemeOk_noColon {s : Str} (h : SchemeOk s) : ':' ∉ s :=
  fun hm => scheme_chars_noColon (schemeOk_mem h ':' hm)

theorem schemeOk_clean {s : Str} (h : SchemeOk s) :
    ∀ c ∈ s, cleanChar c = true :=
  fun c hc => scheme_chars_clean c (schemeOk_mem h c hc)

theorem extractScheme_of_ok (s X : Str) (h : SchemeOk s) :
    extractScheme (s ++ ':' :: X) = (some s, X) := by
  have h1 := extractScheme_pre s X (schemeOk_noColon h) h.1 h.2.1 h.2.2.1
  rw [h1, h.2.2.2]

theorem extractScheme_headSlash {u : Str} (hu : u.head? = some '/') :
    extractScheme u = (none, u) := by
  cases u with
  | nil => cases hu
  | cons a t =>
    have ha : a = '/' := by simpa using hu
    subst ha
    have hbefore : (('/' :: t).takeWhile (neChar ':')) =
        '/' :: (t.takeWhile (neChar ':')) := by
      rw [List.takeWhile_cons, if_pos (by decide)]
    have hall : (('/' :: t).takeWhile (neChar ':')).all
        (fun c => charIn c scheme_chars) = false := by
      rw [hbefore, List.all_cons,
        (by decide : charIn '/' scheme_chars = false)]
      rfl
    simp only [extractScheme]
    rw [if_neg]
    simp [hall]

theorem extractScheme_some_ok {u s r : Str}
    (h : extractScheme u = (some s, r)) : SchemeOk s := by
  cases u with
  | nil =>
    exact absurd h (by simp [extractScheme])
  | cons a t =>
    simp only [extractScheme] at h
    split at h
    · rename_i hcond
      simp only [Bool.and_eq_true, decide_eq_true_eq] at hcond
      obtain ⟨⟨⟨hlt, hpos⟩, halpha⟩, hall⟩ := hcond
      have hs : strLower ((a :: t).takeWhile (neChar ':')) = s := by
        have h2 := congrArg Prod.fst h
        simpa using h2
      have hbne : (a :: t).takeWhile (neChar ':') ≠ [] := by
        intro hc
        rw [hc] at hpos
        simp at hpos
      have hmem : ∀ c ∈ (a :: t).takeWhile (neChar ':'),
          c ∈ scheme_chars := by
        intro c hc
        exact charIn_eq_true.mp ((List.all_eq_true.mp hall) c hc)
      cases hbe : (a :: t).takeWhile (neChar ':') with
      | nil => exact absurd hbe hbne
      | cons b bs =>
        have hba : b = a := by
          rw [List.takeWhile_cons] at hbe
          split at hbe
          · exact (List.cons.injEq _ _ _ _ ▸ hbe).1.symm
          · cases hbe
        have hbM : b ∈ scheme_chars :=
          hmem b (hbe ▸ List.mem_cons_self b bs)
        have hbA : isAsciiAlpha b = true := by
          rw [hba]
          exact halpha
        rw [← hs, hbe]
        refine ⟨by simp [strLower], ?_, ?_, ?_⟩
        · show isAsciiAlpha (Char.toLower b) = true
          exact scheme_chars_toLower_alpha b hbM hbA
        · rw [List.all_eq_true]
          intro c hc
          obtain ⟨c0, hc0, he⟩ := List.mem_map.mp hc
          rw [← he]
          exact charIn_eq_true.mpr (scheme_chars_toLower_mem c0
            (hmem c0 (hbe ▸ hc0)))
        · show strLower (strLower (b :: bs)) = strLower (b :: bs)
          unfold strLower
          rw [List.map_map]
          apply List.map_congr_left
          intro c hc
          exact scheme_chars_toLower_idem c (hmem c (hbe ▸ hc))
    · exact absurd h (by simp)

theorem urlsplit_scheme_cases (u ds : Str) :
    (ds = [] → (urlsplit u ds).scheme = []) ∨
      SchemeOk (urlsplit u ds).scheme := by
  rw [urlsplit_scheme]
  unfold schemePhase
  cases hx : extractScheme (removeUnsafeBytes u) with
  | mk o rest =>
    cases o with
    | none => exact Or.inl (fun h => by simp [h])
    | some sch =>
      refine Or.inr ?_
      have := extractScheme_some_ok hx
      simpa using this

theorem urlsplit_query_rfl (url ds : Str) :
    (urlsplit url ds).query =
      (splitAtFirst '?'
        ((splitAtFirst '#' (netlocPhase (schemePhase url).2).2).1)).2 := rfl

theorem urlsplit_query_clean (url ds : Str) :
    ∀ x ∈ (urlsplit url ds).query, cleanChar x = true := by
  rw [urlsplit_query_rfl]
  intro x hx
  have h1 := mem_splitAtFirst_snd hx
  have h2 := (mem_splitAtFirst_fst h1).1
  have h3 : x ∈ (schemePhase url).2 := netlocPhase_mem_snd h2
  have h4 : x ∈ removeUnsafeBytes url := extractScheme_mem_snd h3
  exact (List.mem_filter.mp h4).2

theorem splitNetloc_append_stop (n C : Str)
    (hn : ∀ x ∈ n, netlocStop x = false)
    (hC : C = [] ∨ ∃ c0, C.head? = some c0 ∧ netlocStop c0 = true) :
    splitNetloc (n ++ C) = (n, C) := by
  have hall : ∀ x ∈ n, (fun c => !netlocStop c) x = true := by
    intro x hx
    simp [hn x hx]
  rcases hC with h | ⟨c0, hc0, hstop0⟩
  · subst h
    have h2 := @takeWhile_all_eq (fun c => !netlocStop c) _ hall
    simp [splitNetloc, h2.1, h2.2]
  · cases C with
    | nil => cases hc0
    | cons a t =>
      have ha : a = c0 := by simpa using hc0
      subst ha
      have hstop : (fun c => !netlocStop c) a = false := by
        simp [hstop0]
      have htw := @takeWhile_append_stop (fun c => !netlocStop c) _ _ t
        hall hstop
      simp [splitNetloc, htw.1, htw.2]

theorem urlunsplit_shape_gen (s n C q : Str) (hn : n ≠ [])
    (hC : C = [] ∨ C.head? = some '/') :
    urlunsplit ⟨s, n, C, q, []⟩ =
      (if s = [] then [] else s ++ [':']) ++
        '/' :: '/' :: ((n ++ C) ++
          (if q = [] then [] else '?' :: q)) := by
  have hinner : ¬(C ≠ [] ∧ C.take 1 ≠ ['/']) := by
    rcases hC with h | h
    · intro hcon; exact hcon.1 h
    · intro hcon
      apply hcon.2
      cases C with
      | nil => cases h
      | cons a t =>
        have ha : a = '/' := by simpa using h
        rw [ha]
        rfl
  simp only [urlunsplit]
  rw [if_pos (Or.inl hn), if_neg hinner]
  by_cases hs : s = [] <;> by_cases hq : q = [] <;>
    simp [hs, hq, List.append_assoc]

theorem parse_unsplit_netloc (s n C q : Str)
    (hs : s = [] ∨ SchemeOk s) (hn : n ≠ [])
    (hnok : ∀ x ∈ n, netlocStop x = false)
    (hnclean : ∀ x ∈ n, cleanChar x = true)
    (hChead : C = [] ∨ C.head? = some '/')
    (hCclean : ∀ x ∈ C, cleanChar x = true)
    (hqclean : ∀ x ∈ q, cleanChar x = true) :
    (urlsplit (urlunsplit ⟨s, n, C, q, []⟩) []).netloc = n := by
  rw [urlunsplit_shape_gen s n C q hn hChead]
  have hqpclean : ∀ x ∈ (if q = [] then ([] : Str) else '?' :: q),
      cleanChar x = true := by
    split
    · intro x hx; cases hx
    · intro x hx
      rcases List.mem_cons.mp hx with rfl | hx2
      · decide
      · exact hqclean x hx2
  have htail_clean : ∀ x ∈ '/' :: '/' :: ((n ++ C) ++
      (if q = [] then ([] : Str) else '?' :: q)), cleanChar x = true := by
    intro x hx
    rcases List.mem_cons.mp hx with rfl | hx
    · decide
    rcases List.mem_cons.mp hx with rfl | hx
    · decide
    rcases List.mem_append.mp hx with hx | hx
    · rcases List.mem_append.mp hx with hx | hx
      · exact hnclean x hx
      · exact hCclean x hx
    · exact hqpclean x hx
  have hsplitn : splitNetloc ((n ++ C) ++
      (if q = [] then ([] : Str) else '?' :: q)) =
      (n, C ++ (if q = [] then ([] : Str) else '?' :: q)) := by
    rw [List.append_assoc]
    apply splitNetloc_append_stop n _ hnok
    rcases hChead with hC | hC
    · subst hC
      show (if q = [] then ([] : Str) else '?' :: q) = [] ∨ _
      split
      · exact Or.inl rfl
      · exact Or.inr ⟨'?', rfl, by decide⟩
    · cases C with
      | nil => cases hC
      | cons a t =>
        have ha : a = '/' := by simpa using hC
        subst ha
        exact Or.inr ⟨'/', rfl, by decide⟩
  rcases hs with hsE | hsOk
  · subst hsE
    rw [if_pos rfl, List.nil_append, urlsplit_netloc]
    unfold schemePhase
    rw [removeUnsafe_of_all htail_clean, extractScheme_headSlash
      (show List.head? ('/' :: '/' :: ((n ++ C) ++
        (if q = [] then ([] : Str) else '?' :: q))) = some '/' from rfl)]
    show (netlocPhase ('/' :: '/' :: ((n ++ C) ++ _))).1 = n
    unfold netlocPhase
    rw [if_pos (show List.take 2 ('/' :: '/' :: ((n ++ C) ++ _)) =
      ['/', '/'] from rfl)]
    show (splitNetloc ((n ++ C) ++ _)).1 = n
    rw [hsplitn]
  · have hsne : s ≠ [] := hsOk.1
    rw [if_neg hsne, urlsplit_netloc]
    unfold schemePhase
    have hclean2 : removeUnsafeBytes ((s ++ [':']) ++
        '/' :: '/' :: ((n ++ C) ++
          (if q = [] then ([] : Str) else '?' :: q))) =
        (s ++ [':']) ++ '/' :: '/' :: ((n ++ C) ++
          (if q = [] then ([] : Str) else '?' :: q)) := by
      apply removeUnsafe_of_all
      intro x hx
      rcases List.mem_append.mp hx with hx | hx
      · rcases List.mem_append.mp hx with hx | hx
        · exact schemeOk_clean hsOk x hx
        · rw [List.mem_singleton.mp hx]; decide
      · exact htail_clean x hx
    rw [hclean2]
    have hassoc : (s ++ [':']) ++ ('/' :: '/' :: ((n ++ C) ++
        (if q = [] then ([] : Str) else '?' :: q))) =
        s ++ ':' :: ('/' :: '/' :: ((n ++ C) ++
          (if q = [] then ([] : Str) else '?' :: q))) := by
      rw [List.append_assoc]
      rfl
    rw [hassoc, extractScheme_of_ok s _ hsOk]
    show (netlocPhase ('/' :: '/' :: ((n ++ C) ++ _))).1 = n
    unfold netlocPhase
    rw [if_pos (show List.take 2 ('/' :: '/' :: ((n ++ C) ++ _)) =
      ['/', '/'] from rfl)]
    show (splitNetloc ((n ++ C) ++ _)).1 = n
    rw [hsplitn]

theorem urlsplit_unsplit_noq (s n C : Str)
    (hs : s = [] ∨ SchemeOk s) (hn : n ≠ [])
    (hnok : ∀ x ∈ n, netlocStop x = false)
    (hnclean : ∀ x ∈ n, cleanChar x = true)
    (hChash : '#' ∉ C) (hCquest : '?' ∉ C)
    (hCclean : ∀ x ∈ C, cleanChar x = true)
    (hChead : C = [] ∨ C.head? = some '/') :
    urlsplit (urlunsplit ⟨s, n, C, [], []⟩) [] = ⟨s, n, C, [], []⟩ := by
  have hout : urlunsplit ⟨s, n, C, [], []⟩ =
      (if s = [] then [] else s ++ [':']) ++ '/' :: '/' :: (n ++ C) := by
    rw [urlunsplit_shape_gen s n C [] hn hChead]
    simp
  rw [hout]
  have htail_clean : ∀ x ∈ '/' :: '/' :: (n ++ C), cleanChar x = true := by
    intro x hx
    rcases List.mem_cons.mp hx with rfl | hx
    · decide
    rcases List.mem_cons.mp hx with rfl | hx
    · decide
    rcases List.mem_append.mp hx with hx | hx
    · exact hnclean x hx
    · exact hCclean x hx
  have hsplitn : splitNetloc (n ++ C) = (n, C) :=
    splitNetloc_append n C hnok hChead
  have hnl2 : netlocPhase ('/' :: '/' :: (n ++ C)) = (n, C) := by
    unfold netlocPhase
    rw [if_pos (show List.take 2 ('/' :: '/' :: (n ++ C)) = ['/', '/']
      from rfl)]
    exact hsplitn
  rcases hs with hsE | hsOk
  · subst hsE
    rw [if_pos rfl, List.nil_append]
    have hsch2 : schemePhase ('/' :: '/' :: (n ++ C)) =
        (none, '/' :: '/' :: (n ++ C)) := by
      unfold schemePhase
      rw [removeUnsafe_of_all htail_clean, extractScheme_headSlash
        (show List.head? ('/' :: '/' :: (n ++ C)) = some '/' from rfl)]
    unfold urlsplit
    rw [hsch2]
    dsimp only
    rw [hnl2]
    dsimp only
    rw [splitAtFirst_not_mem hChash]
    dsimp only
    rw [splitAtFirst_not_mem hCquest]
    rfl
  · have hsne : s ≠ [] := hsOk.1
    rw [if_neg hsne]
    have hsch2 : schemePhase ((s ++ [':']) ++ '/' :: '/' :: (n ++ C)) =
        (some s, '/' :: '/' :: (n ++ C)) := by
      unfold schemePhase
      have hclean2 : removeUnsafeBytes ((s ++ [':']) ++
          '/' :: '/' :: (n ++ C)) =
          (s ++ [':']) ++ '/' :: '/' :: (n ++ C) := by
        apply removeUnsafe_of_all
        intro x hx
        rcases List.mem_append.mp hx with hx | hx
        · rcases List.mem_append.mp hx with hx | hx
          · exact schemeOk_clean hsOk x hx
          · rw [List.mem_singleton.mp hx]; decide
        · exact htail_clean x hx
      rw [hclean2]
      have hassoc : (s ++ [':']) ++ ('/' :: '/' :: (n ++ C)) =
          s ++ ':' :: ('/' :: '/' :: (n ++ C)) := by
        rw [List.append_assoc]
        rfl
      rw [hassoc]
      exact extractScheme_of_ok s _ hsOk
    unfold urlsplit
    rw [hsch2]
    dsimp only
    rw [hnl2]
    dsimp only
    rw [splitAtFirst_not_mem hChash]
    dsimp only
    rw [splitAtFirst_not_mem hCquest]
    rfl

/-- Idempotence of the canonicalizer for every URL whose parsed netloc is
nonempty, with no restriction on the scheme: the scheme urlsplit extracts
is always either empty or a lowercase run of scheme characters, and both
round-trip. -/
theorem normList_roundtrip_netloc (s n P : Str)
    (hsch : s = [] ∨ SchemeOk s) (hn : n ≠ [])
    (hnok : ∀ x ∈ n, netlocStop x = false)
    (hnclean : ∀ x ∈ n, cleanChar x = true)
    (hphash : '#' ∉ P) (hpquest : '?' ∉ P)
    (hpclean : ∀ x ∈ P, cleanChar x = true)
    (hphead : P = [] ∨ P.head? = some '/') :
    normList (urlunsplit ⟨s, n,
        rejoin (paramsPhase s P).1 (paramsPhase s P).2, [], []⟩) =
      urlunsplit ⟨s, n,
        rejoin (paramsPhase s P).1 (paramsPhase s P).2, [], []⟩ := by
  set C := rejoin (paramsPhase s P).1 (paramsPhase s P).2 with hCdef
  have hChead : C = [] ∨ C.head? = some '/' :=
    rejoin_paramsPhase_head s P hphead
  have hCmem : ∀ c ∈ C, c ∈ P ∨ c = ';' := fun c hc =>
    rejoin_paramsPhase_mem hc
  have hChash : '#' ∉ C := by
    intro hm
    rcases hCmem _ hm with h | h
    · exact hphash h
    · exact absurd h (by decide)
  have hCquest : '?' ∉ C := by
    intro hm
    rcases hCmem _ hm with h | h
    · exact hpquest h
    · exact absurd h (by decide)
  have hCclean : ∀ c ∈ C, cleanChar c = true := by
    intro c hc
    rcases hCmem c hc with h | h
    · exact hpclean c h
    · rw [h]; decide
  have hsplit2 := urlsplit_unsplit_noq s n C hsch hn hnok hnclean
    hChash hCquest hCclean hChead
  have hparse2 : urlparse (urlunsplit ⟨s, n, C, [], []⟩) [] =
      ⟨s, n, (paramsPhase s C).1, (paramsPhase s C).2, [], []⟩ := by
    unfold urlparse
    rw [hsplit2]
  have hidem := paramsPhase_idem s P hphead
  rw [← hCdef] at hidem
  unfold normList
  rw [hparse2]
  show urlunsplit ⟨s, n, rejoin (paramsPhase s C).1 (paramsPhase s C).2,
      [], []⟩ = _
  rw [hidem]

/-- crawler._normalize_url is idempotent at every URL with a nonempty
parsed netloc. -/
theorem normList_idem_netloc (u : Str)
    (hn : (urlparse u).netloc ≠ []) :
    normList (normList u) = normList u := by
  have hs2 : (urlsplit u []).scheme = [] ∨
      SchemeOk (urlsplit u []).scheme := by
    rcases urlsplit_scheme_cases u [] with h | h
    · exact Or.inl (h rfl)
    · exact Or.inr h
  exact normList_roundtrip_netloc (urlsplit u []).scheme
    (urlsplit u []).netloc (urlsplit u []).path hs2 hn
    (urlsplit_netloc_ok u []) (urlsplit_netloc_clean u [])
    (urlsplit_path_no_qh u []).1 (urlsplit_path_no_qh u []).2
    (urlsplit_path_clean u []) (@urlsplit_path_head u [] hn)

/-- Normalization preserves a nonempty netloc: the canonical URL parses
back to the same netloc. -/
theorem urlparse_normList_netloc (u : Str)
    (hn : (urlparse u).netloc ≠ []) :
    (urlparse (normList u)).netloc = (urlparse u).netloc := by
  have hs2 : (urlsplit u []).scheme = [] ∨
      SchemeOk (urlsplit u []).scheme := by
    rcases urlsplit_scheme_cases u [] with h | h
    · exact Or.inl (h rfl)
    · exact Or.inr h
  have hChead := rejoin_paramsPhase_head (urlsplit u []).scheme
    (urlsplit u []).path (@urlsplit_path_head u [] hn)
  have hCclean : ∀ x ∈ rejoin
      (paramsPhase (urlsplit u []).scheme (urlsplit u []).path).1
      (paramsPhase (urlsplit u []).scheme (urlsplit u []).path).2,
      cleanChar x = true := by
    intro x hx
    rcases rejoin_paramsPhase_mem hx with h | h
    · exact urlsplit_path_clean u [] x h
    · rw [h]; decide
  exact parse_unsplit_netloc (urlsplit u []).scheme
    (urlsplit u []).netloc
    (rejoin (paramsPhase (urlsplit u []).scheme (urlsplit u []).path).1
      (paramsPhase (urlsplit u []).scheme (urlsplit u []).path).2)
    [] hs2 hn (urlsplit_netloc_ok u []) (urlsplit_netloc_clean u [])
    hChead hCclean (fun x hx => absurd hx (List.not_mem_nil x))

theorem wantsParser_done {r : FetchRes} (hw : wantsParser r = true) :
    r.done = true := by
  by_cases hd : r.done = true
  · exact hd
  · have hf : r.done = false := by simpa using hd
    rw [wantsParser_done_false hf] at hw
    cases hw

theorem fetch_some_of_wants {env : CEnv} {u : Str}
    (hw : wantsParser ((dlookup u env.fetchTbl).getD errorRes) = true) :
    dlookup u env.fetchTbl =
      some ((dlookup u env.fetchTbl).getD errorRes) := by
  cases hx : dlookup u env.fetchTbl with
  | none =>
    rw [hx] at hw
    simp only [Option.getD_none] at hw
    exact absurd hw (by decide)
  | some r =>
    simp only [Option.getD_some]

theorem emitLink_eq_some {base cand e : Str}
    (h : emitLink base cand = some e) :
    (urlparse (urljoin base cand)).netloc = (urlparse base).netloc ∧
    e = urlunparse { urlparse (urljoin base cand) with
      fragment := [] } := by
  unfold emitLink at h
  split at h
  · rename_i hg
    exact ⟨hg, (Option.some.inj h).symm⟩
  · cases h

theorem fetchOk_netloc {env : CEnv} {u : Str} {r : FetchRes}
    (henv : FetchOk env) (hm : (u, r) ∈ env.fetchTbl)
    (hd : r.done = true) : (urlparse u).netloc ≠ [] :=
  henv (u, r) hm hd

set_option maxHeartbeats 1000000 in
/-- Parsing the fragment-free unparse of a parsed URL recovers the
netloc, provided the original netloc was nonempty. -/
theorem urlparse_unparse_nofrag_netloc (A : Str)
    (hn : (urlparse A).netloc ≠ []) :
    (urlparse (urlunparse { urlparse A with fragment := [] })).netloc =
      (urlparse A).netloc := by
  have hs2 : (urlsplit A []).scheme = [] ∨
      SchemeOk (urlsplit A []).scheme := by
    rcases urlsplit_scheme_cases A [] with h | h
    · exact Or.inl (h rfl)
    · exact Or.inr h
  have hChead := rejoin_paramsPhase_head (urlsplit A []).scheme
    (urlsplit A []).path (@urlsplit_path_head A [] hn)
  have hCclean : ∀ x ∈ rejoin
      (paramsPhase (urlsplit A []).scheme (urlsplit A []).path).1
      (paramsPhase (urlsplit A []).scheme (urlsplit A []).path).2,
      cleanChar x = true := by
    intro x hx
    rcases rejoin_paramsPhase_mem hx with h | h
    · exact urlsplit_path_clean A [] x h
    · rw [h]; decide
  exact parse_unsplit_netloc (urlsplit A []).scheme (urlsplit A []).netloc
    (rejoin (paramsPhase (urlsplit A []).scheme (urlsplit A []).path).1
      (paramsPhase (urlsplit A []).scheme (urlsplit A []).path).2)
    ((urlsplit A []).query) hs2 hn (urlsplit_netloc_ok A [])
    (urlsplit_netloc_clean A []) hChead hCclean
    (urlsplit_query_clean A [])

/-- Every link emitLink emits from a base URL with a host normalizes to
a fixed point of crawler._normalize_url: the same-host filter forces a
nonempty netloc on the emitted link. -/
theorem emit_stable {base cand e : Str}
    (hb : (urlparse base).netloc ≠ [])
    (h : emitLink base cand = some e) :
    normList (normList e) = normList e := by
  obtain ⟨hg, he⟩ := emitLink_eq_some h
  have hA : (urlparse (urljoin base cand)).netloc ≠ [] := by
    rw [hg]
    exact hb
  apply normList_idem_netloc
  rw [he, urlparse_unparse_nofrag_netloc (urljoin base cand) hA]
  exact hA

theorem processUrl_inv (env : CEnv) (kw : Bool) (u : Str)
    (henv : FetchOk env) {s : CState} (h : TraceInv s) :
    TraceInv (processUrl env kw s u) := by
  by_cases hf : u ∈ env.fetchExn
  · rw [processUrl_eq_fetchExn env kw s u hf]; exact h
  · have hc := techPhase_core s ((dlookup u env.fetchTbl).getD errorRes)
    have htech : TraceInv
        (techPhase s ((dlookup u env.fetchTbl).getD errorRes)) :=
      traceInv_of_core hc.2.2.2.2.2.2.1 hc.2.1 hc.2.2.1 h
    by_cases hg : dmem (normList u) s.gathered = true
    · rw [processUrl_eq_skip env kw s u hf hg]; exact htech
    · have hg2 : dmem (normList u) s.gathered = false := by
        simpa using hg
      by_cases hw :
          wantsParser ((dlookup u env.fetchTbl).getD errorRes) = true
      · by_cases hp : u ∈ env.parseExn
        · rw [processUrl_eq_parseExn env kw s u hf hg2 hw hp]; exact htech
        · rw [processUrl_eq_parse env kw s u hf hg2 hw hp]
          have hsome := fetch_some_of_wants hw
          have hdone := wantsParser_done hw
          have hun : (urlparse u).netloc ≠ [] :=
            fetchOk_netloc henv (dlookup_mem u env.fetchTbl _ hsome) hdone
          have hcn : (urlparse (normList u)).netloc ≠ [] := by
            rw [urlparse_normList_netloc u hun]
            exact hun
          have hlinks : ∀ l ∈ (((dlookup u env.parseTbl).getD
              ([], [])).1).filterMap (emitLink (normList u)),
              normList (normList l) = normList l := by
            intro l hl
            obtain ⟨cand, hcm, hce⟩ := List.mem_filterMap.mp hl
            exact emit_stable hcn hce
          have henq := enqLinks_inv _ hlinks htech
          have hrc := recordPhase_core
            (enqLinks (techPhase s ((dlookup u env.fetchTbl).getD errorRes))
              ((((dlookup u env.parseTbl).getD ([], [])).1).filterMap
                (emitLink (normList u)))) (normList u)
            ⟨((dlookup u env.fetchTbl).getD errorRes).code,
             ((dlookup u env.fetchTbl).getD errorRes).content_type,
             normList u,
             if kw then ((dlookup u env.parseTbl).getD ([], [])).2 else []⟩
          exact traceInv_of_core hrc.2.2.2.2.1 hrc.2.1 hrc.2.2.1 henq
      · have hw2 :
            wantsParser ((dlookup u env.fetchTbl).getD errorRes) = false := by
          simpa using hw
        rw [processUrl_eq_noparse env kw s u hf hg2 hw2]
        have hrc := recordPhase_core
          (techPhase s ((dlookup u env.fetchTbl).getD errorRes))
          (normList u)
          ⟨((dlookup u env.fetchTbl).getD errorRes).code,
           ((dlookup u env.fetchTbl).getD errorRes).content_type,
           normList u, []⟩
        exact traceInv_of_core hrc.2.2.2.2.1 hrc.2.1 hrc.2.2.1 htech

theorem crawlRun_inv (env : CEnv) (kw : Bool) (henv : FetchOk env) :
    ∀ (n : Nat) {s : CState}, TraceInv s →
      TraceInv (crawlRun env kw n s) := by
  intro n
  induction n with
  | zero => intro s h; exact h
  | succ m ih =>
    intro s h
    rcases hq : s.queue with _ | ⟨u, rest⟩
    · by_cases hnd : (allDirs s).filter (fun d => d ∉ s.checked) = []
      · rw [crawlRun_nil_done env kw m s hq hnd]; exact h
      · rw [crawlRun_nil_reseed env kw m s hq hnd]
        exact ih (reseed_inv _ h)
    · rw [crawlRun_cons env kw m s u rest hq]
      refine ih (processUrl_inv env kw u henv ?_)
      constructor
      · show ((s.trace ++ [u] ++ rest).map normList).Nodup
        rw [List.append_assoc]
        have h1 := h.1
        rw [hq] at h1
        exact h1
      · intro x hx
        rw [List.append_assoc] at hx
        have h2 := h.2 x
        rw [hq] at h2
        exact h2 hx

/-- C1: each CanonicalURL is fetched at most once over the whole crawl —
the canonical forms of all URLs ever passed to http_request, across seed
processing and every discovery pass, are pairwise distinct, and every
fetched canonical URL is counted exactly once. The one assumption,
FetchOk, states httpx's behaviour: a request to a URL without a host
raises httpx.RequestError before any response, so done=True results
exist only at URLs with a nonempty netloc; parser.py's same-host filter
then makes every emitted link normalize to a fixed point of
crawler._normalize_url, so the visited-set guard is exact. -/
theorem c1_fetch_once (env : CEnv) (kw : Bool) (start : Str) (n : Nat)
    (henv : FetchOk env) :
    ((crawlRun env kw n (initState start)).trace.map normList).Nodup ∧
    ∀ c ∈ (crawlRun env kw n (initState start)).trace.map normList,
      countStr c
        ((crawlRun env kw n (initState start)).trace.map normList) =
        1 := by
  have h := crawlRun_inv env kw henv n (initState_inv start)
  have h1 : ((crawlRun env kw n (initState start)).trace.map
      normList).Nodup := by
    have h2 := h.1
    rw [List.map_append] at h2
    exact (List.nodup_append.mp h2).1
  exact ⟨h1, fun c hc => countStr_eq_one h1 hc⟩

/-- Closed instance of the C1 theorem on a two-page site whose fetch
table respects the httpx host requirement. -/
theorem c1_witness :
    FetchOk c1WEnv ∧
    (((crawlRun c1WEnv false 6 (initState "http://x.test/".data)).trace.map
        normList).Nodup ∧
      ∀ c ∈ (crawlRun c1WEnv false 6
          (initState "http://x.test/".data)).trace.map normList,
        countStr c
          ((crawlRun c1WEnv false 6
            (initState "http://x.test/".data)).trace.map normList) = 1) :=
  ⟨by decide,
   c1_fetch_once c1WEnv false "http://x.test/".data 6 (by decide)⟩

theorem aRep_chars : ∀ (n : Nat), ∀ c ∈ aRep n, c = 'a' ∨ c = '/' := by
  intro n
  induction n with
  | zero => intro c hc; cases hc
  | succ m ih =>
    intro c hc
    rcases List.mem_cons.mp hc with rfl | hc
    · exact Or.inl rfl
    rcases List.mem_cons.mp hc with rfl | hc
    · exact Or.inr rfl
    · exact ih c hc

theorem aRep_eq : ∀ (m : Nat), aRep (m + 1) = aCore (m + 1) ++ ['/'] := by
  intro m
  induction m with
  | zero => rfl
  | succ k ih =>
    show 'a' :: '/' :: aRep (k + 1) = aCore (k + 2) ++ ['/']
    rw [ih]
    rfl

theorem aCore_rev : ∀ (m : Nat), ∃ t, (aCore (m + 1)).reverse = 'a' :: t := by
  intro m
  induction m with
  | zero => exact ⟨[], rfl⟩
  | succ k ih =>
    obtain ⟨t, ht⟩ := ih
    refine ⟨t ++ ['/', 'a'], ?_⟩
    show ('a' :: '/' :: aCore (k + 1)).reverse = _
    rw [List.reverse_cons, List.reverse_cons, ht]
    simp

theorem aCore_ne_nil (m : Nat) : aCore (m + 1) ≠ [] := by
  cases m with
  | zero => decide
  | succ k => exact fun h => List.noConfusion h

theorem strip_aRep (m : Nat) :
    stripChar '/' ('/' :: aRep (m + 1)) = aCore (m + 1) := by
  obtain ⟨t, ht⟩ := aCore_rev m
  unfold stripChar
  have h1 : ('/' :: aRep (m + 1)).dropWhile (fun x => x = '/') =
      aRep (m + 1) := by
    rw [List.dropWhile_cons, if_pos (by decide)]
    show List.dropWhile _ ('a' :: '/' :: aRep m) = 'a' :: '/' :: aRep m
    rw [List.dropWhile_cons, if_neg (by decide)]
  rw [h1]
  have h2 : (aRep (m + 1)).reverse = '/' :: (aCore (m + 1)).reverse := by
    rw [aRep_eq]
    simp
  rw [h2, List.dropWhile_cons, if_pos (by decide), ht,
    List.dropWhile_cons, if_neg (by decide), ← ht, List.reverse_reverse]

theorem splitOnChar_ne_nil (c : Char) : ∀ (l : Str), splitOnChar c l ≠ [] := by
  intro l
  induction l with
  | nil => simp [splitOnChar]
  | cons x xs ih =>
    cases h : splitOnChar c xs with
    | nil => exact absurd h ih
    | cons h0 t0 =>
      simp only [splitOnChar, h]
      split <;> simp

theorem splitOnChar_cons_self (c : Char) (l : Str) :
    splitOnChar c (c :: l) = [] :: splitOnChar c l := by
  cases h : splitOnChar c l with
  | nil => exact absurd h (splitOnChar_ne_nil c l)
  | cons h0 t0 =>
    simp only [splitOnChar, h]
    simp

theorem splitOnChar_cons_ne (c x : Char) (l : Str) (h0 : Str)
    (t0 : List Str) (hsp : splitOnChar c l = h0 :: t0) (hx : ¬ x = c) :
    splitOnChar c (x :: l) = (x :: h0) :: t0 := by
  simp only [splitOnChar, hsp]
  simp [hx]

theorem splitOnChar_aCore : ∀ (m : Nat),
    splitOnChar '/' (aCore (m + 1)) = List.replicate (m + 1) ['a'] := by
  intro m
  induction m with
  | zero => rfl
  | succ k ih =>
    show splitOnChar '/' ('a' :: '/' :: aCore (k + 1)) = _
    rw [splitOnChar_cons_ne '/' 'a' ('/' :: aCore (k + 1)) []
      (splitOnChar '/' (aCore (k + 1)))
      (splitOnChar_cons_self '/' (aCore (k + 1))) (by decide), ih]
    rfl

theorem splitOnChar_aRep : ∀ (m : Nat),
    splitOnChar '/' (aRep m) = List.replicate m ['a'] ++ [[]] := by
  intro m
  induction m with
  | zero => rfl
  | succ k ih =>
    show splitOnChar '/' ('a' :: '/' :: aRep k) = _
    rw [splitOnChar_cons_ne '/' 'a' ('/' :: aRep k) []
      (splitOnChar '/' (aRep k))
      (splitOnChar_cons_self '/' (aRep k)) (by decide), ih]
    rfl

theorem httpA_clean (m : Nat) : ∀ c ∈ httpA m, cleanChar c = true := by
  intro c hc
  rcases List.mem_append.mp hc with h | h
  · exact (by decide : ∀ c ∈ "http://x.test/".data, cleanChar c = true) c h
  · rcases aRep_chars m c h with rfl | rfl <;> decide

theorem hash_not_mem_path (m : Nat) : '#' ∉ '/' :: aRep m := by
  intro hm
  rcases List.mem_cons.mp hm with h | h
  · exact absurd h (by decide)
  · rcases aRep_chars m _ h with h2 | h2 <;> exact absurd h2 (by decide)

theorem quest_not_mem_path (m : Nat) : '?' ∉ '/' :: aRep m := by
  intro hm
  rcases List.mem_cons.mp hm with h | h
  · exact absurd h (by decide)
  · rcases aRep_chars m _ h with h2 | h2 <;> exact absurd h2 (by decide)

theorem semi_not_mem_path (m : Nat) : ';' ∉ '/' :: aRep m := by
  intro hm
  rcases List.mem_cons.mp hm with h | h
  · exact absurd h (by decide)
  · rcases aRep_chars m _ h with h2 | h2 <;> exact absurd h2 (by decide)

theorem urlsplit_httpA (m : Nat) :
    urlsplit (httpA m) [] =
      ⟨"http".data, "x.test".data, '/' :: aRep m, [], []⟩ := by
  have hsch : schemePhase (httpA m) =
      (some "http".data, "//x.test/".data ++ aRep m) := by
    unfold schemePhase
    rw [removeUnsafe_of_all (httpA_clean m)]
    show extractScheme
      ("http".data ++ ':' :: ("//x.test/".data ++ aRep m)) = _
    rw [extractScheme_pre "http".data _ (by decide) (by decide) (by decide)
      (by decide)]
    rfl
  have hnet : netlocPhase ("//x.test/".data ++ aRep m) =
      ("x.test".data, '/' :: aRep m) := by
    show netlocPhase ('/' :: '/' :: ("x.test".data ++ ('/' :: aRep m))) = _
    unfold netlocPhase
    rw [if_pos (show List.take 2
      ('/' :: '/' :: ("x.test".data ++ ('/' :: aRep m))) = ['/', '/']
      from rfl)]
    show splitNetloc ("x.test".data ++ ('/' :: aRep m)) = _
    exact splitNetloc_append_stop "x.test".data ('/' :: aRep m) (by decide)
      (Or.inr ⟨'/', rfl, by decide⟩)
  unfold urlsplit
  rw [hsch]
  dsimp only
  rw [hnet]
  dsimp only
  rw [splitAtFirst_not_mem (hash_not_mem_path m)]
  dsimp only
  rw [splitAtFirst_not_mem (quest_not_mem_path m)]
  rfl

theorem up_httpA (m : Nat) :
    urlparse (httpA m) =
      ⟨"http".data, "x.test".data, '/' :: aRep m, [], [], []⟩ := by
  unfold urlparse
  rw [urlsplit_httpA]
  dsimp only
  rw [paramsPhase_of_false (by simp [semi_not_mem_path m])]

theorem unp_httpA (m : Nat) :
    urlunparse ⟨"http".data, "x.test".data, '/' :: aRep m, [], [], []⟩ =
      httpA m := by
  show urlunsplit
    ⟨"http".data, "x.test".data, rejoin ('/' :: aRep m) [], [], []⟩ =
    httpA m
  have hrj : rejoin ('/' :: aRep m) [] = '/' :: aRep m := by
    simp [rejoin]
  rw [hrj, urlunsplit_shape_gen "http".data "x.test".data ('/' :: aRep m)
    [] (by decide) (Or.inr rfl)]
  rw [if_neg (by decide), if_pos rfl, List.append_nil]
  rfl

theorem norm_httpA (m : Nat) : normList (httpA m) = httpA m := by
  unfold normList
  rw [up_httpA]
  show urlunparse ⟨"http".data, "x.test".data, '/' :: aRep m, [], [], []⟩
    = _
  exact unp_httpA m

theorem aRep_length (m : Nat) : (aRep m).length = 2 * m := by
  induction m with
  | zero => rfl
  | succ k ih =>
    show ('a' :: '/' :: aRep k).length = 2 * (k + 1)
    simp [ih]
    omega

theorem httpA_length (m : Nat) : (httpA m).length = 14 + 2 * m := by
  unfold httpA
  rw [List.length_append, aRep_length]
  rfl

theorem httpA_ne_nil (m : Nat) : httpA m ≠ [] := by
  intro h
  have h2 := httpA_length m
  rw [h] at h2
  simp at h2
  omega

theorem httpA_inj {a b : Nat} (h : httpA a = httpA b) : a = b := by
  have h2 := congrArg List.length h
  rw [httpA_length, httpA_length] at h2
  omega

theorem httpA_getLast (m : Nat) : (httpA m).getLast? = some '/' := by
  cases m with
  | zero => decide
  | succ k =>
    have h : httpA (k + 1) =
        ("http://x.test/".data ++ aCore (k + 1)) ++ ['/'] := by
      show "http://x.test/".data ++ aRep (k + 1) = _
      rw [aRep_eq, List.append_assoc]
    rw [h]
    exact List.getLast?_concat _

theorem addSlash_httpA (m : Nat) : addSlash (httpA m) = httpA m := by
  unfold addSlash
  rw [httpA_getLast, if_pos rfl]

theorem mem_of_getLast {l : List Str} {a : Str} : l.getLast? = some a → a ∈ l := by
  induction l with
  | nil => intro h; cases h
  | cons x xs ih =>
    intro h
    cases xs with
    | nil =>
      have hx : x = a := by simpa [List.getLast?] using h
      exact hx ▸ List.mem_cons_self _ _
    | cons y ys =>
      have h2 : (y :: ys).getLast? = some a := by
        simpa [List.getLast?_cons_cons] using h
      exact List.mem_cons_of_mem _ (ih h2)

theorem resolve_fold_id : ∀ (l acc : List Str),
    (∀ s ∈ l, s ≠ ['.'] ∧ s ≠ ['.', '.']) →
    l.foldl (fun acc seg =>
      if seg = ['.', '.'] then acc.dropLast
      else if seg = ['.'] then acc
      else acc ++ [seg]) acc = acc ++ l := by
  intro l
  induction l with
  | nil => intro acc _; simp
  | cons x xs ih =>
    intro acc h
    have hx := h x (List.mem_cons_self _ _)
    show List.foldl _
      (if x = ['.', '.'] then acc.dropLast
       else if x = ['.'] then acc else acc ++ [x]) xs = _
    rw [if_neg hx.2, if_neg hx.1,
      ih (acc ++ [x]) (fun s hs => h s (List.mem_cons_of_mem _ hs))]
    simp

theorem resolveSegments_id (l : List Str)
    (h : ∀ s ∈ l, s ≠ ['.'] ∧ s ≠ ['.', '.']) : resolveSegments l = l := by
  unfold resolveSegments
  have hc : ¬(l.getLast? = some ['.'] ∨ l.getLast? = some ['.', '.']) := by
    intro hc
    rcases hc with hc | hc
    · exact (h _ (mem_of_getLast hc)).1 rfl
    · exact (h _ (mem_of_getLast hc)).2 rfl
  rw [resolve_fold_id l [] h]
  rw [if_neg hc, List.nil_append]

theorem filt_core : ∀ (t : Nat),
    ((List.replicate t ['a'] ++ [[], ['a'], []]).take (t + 2)).filter
        (fun s => s ≠ []) ++
      (List.replicate t ['a'] ++ [[], ['a'], []]).drop (t + 2) =
    List.replicate (t + 1) ['a'] ++ [[]] := by
  intro t
  induction t with
  | zero => rfl
  | succ k ih =>
    show ((['a'] :: (List.replicate k ['a'] ++ [[], ['a'], []])).take
        (k + 3)).filter (fun s => s ≠ []) ++
      (['a'] :: (List.replicate k ['a'] ++ [[], ['a'], []])).drop (k + 3) =
      _
    rw [List.take_succ_cons, List.drop_succ_cons,
      List.filter_cons_of_pos (by decide), List.cons_append, ih]
    rfl

theorem fseg (t : Nat) :
    filterInnerSegs (([] : Str) ::
        (List.replicate t ['a'] ++ [[], ['a'], []])) =
      [] :: (List.replicate (t + 1) ['a'] ++ [[]]) := by
  unfold filterInnerSegs
  dsimp only
  rw [if_neg (by simp : ¬(List.replicate t ['a'] ++ [[], ['a'], []] = []))]
  have hlen : (List.replicate t ['a'] ++ [[], ['a'], []]).length = t + 3 := by
    simp
  rw [hlen]
  exact congrArg (List.cons []) (filt_core t)

theorem intercalate_cons₂ (s a b : Str) (l : List Str) :
    List.intercalate s (a :: b :: l) =
      a ++ s ++ List.intercalate s (b :: l) := by
  show a ++ (s ++ (List.intersperse s (b :: l)).join) = _
  rw [List.append_assoc]
  rfl

theorem intc : ∀ (m : Nat),
    List.intercalate ['/'] (List.replicate m ['a'] ++ [[]]) = aRep m := by
  intro m
  induction m with
  | zero => rfl
  | succ k ih =>
    obtain ⟨b, l2, hb⟩ : ∃ b l2,
        List.replicate k ['a'] ++ [([] : Str)] = b :: l2 := by
      exact List.exists_cons_of_ne_nil (by simp)
    show List.intercalate ['/']
      (['a'] :: (List.replicate k ['a'] ++ [[]])) = _
    rw [hb, intercalate_cons₂, ← hb, ih]
    rfl

theorem intc_full (m : Nat) :
    List.intercalate ['/']
        (([] : Str) :: (List.replicate m ['a'] ++ [[]])) =
      '/' :: aRep m := by
  obtain ⟨b, l2, hb⟩ : ∃ b l2,
      List.replicate m ['a'] ++ [([] : Str)] = b :: l2 := by
    exact List.exists_cons_of_ne_nil (by simp)
  rw [hb, intercalate_cons₂, ← hb, intc m]
  rfl

theorem urljoin_httpA (t : Nat) :
    urljoin (httpA t) ['a', '/'] = httpA (t + 1) := by
  have hp : urlparse ['a', '/'] "http".data =
      ⟨"http".data, [], ['a', '/'], [], [], []⟩ := by rfl
  have hbp : splitOnChar '/' ('/' :: aRep t) =
      ([] : Str) :: (List.replicate t ['a'] ++ [[]]) := by
    rw [splitOnChar_cons_self, splitOnChar_aRep]
  have hlast : ((([] : Str)) ::
      (List.replicate t ['a'] ++ [[]])).getLast? = some ([] : Str) := by
    show ((([] : Str) :: List.replicate t ['a']) ++ [[]]).getLast? = _
    exact List.getLast?_concat _
  unfold urljoin
  rw [if_neg (httpA_ne_nil t),
    if_neg (show ¬(['a', '/'] : Str) = [] from by decide)]
  rw [up_httpA]
  dsimp only
  rw [hp]
  dsimp only
  rw [if_neg (show ¬((['h', 't', 't', 'p'] : Str) ≠ ['h', 't', 't', 'p'] ∨
    (['h', 't', 't', 'p'] : Str) ∉ uses_relative) from by decide)]
  rw [if_neg (show ¬((['h', 't', 't', 'p'] : Str) ∈ uses_netloc ∧
    ([] : Str) ≠ []) from by decide)]
  rw [if_neg (show ¬((['a', '/'] : Str) = [] ∧ ([] : Str) = []) from by
    decide)]
  rw [if_pos (show (['h', 't', 't', 'p'] : Str) ∈ uses_netloc from by
    decide)]
  rw [if_neg (show ¬(List.take 1 (['a', '/'] : Str) = ['/']) from by
    decide)]
  rw [hbp, hlast]
  rw [if_neg (show ¬(some ([] : Str) ≠ some []) from fun h => h rfl)]
  have hsp2 : splitOnChar '/' (['a', '/'] : Str) = [['a'], []] := rfl
  rw [hsp2]
  have happ : (([] : Str) :: (List.replicate t ['a'] ++ [[]])) ++
      [['a'], []] =
      ([] : Str) :: (List.replicate t ['a'] ++ [[], ['a'], []]) := by
    simp
  rw [happ, fseg t]
  have hdots : ∀ s ∈ ([] : Str) ::
      (List.replicate (t + 1) ['a'] ++ [[]]),
      s ≠ ['.'] ∧ s ≠ ['.', '.'] := by
    intro s hs
    rcases List.mem_cons.mp hs with rfl | hs
    · exact ⟨by decide, by decide⟩
    rcases List.mem_append.mp hs with hs | hs
    · rw [List.eq_of_mem_replicate hs]
      exact ⟨by decide, by decide⟩
    · rw [List.mem_singleton.mp hs]
      exact ⟨by decide, by decide⟩
  rw [resolveSegments_id _ hdots, intc_full (t + 1)]
  rw [if_neg (show ¬(('/' :: aRep (t + 1)) = []) from
    fun h => List.noConfusion h)]
  exact unp_httpA (t + 1)

theorem segs_httpA (m : Nat) :
    path_segments_of (httpA (m + 1)) = List.replicate (m + 1) ['a'] := by
  unfold path_segments_of
  rw [up_httpA]
  dsimp only
  rw [strip_aRep m]
  rw [if_neg (aCore_ne_nil m)]
  exact splitOnChar_aCore m

theorem dataAt_eq {n : Nat} (h : 2 ≤ n) : dataAt n = some (errData n) := by
  unfold dataAt
  rw [if_pos h]

theorem ins_spine : ∀ (rem i : Nat),
    insertSegs (errData (i + rem + 2)) (List.replicate (rem + 2) ['a'])
      (SNode.node (dataAt i) (aSpine (i + 1) (rem + 1))) =
    SNode.node (dataAt i) (aSpine (i + 1) (rem + 2)) := by
  intro rem
  induction rem with
  | zero =>
    intro i
    show SNode.node (dataAt i) (.cons "a".data (.node (dataAt (i + 1))
      (.cons ['a'] (.node (some (errData (i + 0 + 2))) .nil) .nil)) .nil) =
      SNode.node (dataAt i) (aSpine (i + 1) (0 + 2))
    rw [show aSpine (i + 1) (0 + 2) = .cons "a".data (.node (dataAt (i + 1))
      (.cons "a".data (.node (dataAt (i + 1 + 1)) .nil) .nil)) .nil from
      rfl]
    rw [dataAt_eq (show 2 ≤ i + 1 + 1 from by omega)]
  | succ rem ih =>
    intro i
    show SNode.node (dataAt i) (.cons "a".data
      (insertSegs (errData (i + (rem + 1) + 2))
        (List.replicate (rem + 2) ['a'])
        (.node (dataAt (i + 1)) (aSpine (i + 2) (rem + 1)))) .nil) =
      SNode.node (dataAt i) (aSpine (i + 1) (rem + 3))
    rw [show errData (i + (rem + 1) + 2) = errData (i + 1 + rem + 2) from
      by congr 1; omega]
    rw [ih (i + 1)]
    rfl

theorem add_spine (j : Nat) (d : PageData) (hd : d = errData (j + 2)) :
    add_to_sitemap (SNode.node none (aSpine 1 (j + 1))) (httpA (j + 2))
      d = SNode.node none (aSpine 1 (j + 2)) := by
  subst hd
  unfold add_to_sitemap
  dsimp only
  rw [segs_httpA (j + 1)]
  rw [if_neg ?hc]
  case hc =>
    intro h
    rcases h with h | ⟨h1, _⟩
    · exact absurd h (by simp)
    · rw [List.length_replicate] at h1
      omega
  rw [show errData (j + 2) = errData (0 + j + 2) from by congr 1; omega]
  exact ins_spine j 0

theorem map_ext_httpA : ∀ (l : List Nat) (f g : Nat → Str),
    (∀ i ∈ l, f i = g i) → l.map f = l.map g := by
  intro l
  induction l with
  | nil => intro f g _; rfl
  | cons a L ih =>
    intro f g h
    simp only [List.map_cons]
    rw [h a (List.mem_cons_self _ _),
      ih f g (fun i hi => h i (List.mem_cons_of_mem _ hi))]

theorem aSpine_ne_nil (j rem : Nat) : aSpine j (rem + 1) ≠ .nil :=
  fun h => SChildren.noConfusion h

theorem dirs_spine : ∀ (rem j t : Nat),
    dirUrlsC (aSpine j (rem + 1)) (httpA t) =
      (List.range rem).map (fun i => httpA (t + 1 + i)) := by
  intro rem
  induction rem with
  | zero => intro j t; rfl
  | succ rem ih =>
    intro j t
    show (if aSpine (j + 1) (rem + 1) = .nil then []
      else
        urljoin (addSlash (httpA t)) ("a".data ++ ['/']) ::
          dirUrlsC (aSpine (j + 1) (rem + 1))
            (urljoin (addSlash (httpA t)) ("a".data ++ ['/']))) ++
      dirUrlsC .nil (httpA t) = _
    rw [if_neg (aSpine_ne_nil (j + 1) rem)]
    have hjoin : urljoin (addSlash (httpA t)) ("a".data ++ ['/']) =
        httpA (t + 1) := by
      rw [addSlash_httpA]
      exact urljoin_httpA t
    rw [hjoin, ih (j + 1) (t + 1)]
    show httpA (t + 1) ::
      (List.range rem).map (fun i => httpA (t + 1 + 1 + i)) ++ [] = _
    rw [List.append_nil, List.range_succ_eq_map, List.map_cons,
      List.map_map]
    have htail : (List.range rem).map (fun i => httpA (t + 1 + 1 + i)) =
        (List.range rem).map ((fun i => httpA (t + 1 + i)) ∘ Nat.succ) :=
      map_ext_httpA _ _ _ (fun i _ => by
        show httpA (t + 1 + 1 + i) = httpA (t + 1 + (i + 1))
        congr 1
        omega)
    rw [htail]

theorem foldl_setInsert_eq : ∀ (l acc : List Str), (acc ++ l).Nodup →
    l.foldl setInsert acc = acc ++ l := by
  intro l
  induction l with
  | nil => intro acc _; simp
  | cons x xs ih =>
    intro acc h
    have hx : x ∉ acc := by
      intro hmem
      rcases List.nodup_append.mp h with ⟨_, _, hdisj⟩
      exact hdisj hmem (List.mem_cons_self _ _)
    show List.foldl setInsert (setInsert acc x) xs = _
    rw [show setInsert acc x = acc ++ [x] from by
      unfold setInsert; rw [if_neg hx]]
    rw [ih (acc ++ [x]) (by simpa using h)]
    simp

theorem setOfList_eq_self {l : List Str} (h : l.Nodup) :
    setOfList l = l := by
  unfold setOfList
  rw [foldl_setInsert_eq l [] (by simpa using h)]
  simp

theorem allDirs_M (j : Nat) :
    allDirs (Mstate j) =
      (List.range (j + 1)).map (fun i => httpA (i + 3)) := by
  unfold allDirs
  show setOfList (dirUrlsC (aSpine 1 (j + 2)) (httpA 2)) = _
  rw [dirs_spine (j + 1) 1 2]
  have hnd : ((List.range (j + 1)).map
      (fun i => httpA (2 + 1 + i))).Nodup := by
    refine List.Nodup.map ?_ (List.nodup_range _)
    intro a b hab
    have := httpA_inj hab
    omega
  rw [setOfList_eq_self hnd]
  exact map_ext_httpA _ _ _ (fun i _ => by congr 1; omega)

theorem filt_M (j : Nat) :
    (allDirs (Mstate j)).filter (fun d => d ∉ (Mstate j).checked) =
      [httpA (j + 3)] := by
  rw [allDirs_M]
  show ((List.range (j + 1)).map (fun i => httpA (i + 3))).filter
    (fun d => d ∉ (List.range j).map (fun i => httpA (i + 3))) = _
  rw [List.range_succ, List.map_append, List.filter_append]
  have h1 : ((List.range j).map (fun i => httpA (i + 3))).filter
      (fun d => d ∉ (List.range j).map (fun i => httpA (i + 3))) = [] := by
    rw [List.filter_eq_nil]
    intro a ha
    simp [ha]
  have hnm : httpA (j + 3) ∉
      (List.range j).map (fun i => httpA (i + 3)) := by
    intro hm
    obtain ⟨i, hi, he⟩ := List.mem_map.mp hm
    have h2 := httpA_inj he
    have h3 := List.mem_range.mp hi
    omega
  have h2 : (([j] : List Nat).map (fun i => httpA (i + 3))).filter
      (fun d => d ∉ (List.range j).map (fun i => httpA (i + 3))) =
      [httpA (j + 3)] := by
    simp only [List.map_cons, List.map_nil, List.filter_cons,
      List.filter_nil]
    rw [if_pos (decide_eq_true hnm)]
  rw [h1, h2, List.nil_append]

theorem cstate_ext {a b : CState}
    (h1 : a.start = b.start) (h2 : a.queue = b.queue)
    (h3 : a.visited = b.visited) (h4 : a.gathered = b.gathered)
    (h5 : a.sitemap = b.sitemap) (h6 : a.technologies = b.technologies)
    (h7 : a.checked = b.checked) (h8 : a.trace = b.trace)
    (h9 : a.passes = b.passes) : a = b := by
  cases a
  cases b
  simp only [CState.mk.injEq]
  exact ⟨h1, h2, h3, h4, h5, h6, h7, h8, h9⟩

theorem dlookup_eq_none {α : Type} (k : Str) :
    ∀ (d : List (Str × α)), (∀ p ∈ d, p.1 ≠ k) → dlookup k d = none := by
  intro d
  induction d with
  | nil => intro _; rfl
  | cons p rest ih =>
    intro h
    obtain ⟨k2, v2⟩ := p
    show dlookup k ((k2, v2) :: rest) = none
    unfold dlookup
    rw [if_neg (fun he => h (k2, v2) (List.mem_cons_self _ _) he.symm)]
    exact ih (fun p hp => h p (List.mem_cons_of_mem _ hp))

theorem dictInsert_append {α : Type} :
    ∀ (d : List (Str × α)) (k : Str) (v : α), (∀ p ∈ d, p.1 ≠ k) →
      dictInsert d k v = d ++ [(k, v)] := by
  intro d
  induction d with
  | nil => intro k v _; rfl
  | cons p rest ih =>
    intro k v h
    obtain ⟨k2, v2⟩ := p
    show dictInsert ((k2, v2) :: rest) k v = _
    unfold dictInsert
    rw [if_neg (fun he => h (k2, v2) (List.mem_cons_self _ _) he.symm)]
    rw [ih k v (fun p hp => h p (List.mem_cons_of_mem _ hp))]
    rfl

set_option maxHeartbeats 1600000 in
theorem process_chain (j : Nat) :
    processUrl c4dEnv false
      { chainState j with queue := [], trace := (chainState j).trace ++ [httpA (j + 2)] }
      (httpA (j + 2)) = Mstate j := by
  have hf : httpA (j + 2) ∉ c4dEnv.fetchExn := List.not_mem_nil _
  have hkey : ∀ p ∈ (List.range j).map
      (fun i => (httpA (i + 2), errData (i + 2))),
      p.1 ≠ httpA (j + 2) := by
    intro p hp he
    obtain ⟨i, hi, hpe⟩ := List.mem_map.mp hp
    rw [← hpe] at he
    have h2 := httpA_inj he
    have h3 := List.mem_range.mp hi
    omega
  have hg : dmem (normList (httpA (j + 2)))
      ({ chainState j with queue := ([] : List Str), trace := (chainState j).trace ++ [httpA (j + 2)] } : CState).gathered = false := by
    rw [norm_httpA]
    show dmem (httpA (j + 2)) ((List.range j).map
      (fun i => (httpA (i + 2), errData (i + 2)))) = false
    unfold dmem
    rw [dlookup_eq_none _ _ hkey]
    rfl
  have hw : wantsParser ((dlookup (httpA (j + 2))
      c4dEnv.fetchTbl).getD errorRes) = false := rfl
  rw [processUrl_eq_noparse c4dEnv false _ (httpA (j + 2)) hf hg hw]
  rw [techPhase_done_false _ (show ((dlookup (httpA (j + 2))
    c4dEnv.fetchTbl).getD errorRes).done = false from rfl), norm_httpA]
  unfold recordPhase
  dsimp only [chainState, Mstate]
  simp only [CState.mk.injEq]
  refine ⟨trivial, trivial, trivial, ?_, ?_, trivial, trivial, ?_, trivial⟩
  · show dictInsert ((List.range j).map
      (fun i => (httpA (i + 2), errData (i + 2)))) (httpA (j + 2)) _ =
      (List.range (j + 1)).map (fun i => (httpA (i + 2), errData (i + 2)))
    rw [dictInsert_append _ _ _ hkey, List.range_succ, List.map_append]
    rfl
  · exact add_spine j _ rfl
  · show (List.range j).map (fun i => httpA (i + 2)) ++ [httpA (j + 2)] =
      (List.range (j + 1)).map (fun i => httpA (i + 2))
    rw [List.range_succ, List.map_append]
    rfl

theorem reseed_M (j : Nat) :
    reseed (Mstate j) [httpA (j + 3)] = chainState (j + 1) := by
  have hnm : httpA (j + 3) ∉
      (List.range (j + 1)).map (fun i => httpA (i + 2)) := by
    intro hm
    obtain ⟨i, hi, he⟩ := List.mem_map.mp hm
    have h2 := httpA_inj he
    have h3 := List.mem_range.mp hi
    omega
  unfold reseed
  show (let s1 := dirStep (Mstate j) (httpA (j + 3)); { s1 with checked := s1.checked ++ [httpA (j + 3)], passes := s1.passes + 1 }) = chainState (j + 1)
  unfold dirStep
  rw [norm_httpA, if_neg ?hm]
  case hm => exact hnm
  refine cstate_ext rfl rfl ?_ rfl rfl rfl ?_ rfl rfl
  · show (List.range (j + 1)).map (fun i => httpA (i + 2)) ++
      [httpA (j + 3)] =
      (List.range (j + 2)).map (fun i => httpA (i + 2))
    conv_rhs => rw [List.range_succ, List.map_append]
    rfl
  · show (List.range j).map (fun i => httpA (i + 3)) ++ [httpA (j + 3)] =
      (List.range (j + 1)).map (fun i => httpA (i + 3))
    rw [List.range_succ, List.map_append]
    rfl

theorem step_chain (n j : Nat) :
    crawlRun c4dEnv false (n + 2) (chainState j) =
      crawlRun c4dEnv false n (chainState (j + 1)) := by
  rw [crawlRun_cons c4dEnv false (n + 1) (chainState j) (httpA (j + 2))
    [] rfl]
  rw [process_chain j]
  rw [crawlRun_nil_reseed c4dEnv false n (Mstate j) rfl
    (by rw [filt_M]; exact fun h => List.noConfusion h)]
  rw [filt_M, reseed_M]

theorem step_init (n : Nat) :
    crawlRun c4dEnv false (n + 2) (initState (httpA 2)) =
      crawlRun c4dEnv false n (chainState 1) := by
  rw [crawlRun_cons c4dEnv false (n + 1) (initState (httpA 2)) (httpA 2)
    [] rfl]
  have h1 : processUrl c4dEnv false
      { initState (httpA 2) with queue := [], trace := (initState (httpA 2)).trace ++ [httpA 2] }
      (httpA 2) = Mstate 0 := by decide
  rw [h1]
  rw [crawlRun_nil_reseed c4dEnv false n (Mstate 0) rfl
    (by rw [filt_M]; exact fun h => List.noConfusion h)]
  rw [filt_M, reseed_M]

theorem chain_notDone : ∀ (n j : Nat),
    ¬ IsDone (crawlRun c4dEnv false n (chainState j)) := by
  intro n
  induction n using Nat.strong_induction_on with
  | _ n ih =>
    intro j
    match n with
    | 0 =>
      intro hd
      exact List.noConfusion hd.1
    | 1 =>
      intro hd
      rw [crawlRun_cons c4dEnv false 0 (chainState j) (httpA (j + 2))
        [] rfl, process_chain j] at hd
      have hd2 : IsDone (Mstate j) := hd
      have h2 := hd2.2
      rw [filt_M j] at h2
      exact List.noConfusion h2
    | n2 + 2 =>
      rw [step_chain n2 j]
      exact ih n2 (by omega) (j + 1)

theorem ladder_notDone (n : Nat) :
    ¬ IsDone (crawlRun c4dEnv false n (initState (httpA 2))) := by
  match n with
  | 0 =>
    intro hd
    exact List.noConfusion hd.1
  | 1 =>
    intro hd
    have h1 : crawlRun c4dEnv false 1 (initState (httpA 2)) =
        Mstate 0 := by decide
    rw [h1] at hd
    have h2 := hd.2
    rw [filt_M 0] at h2
    exact List.noConfusion h2
  | n2 + 2 =>
    rw [step_init n2]
    exact chain_notDone n2 1


/-- C4 counterexample, two parts. (1) Depth bound false: a finite acyclic
link graph (each directory page links one new sibling directory's file)
whose crawl reaches DONE only after 3 discovery passes although the
maximum directory depth of the resulting tree is 1 — the pass count is
NOT bounded by the maximum directory depth. (2) Termination false: for
the two-segment seed http://x.test/a/a/ on a site where every fetch is a
transport error, _get_all_directory_urls joins the sitemap keys against
the full start URL, minting one new deeper directory URL every pass, so
the discovery loop never reaches DONE at any fuel. -/
theorem c4_counterexample :
    (IsDone (crawlRun c4Env false 20 (initState "http://x.test/".data)) ∧
    (crawlRun c4Env false 20 (initState "http://x.test/".data)).passes =
      3 ∧
    maxDirDepth
      (crawlRun c4Env false 20
        (initState "http://x.test/".data)).sitemap = 1 ∧
    (crawlRun c4Env false 20 (initState "http://x.test/".data)).passes >
      maxDirDepth
        (crawlRun c4Env false 20
          (initState "http://x.test/".data)).sitemap) ∧
    ∀ n : Nat,
      ¬ IsDone (crawlRun c4dEnv false n (initState (httpA 2))) :=
  ⟨⟨by decide, by decide, by decide, by decide⟩, ladder_notDone⟩

end Octocrawl

